import Mathlib

/-!
# TiledArray: tiling descriptors and the 2-D process grid

A shallow embedding of `src/TiledArray/tiled_range1.h` (class `TiledRange1`), of
`src/TiledArray/proc_grid.h` (class `ProcGrid`), of `Array::make_shape` and the index-taking
methods of `Array` from `src/TiledArray/array.h`, and of the tile operations `Neg`, `Subt`
and `ScalMult` from `src/TiledArray/tile_op`, followed by theorems about them.

Conventions of the embedding

* Index values (`std::size_t`, `uint_fast32_t`, both 64 bits wide) are natural numbers.
  The arithmetic on them that decides a tiling or a grid is machine arithmetic, reduced
  modulo `2^64`: the sums `start_tile_index + (last - first) - 1` and `t + range_.start()[0]`
  of `TiledRange1`, the products `rows_ * cols_` and `local_rows_ * local_cols_` and the sum
  `nprocs + cols_ - 1` of `ProcGrid` (`uadd`, `umul`), and the unsigned subtractions that can
  go below zero, such as `i - range_.start()[0]` in `TiledRange1::tile` and the size
  `finish - start` of a range (`usub`).  The products `proc_rows_ * proc_cols_`, `x * y`
  and `test_x * test_y`, which are at most `nprocs`, the local counts, the ranks of a group
  and `x + delta` in `ProcGrid::minimize_unused_procs` are taken exactly, and
  `int_fast32_t(x) - delta` there is a signed integer.  A theorem that needs an argument to
  be a value of its type says so (`P < 2^64`).
* The `ProcessID` members `rank_row_` and `rank_col_` are integers (they start at -1).
* A call that throws, violates an assertion, or runs into undefined behaviour (a read past
  the end of a sequence, a division by zero) returns `Except.error` with the matching
  `Error`; otherwise it returns `Except.ok`.
* Mutable members become fields of a structure that is passed through explicitly.
* An iterator into `tile_ranges_` is its position; a process group is the list of its ranks;
  a shape is the answer of `is_zero` on each ordinal; a bitset is a list of bits.
* A loop that need not terminate in C++ takes a bound on its iterations that suffices
  whenever it does terminate; running out of it is reported as undefined behaviour.
* `std::equal` with three arguments reads past the end of its second sequence when that one
  is the shorter; what it finds there is left arbitrary (`beyond`).
-/

namespace TiledArray

/-! ## Errors -/

/-- Ways in which a call can fail to produce a value. -/
inductive Error where
  /-- The exception `std::runtime_error` raised by `TA_ASSERT(cond, std::runtime_error, msg)`. -/
  | runtime_error
  /-- The exception `std::out_of_range`, raised by `TA_ASSERT(cond, std::out_of_range, msg)` or by
  `std::vector::at`, and the failure of a `TA_USER_ASSERT` whose message reports an index
  out of range. -/
  | out_of_range
  /-- Failure of a one-argument `TA_ASSERT(cond)`. -/
  | assertion
  /-- The exception raised when an array that has no implementation object is used. -/
  | uninitialized
  /-- Undefined behaviour of the C++ program: reading outside a sequence or dividing by
  zero. -/
  | undefined
  deriving DecidableEq

/-- Modelled from the spec: the assertion macro `TA_ASSERT` (declared in `TiledArray/error.h`,
which is not among the sources).  Following the spec ("fails with InvalidTiling",
"fails OutOfRange", "non-recoverable local precondition failures that abort that
evaluation") a violated assertion raises the given error and nothing after it is executed. -/
def TA_ASSERT (cond : Bool) (e : Error) : Except Error Unit :=
  if cond then .ok () else .error e

/-- Word size of `std::size_t`. -/
def word_bits : Nat := 64

/-- Subtraction of unsigned machine integers `a - b`: the difference when `b ≤ a`, and the
wrapped value `2^64 - (b - a)` otherwise. -/
def usub (a b : Nat) : Nat :=
  if b ≤ a then a - b else 2 ^ word_bits - (b - a)

/-- Addition of unsigned machine integers `a + b`: the sum modulo `2^64`. -/
def uadd (a b : Nat) : Nat := (a + b) % 2 ^ word_bits

/-- Multiplication of unsigned machine integers `a * b`: the product modulo `2^64`. -/
def umul (a b : Nat) : Nat := (a * b) % 2 ^ word_bits

/-- Checked unsigned division `a / b`; dividing by zero is undefined behaviour. -/
def udiv (a b : Nat) : Except Error Nat :=
  if b = 0 then .error .undefined else .ok (a / b)

/-- Checked unsigned remainder `a % b`; dividing by zero is undefined behaviour. -/
def umod (a b : Nat) : Except Error Nat :=
  if b = 0 then .error .undefined else .ok (a % b)

/-! ## `Range<I, 1, ...>` -/

/-- Modelled from the spec: the one-dimensional `Range<I, 1, LevelTag, CoordinateSystem<1>>`
of `TiledArray/range.h` (not among the sources): a half-open interval `[start, finish)` of
indices, "tile i = [a_i, a_{i+1})".  `Range()` is `[0, 0)` and `resize(s, f)` replaces both
ends. -/
structure Range where
  /-- First index of the interval, `start()[0]`. -/
  start : Nat
  /-- One past the last index of the interval, `finish()[0]`. -/
  finish : Nat
  deriving DecidableEq

/-- Number of indices in the interval, `size()[0]`: the unsigned difference
`finish - start`. -/
def Range.size (r : Range) : Nat := usub r.finish r.start

/-- Membership test `includes(e)`: `start <= e < finish`. -/
def Range.includes (r : Range) (e : Nat) : Bool :=
  decide (r.start ≤ e) && decide (e < r.finish)

/-- The function `make_range1(s, f)` of tiled_range1.h. -/
def make_range1 (s f : Nat) : Range := ⟨s, f⟩

/-- The function `make_tile_range1(s, f)` of tiled_range1.h. -/
def make_tile_range1 (s f : Nat) : Range := ⟨s, f⟩

/-! ## `TiledRange1` -/

/-- Data members of `TiledRange1<I>`. -/
structure TiledRange1 where
  /-- Stores the overall dimensions of the tiles. -/
  range_ : Range
  /-- Stores overall element dimensions. -/
  element_range_ : Range
  /-- Stores the dimensions of each tile. -/
  tile_ranges_ : List Range
  /-- Maps element index to tile index (secondary data). -/
  elem2tile_ : List Nat
  deriving DecidableEq

namespace TiledRange1

/-- The loop of `valid_`:
`for (; first != (last - 1); ++first) if (*first >= *(first + 1)) return false; return true;`
run on the remaining part `[first, last)` of the boundary sequence.  On the empty sequence
`first != last - 1` holds and `*first` reads past the end. -/
def valid_loop : List Nat → Except Error Bool
  | [] => .error .undefined
  | [_] => .ok true
  | a :: b :: rest => if a ≥ b then .ok false else valid_loop (b :: rest)

/-- The method `valid_(first, last)`: the test `(last - first) == 2` followed by the loop. -/
def valid_ (a : List Nat) : Except Error Bool :=
  if a.length = 2 then .ok false else valid_loop a

/-- The loop of `init_tiles_`:
`for (; first != (last - 1); ++first) tile_ranges_.push_back(make_tile_range1(*first, *(first + 1)));`
It is only reached with a non-empty sequence. -/
def push_tiles : List Nat → List Range → List Range
  | a :: b :: rest, tiles => push_tiles (b :: rest) (tiles ++ [make_tile_range1 a b])
  | _, tiles => tiles

/-- The method `init_tiles_(first, last, start_tile_index)`.  The upper end of the tile
range, `start_tile_index + last - first - 1`, is the machine sum of the starting tile index
and the number of tiles `(last - first) - 1`; the sequence is not empty here. -/
def init_tiles_ (r : TiledRange1) (a : List Nat) (start_tile_index : Nat) :
    Except Error TiledRange1 := do
  let v ← valid_ a
  TA_ASSERT v .runtime_error
  match a.head?, a.getLast? with
  | some first, some last =>
    .ok { r with
          range_ := ⟨start_tile_index, uadd start_tile_index (a.length - 1)⟩
          element_range_ := ⟨first, last⟩
          tile_ranges_ := push_tiles a r.tile_ranges_ }
  | _, _ => .error .undefined

/-- The call `v.resize(n)` of `std::vector`: truncate, or pad with value-initialised
entries. -/
def vector_resize (v : List Nat) (n : Nat) : List Nat :=
  v.take n ++ List.replicate (n - v.length) 0

/-- Inner loop of `init_map_`:
`for (e = start; e < finish; ++e) elem2tile_[e - element_range_.start()[0]] = v;`
with `e` the current element and the second argument the number of iterations left. -/
def fill_tile (estart v : Nat) : Nat → Nat → List Nat → List Nat
  | _, 0, m => m
  | e, k + 1, m => fill_tile estart v (e + 1) k (m.set (usub e estart) v)

/-- Outer loop of `init_map_`: `for (t = ...; t < range_.size()[0]; ++t)`, with `t` the
current tile and the second argument the number of iterations left.  `tile_ranges_[t]` is an
unchecked access, and the value stored, `t + range_.start()[0]`, is a machine sum. -/
def fill_map (r : TiledRange1) : Nat → Nat → List Nat → Except Error (List Nat)
  | _, 0, m => .ok m
  | t, k + 1, m =>
    match r.tile_ranges_[t]? with
    | none => .error .undefined
    | some tr =>
      fill_map r (t + 1) k
        (fill_tile r.element_range_.start (uadd t r.range_.start) tr.start
          (tr.finish - tr.start) m)

/-- The method `init_map_()`. -/
def init_map_ (r : TiledRange1) : Except Error TiledRange1 :=
  if r.element_range_.size = 0 then .ok r
  else do
    let m ← fill_map r 0 r.range_.size (vector_resize r.elem2tile_ r.element_range_.size)
    .ok { r with elem2tile_ := m }

/-- The constructor `TiledRange1(first, last, start_tile_index)`: all members start empty,
then `init_tiles_` and `init_map_` run. -/
def ctor (a : List Nat) (start_tile_index : Nat) : Except Error TiledRange1 := do
  let r ← init_tiles_ ⟨⟨0, 0⟩, ⟨0, 0⟩, [], []⟩ a start_tile_index
  init_map_ r

/-- The accessor `tiles()`. -/
def tiles (r : TiledRange1) : Range := r.range_

/-- The accessor `elements()`. -/
def elements (r : TiledRange1) : Range := r.element_range_

/-- The method `tile(i)`: `tile_ranges_.at(i - range_.start()[0])`, the subtraction being
unsigned; `at` throws `std::out_of_range` for a position outside the vector. -/
def tile (r : TiledRange1) (i : Nat) : Except Error Range :=
  match r.tile_ranges_[usub i r.range_.start]? with
  | some t => .ok t
  | none => .error .out_of_range

/-- The method `element2tile(e)`; `elem2tile_[i]` is an unchecked access. -/
def element2tile (r : TiledRange1) (e : Nat) : Except Error Nat := do
  TA_ASSERT (r.element_range_.includes e) .out_of_range
  match r.elem2tile_[usub e r.element_range_.start]? with
  | some t => .ok t
  | none => .error .undefined

/-- The default constructor `TiledRange1()`: tile range `[0, 0)`, element range `[0, 0)`, one
tile range `[0, 0)` in `tile_ranges_`, one entry 0 in `elem2tile_`, then `init_map_`. -/
def default_ctor : Except Error TiledRange1 :=
  init_map_ ⟨make_range1 0 0, make_tile_range1 0 0, List.replicate 1 (make_tile_range1 0 0),
    List.replicate 1 0⟩

/-- The iterator `begin()`, as a position in `tile_ranges_`. -/
def begin (_r : TiledRange1) : Nat := 0

/-- The iterator `end()`, as a position in `tile_ranges_`: one past the last tile. -/
def end_ (r : TiledRange1) : Nat := r.tile_ranges_.length

/-- Dereferencing a tile iterator at position `pos`; at `end()` or beyond there is no tile
to read. -/
def deref (r : TiledRange1) (pos : Nat) : Except Error Range :=
  match r.tile_ranges_[pos]? with
  | some t => .ok t
  | none => .error .undefined

/-- The method `find(e)`: `end()` when the element range does not include `e`, otherwise
`begin()` advanced by `element2tile(e)`.  Advancing an iterator beyond `end()` is undefined
behaviour. -/
def find (r : TiledRange1) (e : Nat) : Except Error Nat :=
  if !r.element_range_.includes e then .ok r.end_
  else do
    let t ← r.element2tile e
    if r.begin + t ≤ r.end_ then .ok (r.begin + t) else .error .undefined

/-- Modelled from the spec: the comparison `operator==` of `Range` (range.h is not among the
sources): two intervals are equal when both ends are. -/
def range_equal (a b : Range) : Bool :=
  decide (a.start = b.start) && decide (a.finish = b.finish)

/-- The call `std::equal(first1, last1, first2)` on two sequences of tile ranges: every
element of the first sequence is compared with the element at the same position of the
second one, up to the first mismatch.  When the second sequence ends first, the comparison
goes on behind its end; `beyond k` is what is found `k` positions behind it, and the last
argument counts these positions. -/
def std_equal (beyond : Nat → Range) : List Range → List Range → Nat → Bool
  | [], _, _ => true
  | x :: xs, [], k => range_equal x (beyond k) && std_equal beyond xs [] (k + 1)
  | x :: xs, y :: ys, k => range_equal x y && std_equal beyond xs ys k

/-- The comparison `operator==(r1, r2)`:
`std::equal(r1.begin(), r1.end(), r2.begin()) && (r1.tiles() == r2.tiles()) &&
(r1.elements() == r2.elements())`; `beyond` is what lies behind the tiles of `r2`. -/
def operator_eq (beyond : Nat → Range) (r1 r2 : TiledRange1) : Bool :=
  std_equal beyond r1.tile_ranges_ r2.tile_ranges_ 0 && range_equal r1.tiles r2.tiles &&
    range_equal r1.elements r2.elements

/-- The comparison `operator!=(r1, r2)`: `! operator==(r1, r2)`. -/
def operator_ne (beyond : Nat → Range) (r1 r2 : TiledRange1) : Bool :=
  !operator_eq beyond r1 r2

/-- The function `swap(r0, r1)`: exchanges the four members; the result is the pair of the
new `r0` and the new `r1`.  The `swap` of `Range` (range.h) is taken to exchange the two
intervals. -/
def swap (r0 r1 : TiledRange1) : TiledRange1 × TiledRange1 :=
  (⟨r1.range_, r1.element_range_, r1.tile_ranges_, r1.elem2tile_⟩,
   ⟨r0.range_, r0.element_range_, r0.tile_ranges_, r0.elem2tile_⟩)

/-- The method `resize(first, last, start_tile_index)` called on `r`: a temporary is
constructed, swapped with `*this`, and `*this` is returned.  The result is the pair of the
new value of `*this` and the value of the returned reference. -/
def resize (r : TiledRange1) (a : List Nat) (start_tile_index : Nat) :
    Except Error (TiledRange1 × TiledRange1) := do
  let temp ← ctor a start_tile_index
  let this := (swap r temp).1
  .ok (this, this)

/-- The assignment `r = rng`: a copy of `rng` is swapped with `*this`, and `*this` is
returned.  The result is the pair of the new value of `*this` and the value of the returned
reference. -/
def operator_assign (r rng : TiledRange1) : TiledRange1 × TiledRange1 :=
  let temp : TiledRange1 := ⟨rng.range_, rng.element_range_, rng.tile_ranges_, rng.elem2tile_⟩
  let this := (swap r temp).1
  (this, this)

/-- The value of `*this` after the call `r.resize(first, last, start_tile_index)`, whether
the call returns or throws: the temporary is constructed first, and only when that has
succeeded is it swapped with `*this`; an exception of the constructor leaves the method
before the swap. -/
def resize_this (r : TiledRange1) (a : List Nat) (start_tile_index : Nat) : TiledRange1 :=
  match ctor a start_tile_index with
  | .ok temp => (swap r temp).1
  | .error _ => r

end TiledRange1

/-! ## `ProcGrid` -/

/-- Modelled from the spec: the integer base-2 logarithm `TiledArray::math::log2` (declared
in `TiledArray/math/math.h`, which is not among the sources), used for "a window of width
≈log2(P)": `log2_loop fuel n` halves `n` until it reaches 1 and counts the halvings. -/
def log2_loop : Nat → Nat → Nat
  | 0, _ => 0
  | fuel + 1, n => if n ≤ 1 then 0 else 1 + log2_loop fuel (n / 2)

/-- Modelled from the spec: the value `TiledArray::math::log2(n)`, the floor of the base-2
logarithm of `n` (and 0 for `n = 0`). -/
def log2 (n : Nat) : Nat := log2_loop n n

/-- Data members of `ProcGrid` (without the reference to the world). -/
structure ProcGrid where
  /-- Number of element rows. -/
  rows_ : Nat
  /-- Number of element columns. -/
  cols_ : Nat
  /-- Number of elements. -/
  size_ : Nat
  /-- Number of rows in the process grid. -/
  proc_rows_ : Nat
  /-- Number of columns in the process grid. -/
  proc_cols_ : Nat
  /-- Number of processes in the process grid. -/
  proc_size_ : Nat
  /-- This process's row in the process grid (a `ProcessID`, -1 outside the grid). -/
  rank_row_ : Int
  /-- This process's column in the process grid (a `ProcessID`, -1 outside the grid). -/
  rank_col_ : Int
  /-- The number of local element rows. -/
  local_rows_ : Nat
  /-- The number of local element columns. -/
  local_cols_ : Nat
  /-- Number of local elements. -/
  local_size_ : Nat
  deriving DecidableEq

namespace ProcGrid

/-- The loop of `minimize_unused_procs`, `for (; test_x >= min_test_x; --test_x)`, started at
the candidate `test_x` with the current `x`, `y` and `unused`.  A candidate `test_x = 0` that
passes the loop test is divided by; the decrement is therefore never applied to 0. -/
def minimize_loop (nprocs min_test_x : Nat) : Nat → Nat → Nat → Nat → Except Error (Nat × Nat)
  | 0, x, y, _ => if 0 ≥ min_test_x then .error .undefined else .ok (x, y)
  | test_x + 1, x, y, unused =>
    if test_x + 1 ≥ min_test_x then
      let test_y := nprocs / (test_x + 1)
      let test_unused := nprocs - (test_x + 1) * test_y
      if test_unused < unused then
        if test_unused = 0 then .ok (test_x + 1, test_y)
        else minimize_loop nprocs min_test_x test_x (test_x + 1) test_y test_unused
      else minimize_loop nprocs min_test_x test_x x y unused
    else .ok (x, y)

/-- The method `minimize_unused_procs(x, y, nprocs, min_x, max_x)`; the result is the final
value of the reference parameters `x` and `y`.  `min_test_x` is the larger of `min_x` and
`int_fast32_t(x) - delta`, compared as signed integers. -/
def minimize_unused_procs (x y nprocs min_x max_x : Nat) : Except Error (Nat × Nat) :=
  let unused := x * y
  if unused = 0 then .ok (x, y)
  else
    let delta := max 1 (log2 nprocs)
    let min_test_x := (max (min_x : Int) ((x : Int) - (delta : Int))).toNat
    let test_x := min (x + delta) max_x
    minimize_loop nprocs min_test_x test_x x y unused

/-- The method `init(rank, nprocs, row_size, col_size)` acting on the members `g`.  The first
argument stands for the static method `optimal_proc_row(nprocs, Mm, Nn)`, a floating-point
Newton-Raphson iteration whose result is converted to `size_type`; it is left arbitrary.
The tests `rank_row_ < rows_ % proc_rows_` and `rank_col_ < cols_ % proc_cols_` compare the
quotient and remainder just stored, which are not negative.  The sum `nprocs + cols_ - 1`
and the product `local_rows_ * local_cols_` are machine arithmetic; the product
`proc_rows_ * proc_cols_` is at most `nprocs`, since `proc_cols_` is `nprocs / proc_rows_`. -/
def init (optimal_proc_row : Nat → Nat → Nat → Nat) (g : ProcGrid)
    (rank nprocs row_size col_size : Nat) : Except Error ProcGrid :=
  if nprocs = 1 then
    .ok { g with
          proc_rows_ := 1, proc_cols_ := 1, proc_size_ := 1
          rank_row_ := 0, rank_col_ := 0
          local_rows_ := g.rows_, local_cols_ := g.cols_, local_size_ := g.size_ }
  else if g.size_ ≤ nprocs then
    let g1 := { g with proc_rows_ := g.rows_, proc_cols_ := g.cols_, proc_size_ := g.size_ }
    if rank < g1.proc_size_ then do
      let rank_row ← udiv rank g1.proc_cols_
      let rank_col ← umod rank g1.proc_cols_
      .ok { g1 with
            rank_row_ := (rank_row : Int), rank_col_ := (rank_col : Int)
            local_rows_ := 1, local_cols_ := 1, local_size_ := 1 }
    else .ok g1
  else do
    let c ← udiv (usub (uadd nprocs g.cols_) 1) g.cols_
    let min_proc_rows := max c 1
    let max_proc_rows := min nprocs g.rows_
    let proc_rows0 :=
      max min_proc_rows (min (optimal_proc_row nprocs row_size col_size) max_proc_rows)
    let proc_cols0 ← udiv nprocs proc_rows0
    let xy ←
      if proc_rows0 > min_proc_rows ∧ proc_rows0 < max_proc_rows then
        minimize_unused_procs proc_rows0 proc_cols0 nprocs min_proc_rows max_proc_rows
      else .ok (proc_rows0, proc_cols0)
    let g1 := { g with proc_rows_ := xy.1, proc_cols_ := xy.2, proc_size_ := xy.1 * xy.2 }
    if rank < g1.proc_size_ then do
      let rank_row ← udiv rank g1.proc_cols_
      let rank_col ← umod rank g1.proc_cols_
      let rows_div ← udiv g1.rows_ g1.proc_rows_
      let rows_mod ← umod g1.rows_ g1.proc_rows_
      let cols_div ← udiv g1.cols_ g1.proc_cols_
      let cols_mod ← umod g1.cols_ g1.proc_cols_
      let local_rows := rows_div + (if rank_row < rows_mod then 1 else 0)
      let local_cols := cols_div + (if rank_col < cols_mod then 1 else 0)
      .ok { g1 with
            rank_row_ := (rank_row : Int), rank_col_ := (rank_col : Int)
            local_rows_ := local_rows, local_cols_ := local_cols
            local_size_ := umul local_rows local_cols }
    else .ok g1

/-- The constructor `ProcGrid(world, rows, cols, row_size, col_size)`, with the rank and the
size of the world passed in place of `world.rank()` and `world.size()`; the member `size_`
is the machine product `rows_ * cols_`. -/
def ctor (optimal_proc_row : Nat → Nat → Nat → Nat)
    (rank nprocs rows cols row_size col_size : Nat) : Except Error ProcGrid := do
  let g : ProcGrid :=
    { rows_ := rows, cols_ := cols, size_ := umul rows cols
      proc_rows_ := 0, proc_cols_ := 0, proc_size_ := 0
      rank_row_ := -1, rank_col_ := -1
      local_rows_ := 0, local_cols_ := 0, local_size_ := 0 }
  TA_ASSERT (decide (g.rows_ ≥ 1)) .assertion
  TA_ASSERT (decide (g.cols_ ≥ 1)) .assertion
  TA_ASSERT (decide (row_size ≥ 1)) .assertion
  TA_ASSERT (decide (col_size ≥ 1)) .assertion
  init optimal_proc_row g rank nprocs row_size col_size

/-- Modelled from the spec: the query `shape.is_zero(i)` of the shape type (a template
parameter of `make_row_group` and `make_col_group`; no shape class is among the sources) on
a shape of `size` tiles, "one bit per tile ordinal", tested without communication.  The
first argument answers the query for the ordinals of the shape; a query for an ordinal
outside `[0, size)` reads outside the shape. -/
def shape_is_zero (shape : Nat → Bool) (size i : Nat) : Except Error Bool :=
  if i < size then .ok (shape i) else .error .undefined

/-- First loop of the shape-filtered `make_row_group`:
`for (i = i_start; i < i_end; ++i) if (!shape.is_zero(i)) proc_list[(i - i_start) % proc_cols_] = 1;`
with `i` the current ordinal and the second argument the number of iterations left.  The
position written is a remainder modulo `proc_cols_`, the size of `proc_list`. -/
def flag_cols (shape : Nat → Bool) (size i_start proc_cols : Nat) :
    Nat → Nat → List Nat → Except Error (List Nat)
  | _, 0, proc_list => .ok proc_list
  | i, k + 1, proc_list => do
    let zero ← shape_is_zero shape size i
    if !zero then do
      let c ← umod (i - i_start) proc_cols
      flag_cols shape size i_start proc_cols (i + 1) k (proc_list.set c 1)
    else flag_cols shape size i_start proc_cols (i + 1) k proc_list

/-- Second loop of the shape-filtered `make_row_group`:
`for (p = 0; p < proc_cols_; ++p) if (proc_list[p]) { proc_list[x] = p_start + p; ++x; }`
with `p` the current column, the second argument the number of iterations left, and `x` the
number of ranks stored so far; the result is the final `proc_list` and `x`. -/
def compact_flags (p_start : Nat) : Nat → Nat → Nat → List Nat → List Nat × Nat
  | _, 0, x, proc_list => (proc_list, x)
  | p, k + 1, x, proc_list =>
    if proc_list.getD p 0 ≠ 0 then
      compact_flags p_start (p + 1) k (x + 1) (proc_list.set x (p_start + p))
    else compact_flags p_start (p + 1) k x proc_list

/-- The method `make_row_group(did, shape, row, size)`.  A group is given by the list of its
ranks, in the order in which they are handed to `madness::Group`; the default-constructed
(empty) group is the empty list.  `rank_row_` is only used when `local_size_ != 0`, where it
is not negative. -/
def make_row_group (g : ProcGrid) (shape : Nat → Bool) (row size : Nat) :
    Except Error (List Nat) := do
  let rem ← umod size g.cols_
  TA_ASSERT (decide (rem = 0)) .assertion
  let nrows ← udiv size g.cols_
  TA_ASSERT (decide (row < nrows)) .assertion
  if g.local_size_ ≠ 0 then do
    let proc_list0 := List.replicate g.proc_cols_ 0
    let i_start := row * g.cols_
    let i_end := i_start + g.cols_
    let proc_list1 ← flag_cols shape size i_start g.proc_cols_ i_start (i_end - i_start)
      proc_list0
    let p_start := g.rank_row_.toNat * g.proc_cols_
    let px := compact_flags p_start 0 g.proc_cols_ 0 proc_list1
    let proc_list2 := TiledRange1.vector_resize px.1 px.2
    if proc_list2.length ≠ 0 then .ok proc_list2 else .ok []
  else .ok []

/-- Inner loop of the shape-filtered `make_col_group`:
`for (i = i_start; i < size; i += i_step) if (!shape.is_zero(i)) { push_back(p); break; }`;
the result tells whether a non-zero tile was found.  The first argument bounds the number of
iterations: with a positive step `size` iterations always reach `i >= size`; with step 0 the
loop need not terminate, which is undefined behaviour. -/
def scan_col (shape : Nat → Bool) (size i_step : Nat) : Nat → Nat → Except Error Bool
  | 0, i => if i < size then .error .undefined else .ok false
  | fuel + 1, i =>
    if i < size then do
      let zero ← shape_is_zero shape size i
      if !zero then .ok true else scan_col shape size i_step fuel (i + i_step)
    else .ok false

/-- Outer loop of the shape-filtered `make_col_group`:
`for (p = rank_col_; p < proc_size_; p += proc_cols_) { ...; i_start += i_start_step; }`.
The first argument bounds the number of iterations: with `proc_cols_ > 0`, `proc_size_`
iterations always reach `p >= proc_size_`; with `proc_cols_ = 0` the loop need not
terminate. -/
def col_loop (shape : Nat → Bool) (size i_start_step i_step proc_size proc_cols : Nat) :
    Nat → Nat → Nat → List Nat → Except Error (List Nat)
  | 0, p, _, proc_list => if p < proc_size then .error .undefined else .ok proc_list
  | fuel + 1, p, i_start, proc_list =>
    if p < proc_size then do
      let found ← scan_col shape size i_step size i_start
      col_loop shape size i_start_step i_step proc_size proc_cols fuel (p + proc_cols)
        (i_start + i_start_step) (if found then proc_list ++ [p] else proc_list)
    else .ok proc_list

/-- The method `make_col_group(did, shape, col, size)`, a group being the list of its ranks.
`rank_col_` is only used when `local_size_ != 0`, where it is not negative. -/
def make_col_group (g : ProcGrid) (shape : Nat → Bool) (col size : Nat) :
    Except Error (List Nat) := do
  let rem ← umod size g.rows_
  TA_ASSERT (decide (rem = 0)) .assertion
  let ncols ← udiv size g.rows_
  TA_ASSERT (decide (col < ncols)) .assertion
  if g.local_size_ ≠ 0 then do
    let i_start := col
    let i_start_step ← udiv size g.rows_
    let i_step := i_start_step * g.proc_rows_
    let proc_list ← col_loop shape size i_start_step i_step g.proc_size_ g.proc_cols_
      g.proc_size_ g.rank_col_.toNat i_start []
    if proc_list.length ≠ 0 then .ok proc_list else .ok []
  else .ok []

/-- The ranks that the specification lists for the shape-filtered row group: the ranks
`rank_row * proc_cols + c`, in increasing order of `c` in `[0, proc_cols)`, for which some
tile column `j` in `[0, N)` with `j mod proc_cols = c` has a non-zero tile at the ordinal
`row * N + j`. -/
def row_group_spec (g : ProcGrid) (shape : Nat → Bool) (row : Nat) : List Nat :=
  ((List.range g.proc_cols_).filter (fun c =>
      (List.range g.cols_).any (fun j =>
        decide (j % g.proc_cols_ = c) && !shape (row * g.cols_ + j)))).map
    (fun c => g.rank_row_.toNat * g.proc_cols_ + c)

/-- The ranks that the specification lists for the shape-filtered column group: the ranks
`r * proc_cols + rank_col`, in increasing order of `r` in `[0, proc_rows)`, for which some
tile row `q` in `[0, M)` with `q mod proc_rows = r` has a non-zero tile at the ordinal
`q * W + col`, where `W = size / M`. -/
def col_group_spec (g : ProcGrid) (shape : Nat → Bool) (col size : Nat) : List Nat :=
  ((List.range g.proc_rows_).filter (fun r =>
      (List.range g.rows_).any (fun q =>
        decide (q % g.proc_rows_ = r) && !shape (q * (size / g.rows_) + col)))).map
    (fun r => r * g.proc_cols_ + g.rank_col_.toNat)

/-- The value `f` that one iteration of the loop of `optimal_proc_row(nprocs, Mm, Nn)`
computes at the estimate `P_row_estimate`, with the arithmetic of `double` replaced by the
exact arithmetic of a commutative ring. -/
def optimal_proc_row_f {R : Type} [CommRing R] (nprocs Mm Nn P_row_estimate : R) : R :=
  let PMm := nprocs * Mm
  let two_P := 2 * nprocs
  let P_row2 := P_row_estimate * P_row_estimate
  let NnP_row2 := Nn * P_row2
  NnP_row2 * (2 * P_row2 - P_row_estimate) + PMm * (P_row_estimate - two_P)

/-- The value `df` that one iteration of the loop of `optimal_proc_row(nprocs, Mm, Nn)`
computes at the estimate `P_row_estimate`, in exact arithmetic. -/
def optimal_proc_row_df {R : Type} [CommRing R] (nprocs Mm Nn P_row_estimate : R) : R :=
  let PMm := nprocs * Mm
  let P_row2 := P_row_estimate * P_row_estimate
  let NnP_row2 := Nn * P_row2
  NnP_row2 * (8 * P_row_estimate - 3) + PMm

/-- The loop of the unfiltered `make_row_group(did)`:
`for (; p < row_end; ++p) proc_list.push_back(p);` with `p` the current rank and the second
argument the number of iterations left. -/
def push_row : Nat → Nat → List Nat → List Nat
  | _, 0, proc_list => proc_list
  | p, k + 1, proc_list => push_row (p + 1) k (proc_list ++ [p])

/-- The method `make_row_group(did)` without a shape, a group being the list of its ranks. -/
def make_row_group_unfiltered (g : ProcGrid) : Except Error (List Nat) :=
  if g.local_size_ ≠ 0 then
    let p := g.rank_row_.toNat * g.proc_cols_
    let row_end := p + g.proc_cols_
    .ok (push_row p (row_end - p) [])
  else .ok []

/-- The loop of the unfiltered `make_col_group(did)`:
`for (p = rank_col_; p < proc_size_; p += proc_cols_) proc_list.push_back(p);`.  The first
argument bounds the number of iterations, as in `col_loop`. -/
def push_col (proc_size proc_cols : Nat) : Nat → Nat → List Nat → Except Error (List Nat)
  | 0, p, proc_list => if p < proc_size then .error .undefined else .ok proc_list
  | fuel + 1, p, proc_list =>
    if p < proc_size then push_col proc_size proc_cols fuel (p + proc_cols) (proc_list ++ [p])
    else .ok proc_list

/-- The method `make_col_group(did)` without a shape, a group being the list of its ranks. -/
def make_col_group_unfiltered (g : ProcGrid) : Except Error (List Nat) := do
  if g.local_size_ ≠ 0 then do
    let proc_list ← push_col g.proc_size_ g.proc_cols_ g.proc_size_ g.rank_col_.toNat []
    if proc_list.length ≠ 0 then .ok proc_list else .ok []
  else .ok []

end ProcGrid

/-! ## `Array`: `make_shape` and the index-taking methods -/

namespace Array

/-- Modelled from the spec: the constructor `detail::Bitset<>(n)` (bitset.h is not among the
sources), "one bit per tile ordinal", all bits clear. -/
def bitset_ctor (n : Nat) : List Bool := List.replicate n false

/-- Modelled from the spec: the method `Bitset::set(i)`, which sets bit `i`; a position
outside the bitset is a precondition failure. -/
def bitset_set (bits : List Bool) (i : Nat) : Except Error (List Bool) :=
  if i < bits.length then .ok (bits.set i true) else .error .out_of_range

/-- Modelled from the spec: the collective `world.gop.bit_or(shape.get(), shape.num_blocks())`
of the runtime, the "collective bitwise-OR": every bit of the local bitmap is replaced by its
disjunction with the bits contributed by the other processes, given by `remote`. -/
def bit_or (bits : List Bool) (remote : Nat → Bool) : List Bool :=
  (List.range bits.length).map (fun i => bits.getD i false || remote i)

/-- The loop of `make_shape`: `for (; first != last; ++first) shape.set(tr.tiles().ord(*first));`
with `ord` standing for `tr.tiles().ord`, the ordinal of a tile index. -/
def set_tiles {ι : Type} (ord : ι → Nat) : List ι → List Bool → Except Error (List Bool)
  | [], shape => .ok shape
  | t :: rest, shape => do
    let shape1 ← bitset_set shape (ord t)
    set_tiles ord rest shape1

/-- The function `Array::make_shape(world, tr, first, last)`, with `volume` standing for
`tr.tiles().volume()`, `ord` for `tr.tiles().ord` and `remote` for the bits that the other
processes of `world` contribute to the collective. -/
def make_shape {ι : Type} (volume : Nat) (ord : ι → Nat) (tiles : List ι)
    (remote : Nat → Bool) : Except Error (List Bool) := do
  let shape0 := bitset_ctor volume
  let shape1 ← set_tiles ord tiles shape0
  .ok (bit_or shape1 remote)

/-- Modelled from the spec: the macro `TA_USER_ASSERT(cond, msg)` (declared in
`TiledArray/error.h`, which is not among the sources).  Following the spec ("local,
synchronous, non-recoverable checks raised at the call site") a violated check raises the
error that its message names and nothing after it is executed. -/
def TA_USER_ASSERT (cond : Bool) (e : Error) : Except Error Unit :=
  if cond then .ok () else .error e

/-- Modelled from the spec: the implementation object `detail::TensorImpl` behind the member
`pimpl_` (tensor_impl.h is not among the sources), as far as the index-taking methods of
`Array` call it.  `σ` is the state of the implementation object and of its world (the tile
table and the task queue among it), `τ` the tile type `value_type`, `φ` the type
`madness::Future<value_type>`, `ε` the element type `T` and `ι` the type of an input
iterator.  Every operation other than the range test takes the state and returns its
result, which may be a failure, together with the state it leaves behind, so that a call
of the operation can be told from the state. -/
structure TensorImpl (σ τ φ ε ι : Type) where
  /-- The test `range().includes(i)` for an ordinal `i`. -/
  includes : σ → Nat → Bool
  /-- The call `operator[](i)`. -/
  subscript : Nat → σ → Except Error φ × σ
  /-- The call `get(i)`. -/
  get : Nat → σ → Except Error φ × σ
  /-- The call `set(i, tile)` for a tile. -/
  set_value : Nat → τ → σ → Except Error Unit × σ
  /-- The call `set(i, f)` for a future. -/
  set_fut : Nat → φ → σ → Except Error Unit × σ
  /-- The expression `value_type(trange().make_tile_range(i), first)`. -/
  make_tile : Nat → ι → σ → Except Error τ × σ
  /-- The call `get_world().taskq.add(task)` for the task `MakeTile` with the result future,
  the index and the element value given. -/
  taskq_add : φ → Nat → ε → σ → Except Error Unit × σ
  /-- The call `owner(i)`. -/
  owner_of : Nat → σ → Except Error Int × σ
  /-- The call `is_local(i)`. -/
  local_of : Nat → σ → Except Error Bool × σ
  /-- The call `is_zero(i)`. -/
  zero_of : Nat → σ → Except Error Bool × σ

/-- The method `check_pimpl()`; the member `pimpl_` is `none` for an array that has no
implementation object. -/
def check_pimpl {σ : Type} (pimpl_ : Option σ) : Except Error Unit :=
  TA_USER_ASSERT pimpl_.isSome .uninitialized

/-- The method `check_index(i)` for an integral index. -/
def check_index {σ τ φ ε ι : Type} (I : TensorImpl σ τ φ ε ι) (pimpl_ : Option σ) (i : Nat) :
    Except Error Unit := do
  check_pimpl pimpl_
  match pimpl_ with
  | some s => TA_USER_ASSERT (I.includes s i) .out_of_range
  | none => .error .undefined

/-- A call `pimpl_->op(...)` through the member `pimpl_`: the result of the call and the
value of `pimpl_` after it.  Dereferencing an empty pointer is undefined behaviour. -/
def through {σ α : Type} (pimpl_ : Option σ) (op : σ → Except Error α × σ) :
    Except Error α × Option σ :=
  match pimpl_ with
  | some s => ((op s).1, some (op s).2)
  | none => (.error .undefined, none)

/-- A method body that starts with `check_index(i);`: when the check throws, the method is
left with that exception and `pimpl_` as it was; otherwise the rest of the body runs. -/
def checked {σ τ φ ε ι α : Type} (I : TensorImpl σ τ φ ε ι) (pimpl_ : Option σ) (i : Nat)
    (body : σ → Except Error α × σ) : Except Error α × Option σ :=
  match check_index I pimpl_ i with
  | .error e => (.error e, pimpl_)
  | .ok _ => through pimpl_ body

/-- The method `find(i)`: `check_index(i); return pimpl_->operator[](i);`. -/
def find {σ τ φ ε ι : Type} (I : TensorImpl σ τ φ ε ι) (pimpl_ : Option σ) (i : Nat) :
    Except Error φ × Option σ :=
  checked I pimpl_ i (I.subscript i)

/-- The method `set(i, first)` for an input iterator `first`:
`check_index(i); pimpl_->set(i, value_type(pimpl_->trange().make_tile_range(i), first));`. -/
def set_from_iterator {σ τ φ ε ι : Type} (I : TensorImpl σ τ φ ε ι) (pimpl_ : Option σ)
    (i : Nat) (first : ι) : Except Error Unit × Option σ :=
  checked I pimpl_ i (fun s =>
    match I.make_tile i first s with
    | (.ok tile, s1) => I.set_value i tile s1
    | (.error e, s1) => (.error e, s1))

/-- The method `set(i, v)` for an element value `v`:
`check_index(i); pimpl_->get_world().taskq.add(new MakeTile<...>(pimpl_, i, v));`, where the
constructor of `MakeTile` calls `pimpl->get(index)` for its result future. -/
def set_from_element {σ τ φ ε ι : Type} (I : TensorImpl σ τ φ ε ι) (pimpl_ : Option σ)
    (i : Nat) (v : ε) : Except Error Unit × Option σ :=
  checked I pimpl_ i (fun s =>
    match I.get i s with
    | (.ok result_, s1) => I.taskq_add result_ i v s1
    | (.error e, s1) => (.error e, s1))

/-- The method `set(i, f)` for a future `f`: `check_index(i); pimpl_->set(i, f);`. -/
def set_future {σ τ φ ε ι : Type} (I : TensorImpl σ τ φ ε ι) (pimpl_ : Option σ)
    (i : Nat) (f : φ) : Except Error Unit × Option σ :=
  checked I pimpl_ i (I.set_fut i f)

/-- The method `set(i, v)` for a tile `v`: `check_index(i); pimpl_->set(i, v);`. -/
def set_tile {σ τ φ ε ι : Type} (I : TensorImpl σ τ φ ε ι) (pimpl_ : Option σ)
    (i : Nat) (v : τ) : Except Error Unit × Option σ :=
  checked I pimpl_ i (I.set_value i v)

/-- The method `owner(i)`: `check_index(i); return pimpl_->owner(i);`. -/
def owner {σ τ φ ε ι : Type} (I : TensorImpl σ τ φ ε ι) (pimpl_ : Option σ) (i : Nat) :
    Except Error Int × Option σ :=
  checked I pimpl_ i (I.owner_of i)

/-- The method `is_local(i)`: `check_index(i); return pimpl_->is_local(i);`. -/
def is_local {σ τ φ ε ι : Type} (I : TensorImpl σ τ φ ε ι) (pimpl_ : Option σ) (i : Nat) :
    Except Error Bool × Option σ :=
  checked I pimpl_ i (I.local_of i)

/-- The method `is_zero(i)`: `check_index(i); return pimpl_->is_zero(i);`. -/
def is_zero {σ τ φ ε ι : Type} (I : TensorImpl σ τ φ ε ι) (pimpl_ : Option σ) (i : Nat) :
    Except Error Bool × Option σ :=
  checked I pimpl_ i (I.zero_of i)

/-- An implementation object for examples: an array of `n` tiles whose state is the record
of the calls made on it, each operation appending the ordinal it is called with. -/
def recording_impl (n : Nat) : TensorImpl (List Nat) Nat Nat Nat Nat where
  includes := fun _ i => decide (i < n)
  subscript := fun i s => (.ok i, s ++ [i])
  get := fun i s => (.ok i, s ++ [i])
  set_value := fun i _ s => (.ok (), s ++ [i])
  set_fut := fun i _ s => (.ok (), s ++ [i])
  make_tile := fun i first s => (.ok first, s ++ [i])
  taskq_add := fun _ i _ s => (.ok (), s ++ [i])
  owner_of := fun i s => (.ok 0, s ++ [i])
  local_of := fun i s => (.ok true, s ++ [i])
  zero_of := fun i s => (.ok false, s ++ [i])

end Array

/-! ## Tile operations `Neg`, `Subt`, `ScalMult` -/

namespace math

/-- Modelled from the spec: a tile (the class `Tensor`, which is not among the sources), as
far as the tile operations use it: its range, of an arbitrary type `ρ`, and its elements
`data()` in storage order, `size()` being their number.  The three tile types `Result`,
`Left` and `Right` of an operation are tiles with the same element type here. -/
structure Tensor (ρ α : Type) where
  /-- The range `range()` of the tile. -/
  range : ρ
  /-- The elements `data()[0], ..., data()[size() - 1]`. -/
  data : List α

/-- Modelled from the spec: the numeric kernel `vector_assign(n, arg, result, op)` (not among
the sources), which calls `op(result[i], arg[i])` for `i = 0, ..., n - 1`, `op` assigning to
its first argument; the value is the new content of `result`.  It is undefined behaviour
when one of the two arrays has fewer than `n` elements. -/
def vector_assign {α β : Type} (n : Nat) (arg : List β) (result : List α) (op : α → β → α) :
    Except Error (List α) :=
  if n ≤ arg.length ∧ n ≤ result.length then
    .ok (List.zipWith op (result.take n) (arg.take n) ++ result.drop n)
  else .error .undefined

/-- Modelled from the spec: the numeric kernel `vector_assign(n, result, op)` (not among the
sources), which calls `op(result[i])` for `i = 0, ..., n - 1`, `op` assigning to its
argument; the value is the new content of `result`. -/
def vector_assign_unary {α : Type} (n : Nat) (result : List α) (op : α → α) :
    Except Error (List α) :=
  if n ≤ result.length then .ok ((result.take n).map op ++ result.drop n)
  else .error .undefined

/-- Modelled from the spec: the tile expression `-arg` (a "pure function" of the numeric
kernels): a tile of the same range with every element negated. -/
def Tensor.neg {ρ α : Type} [Neg α] (arg : Tensor ρ α) : Tensor ρ α :=
  ⟨arg.range, arg.data.map (fun a => -a)⟩

/-- Modelled from the spec: the tile expression `first - second` (the pure function
`combine(tileA, tileB, op)` of the numeric kernels): a tile of the range of `first` with the
differences of the elements at equal positions. -/
def Tensor.sub {ρ α : Type} [Sub α] (first second : Tensor ρ α) : Tensor ρ α :=
  ⟨first.range, List.zipWith (fun a b => a - b) first.data second.data⟩

/-- Modelled from the spec: the tile statement `first -= second`: every element of `first`
is replaced by its difference with the element of `second` at the same position; the value
is the new `first`. -/
def Tensor.sub_assign {ρ α : Type} [Sub α] (first second : Tensor ρ α) : Tensor ρ α :=
  ⟨first.range, List.zipWith (fun a b => a - b) first.data second.data⟩

/-- Modelled from the spec: the tile constructor `result_type(range, left, right, op)`, which
fills a tile of the given range with `op(left[i], right[i])`; `n` is the number of elements
of the range, and it is undefined behaviour when one of the two arrays has fewer. -/
def Tensor.from_binary {ρ α : Type} (range : ρ) (n : Nat) (left right : List α)
    (op : α → α → α) : Except Error (Tensor ρ α) :=
  if n ≤ left.length ∧ n ≤ right.length then
    .ok ⟨range, List.zipWith op (left.take n) (right.take n)⟩
  else .error .undefined

/-- Modelled from the spec: the element functor `NegateAssign`, `arg = -arg`; the value is
the new `arg`. -/
def negate_assign_op {α : Type} [Neg α] (arg : α) : α := -arg

/-- Modelled from the spec: the element functor `ScalMultiplies(factor)`,
`(first * second) * factor`. -/
def scal_multiplies_op {α : Type} [Mul α] (factor first second : α) : α :=
  (first * second) * factor

/-- Modelled from the spec: the element functor `ScalMultipliesAssign(factor)`,
`(first *= second) *= factor`; the value is the new `first`. -/
def scal_multiplies_assign_op {α : Type} [Mul α] (factor first second : α) : α :=
  (first * second) * factor

/-- The element function `Subt::minus_assign_right(first, second)`: `first = second - first;`
the value is the new `first`. -/
def minus_assign_right {α : Type} [Sub α] (first second : α) : α := second - first

/-- The two functions `Neg::no_permute<C>(arg)`; `same` stands for
`std::is_same<Result, Arg>::value`.  The result is the pair of the returned tile and the
value of `arg` after the call. -/
def Neg_no_permute {ρ α : Type} [Neg α] (C same : Bool) (arg : Tensor ρ α) :
    Except Error (Tensor ρ α × Tensor ρ α) :=
  if C && same then do
    let d ← vector_assign_unary arg.data.length arg.data negate_assign_op
    let arg1 : Tensor ρ α := ⟨arg.range, d⟩
    .ok (arg1, arg1)
  else .ok (Tensor.neg arg, arg)

/-- The call `Neg<Result, Arg, Consumable>(...)(arg)` on an operation object whose
permutation has the dimension `perm_dim`; the last but one argument stands for the function
`permute(arg)`. -/
def Neg_call {ρ α : Type} [Neg α] (perm_dim : Nat) (C same : Bool)
    (permute : Tensor ρ α → Except Error (Tensor ρ α)) (arg : Tensor ρ α) :
    Except Error (Tensor ρ α × Tensor ρ α) :=
  if perm_dim > 1 then do
    let result ← permute arg
    .ok (result, arg)
  else Neg_no_permute C same arg

/-- The three functions `Subt::no_permute<LC, RC>(first, second)` for two non-zero tiles;
`same_left` and `same_right` stand for `std::is_same<Result, Left>::value` and
`std::is_same<Result, Right>::value`.  The result is the triple of the returned tile and
the values of `first` and `second` after the call. -/
def Subt_no_permute {ρ α : Type} [Sub α] (LC RC same_left same_right : Bool)
    (first second : Tensor ρ α) : Except Error (Tensor ρ α × Tensor ρ α × Tensor ρ α) :=
  if LC && same_left then
    let first1 := Tensor.sub_assign first second
    .ok (first1, first1, second)
  else if RC && same_right then do
    let d ← vector_assign second.data.length first.data second.data minus_assign_right
    let second1 : Tensor ρ α := ⟨second.range, d⟩
    .ok (second1, first, second1)
  else .ok (Tensor.sub first second, first, second)

/-- The call `Subt<Result, Left, Right, LeftConsumable, RightConsumable>(...)(first, second)`
for two non-zero tiles, on an operation object whose permutation has the dimension
`perm_dim`; `permute` stands for the function `permute(first, second)`. -/
def Subt_call {ρ α : Type} [DecidableEq ρ] [Sub α] (perm_dim : Nat)
    (LC RC same_left same_right : Bool)
    (permute : Tensor ρ α → Tensor ρ α → Except Error (Tensor ρ α))
    (first second : Tensor ρ α) : Except Error (Tensor ρ α × Tensor ρ α × Tensor ρ α) := do
  TA_ASSERT (decide (first.range = second.range)) .assertion
  if perm_dim > 1 then do
    let result ← permute first second
    .ok (result, first, second)
  else Subt_no_permute LC RC same_left same_right first second

/-- The three functions `ScalMult::no_permute<LC, RC>(first, second)` of an operation object
with the scaling factor `factor_`; `volume` gives the number of elements of a range.  The
result is the triple of the returned tile and the values of `first` and `second` after the
call. -/
def ScalMult_no_permute {ρ α : Type} [Mul α] (volume : ρ → Nat) (factor_ : α)
    (LC RC same_left same_right : Bool) (first second : Tensor ρ α) :
    Except Error (Tensor ρ α × Tensor ρ α × Tensor ρ α) :=
  if LC && same_left then do
    let d ← vector_assign first.data.length second.data first.data
      (scal_multiplies_assign_op factor_)
    let first1 : Tensor ρ α := ⟨first.range, d⟩
    .ok (first1, first1, second)
  else if RC && same_right then do
    let d ← vector_assign second.data.length first.data second.data
      (scal_multiplies_assign_op factor_)
    let second1 : Tensor ρ α := ⟨second.range, d⟩
    .ok (second1, first, second1)
  else do
    let result ← Tensor.from_binary first.range (volume first.range) first.data second.data
      (scal_multiplies_op factor_)
    .ok (result, first, second)

/-- The call `ScalMult<Result, Left, Right, LeftConsumable, RightConsumable>(...)(first,
second)` on an operation object with the scaling factor `factor_` whose permutation has the
dimension `perm_dim`; `permute` stands for the function `permute(first, second)`. -/
def ScalMult_call {ρ α : Type} [DecidableEq ρ] [Mul α] (volume : ρ → Nat) (factor_ : α)
    (perm_dim : Nat) (LC RC same_left same_right : Bool)
    (permute : Tensor ρ α → Tensor ρ α → Except Error (Tensor ρ α))
    (first second : Tensor ρ α) : Except Error (Tensor ρ α × Tensor ρ α × Tensor ρ α) := do
  TA_ASSERT (decide (first.range = second.range)) .assertion
  if perm_dim > 1 then do
    let result ← permute first second
    .ok (result, first, second)
  else ScalMult_no_permute volume factor_ LC RC same_left same_right first second

end math

end TiledArray

/-! # Theorems -/

namespace TiledArray

/-! ## Auxiliary facts about boundary sequences -/

/-- A sequence whose neighbours increase strictly is weakly increasing over any distance. -/
theorem mono_of_step (b : Nat → Nat) (n : Nat) (hstep : ∀ j, j < n → b j < b (j + 1)) :
    ∀ j, j ≤ n → ∀ i, i ≤ j → b i ≤ b j := by
  intro j
  induction j with
  | zero => intro _ i hi; have : i = 0 := by omega
            subst this; exact le_refl _
  | succ j ih =>
    intro hj i hi
    rcases Nat.lt_or_ge i (j + 1) with h | h
    · have h1 := ih (by omega) i (by omega)
      have h2 := hstep j (by omega)
      omega
    · have : i = j + 1 := by omega
      subst this; exact le_refl _

/-- Every element between the first and the last boundary lies in some tile. -/
theorem exists_tile_of_mem (b : Nat → Nat) (e : Nat) :
    ∀ n, b 0 ≤ e → e < b n → ∃ j, j < n ∧ b j ≤ e ∧ e < b (j + 1) := by
  intro n
  induction n with
  | zero => intro h0 h1; omega
  | succ n ih =>
    intro h0 h1
    rcases Nat.lt_or_ge e (b n) with h | h
    · obtain ⟨j, hj, hlo, hhi⟩ := ih h0 h
      exact ⟨j, by omega, hlo, hhi⟩
    · exact ⟨n, by omega, h, h1⟩

namespace TiledRange1

/-- The loop of `valid_` on a non-empty sequence decides whether it increases strictly. -/
theorem valid_loop_cons (x : Nat) (rest : List Nat) :
    valid_loop (x :: rest) = .ok (decide ((x :: rest).Chain' (· < ·))) := by
  induction rest generalizing x with
  | nil => simp [valid_loop]
  | cons y rest ih =>
    rw [valid_loop]
    by_cases h : x ≥ y
    · have : ¬ x < y := by omega
      simp [h, this]
    · have : x < y := by omega
      simp [h, ih, this]

/-- The tiles pushed by `init_tiles_` pair each boundary with its successor. -/
theorem push_tiles_eq (a : List Nat) (tiles : List Range) :
    push_tiles a tiles = tiles ++ List.zipWith make_tile_range1 a a.tail := by
  induction a generalizing tiles with
  | nil => simp [push_tiles]
  | cons x rest ih =>
    cases rest with
    | nil => simp [push_tiles]
    | cons y rest =>
      rw [push_tiles, ih]
      simp

/-- Entry `j` of the pushed tiles is the interval between boundaries `j` and `j + 1`. -/
theorem push_tiles_getElem (a : List Nat) (j : Nat) (hj : j + 1 < a.length) :
    (push_tiles a [])[j]? = some ⟨a.getD j 0, a.getD (j + 1) 0⟩ := by
  rw [push_tiles_eq]
  simp only [List.nil_append, List.getElem?_zipWith, List.getElem?_tail]
  have h1 : a[j]? = some a[j] := List.getElem?_eq_getElem (by omega)
  have h2 : a[j + 1]? = some a[j + 1] := List.getElem?_eq_getElem hj
  simp [h1, h2, make_tile_range1, List.getD_eq_getElem?_getD]

/-- The number of pushed tiles is one less than the number of boundaries. -/
theorem push_tiles_length (a : List Nat) : (push_tiles a []).length = a.length - 1 := by
  rw [push_tiles_eq]
  simp

/-- The inner loop of `init_map_` keeps the length of the map. -/
theorem fill_tile_length (estart v : Nat) :
    ∀ k e m, (fill_tile estart v e k m).length = m.length := by
  intro k
  induction k with
  | zero => intro e m; simp [fill_tile]
  | succ k ih => intro e m; simp [fill_tile, ih]

/-- The inner loop of `init_map_` writes `v` at the positions of the elements `e .. e+k-1`
and leaves every other position alone. -/
theorem fill_tile_getElem (estart v : Nat) :
    ∀ k e m i, estart ≤ e →
      (fill_tile estart v e k m)[i]? =
        if e ≤ i + estart ∧ i + estart < e + k ∧ i < m.length then some v else m[i]? := by
  intro k
  induction k with
  | zero =>
    intro e m i _
    have c : ¬ (e ≤ i + estart ∧ i + estart < e + 0 ∧ i < m.length) := by omega
    simp only [fill_tile, c, if_false]
  | succ k ih =>
    intro e m i he
    rw [fill_tile, ih (e + 1) _ i (by omega), List.length_set, List.getElem?_set]
    have hu : usub e estart = e - estart := by simp [usub, he]
    rw [hu]
    by_cases h1 : e - estart = i
    · by_cases h2 : i < m.length
      · have c1 : ¬ (e + 1 ≤ i + estart ∧ i + estart < e + 1 + k ∧ i < m.length) := by omega
        have c2 : e ≤ i + estart ∧ i + estart < e + (k + 1) ∧ i < m.length := by omega
        have h3 : e - estart < m.length := by omega
        simp [c1, c2, h1, h3]
      · have c1 : ¬ (e + 1 ≤ i + estart ∧ i + estart < e + 1 + k ∧ i < m.length) := by omega
        have c2 : ¬ (e ≤ i + estart ∧ i + estart < e + (k + 1) ∧ i < m.length) := by omega
        have h3 : ¬ e - estart < m.length := by omega
        have h4 : m[i]? = none := List.getElem?_eq_none (by omega)
        simp [c1, c2, h1, h2, h4]
    · by_cases c1 : e + 1 ≤ i + estart ∧ i + estart < e + 1 + k ∧ i < m.length
      · have c2 : e ≤ i + estart ∧ i + estart < e + (k + 1) ∧ i < m.length := by omega
        simp [c1, c2]
      · have c2 : ¬ (e ≤ i + estart ∧ i + estart < e + (k + 1) ∧ i < m.length) := by omega
        simp [c1, c2, h1]

/-- The outer loop of `init_map_`, run over tiles `t .. n-1` whose intervals are given by
consecutive values of `b`: it succeeds, keeps the length of the map, leaves the positions
before tile `t` alone and records the machine sum `j + range_.start` at every element of
tile `j`. -/
theorem fill_map_spec (r : TiledRange1) (b : Nat → Nat) (n : Nat)
    (hT : ∀ j, j < n → r.tile_ranges_[j]? = some ⟨b j, b (j + 1)⟩)
    (hstep : ∀ j, j < n → b j < b (j + 1))
    (h0 : r.element_range_.start = b 0) :
    ∀ k t m, t + k = n →
      ∃ m1, fill_map r t k m = .ok m1 ∧ m1.length = m.length ∧
        (∀ i, i + b 0 < b t → m1[i]? = m[i]?) ∧
        (∀ j, t ≤ j → j < n → ∀ e, b j ≤ e → e < b (j + 1) → e - b 0 < m.length →
          m1[e - b 0]? = some (uadd j r.range_.start)) := by
  intro k
  induction k with
  | zero =>
    intro t m ht
    refine ⟨m, by simp [fill_map], rfl, fun _ _ => rfl, ?_⟩
    intro j h1 h2
    omega
  | succ k ih =>
    intro t m ht
    have htn : t < n := by omega
    have hbt : b 0 ≤ b t := mono_of_step b n hstep t (by omega) 0 (by omega)
    have hbt1 : b t < b (t + 1) := hstep t htn
    obtain ⟨m1, hm1, hlen, hbefore, hat⟩ :=
      ih (t + 1) (fill_tile (b 0) (uadd t r.range_.start) (b t) (b (t + 1) - b t) m)
        (by omega)
    refine ⟨m1, ?_, ?_, ?_, ?_⟩
    · simp only [fill_map, hT t htn, h0]
      exact hm1
    · rw [hlen, fill_tile_length]
    · intro i hi
      rw [hbefore i (by omega), fill_tile_getElem _ _ _ _ _ _ hbt]
      have c : ¬ (b t ≤ i + b 0 ∧ i + b 0 < b t + (b (t + 1) - b t) ∧ i < m.length) := by
        omega
      simp only [c, if_false]
    · intro j hj1 hj2 e he1 he2 hlt
      rcases Nat.eq_or_lt_of_le hj1 with h | h
      · subst h
        rw [hbefore (e - b 0) (by omega), fill_tile_getElem _ _ _ _ _ _ hbt]
        have c : b t ≤ e - b 0 + b 0 ∧ e - b 0 + b 0 < b t + (b (t + 1) - b t) ∧
            e - b 0 < m.length := by omega
        simp only [c, and_self, if_true]
      · exact hat j (by omega) hj2 e he1 he2 (by rw [fill_tile_length]; exact hlt)

/-- The machine sum of a tile index and a tile count inside the machine word is their sum. -/
theorem uadd_of_lt (a b : Nat) (h : a + b < 2 ^ word_bits) : uadd a b = a + b := by
  simp only [uadd, Nat.mod_eq_of_lt h]

/-- The size of the tile range `[s, s + n)` stored by `init_tiles_` is `n` when `s` and `n`
are machine words, also when the upper end has wrapped around. -/
theorem usub_uadd_cancel (s n : Nat) (hs : s < 2 ^ word_bits) (hn : n < 2 ^ word_bits) :
    usub (uadd s n) s = n := by
  simp only [usub, uadd]
  rcases Nat.lt_or_ge (s + n) (2 ^ word_bits) with h | h
  · rw [Nat.mod_eq_of_lt h]
    have : s ≤ s + n := by omega
    simp only [this, if_true]
    omega
  · have h2 : (s + n) % 2 ^ word_bits = s + n - 2 ^ word_bits := by
      rw [Nat.mod_eq_sub_mod h, Nat.mod_eq_of_lt (by omega)]
    rw [h2]
    have : ¬ s ≤ s + n - 2 ^ word_bits := by omega
    simp only [this, if_false]
    omega

/-- The method `init_map_` only touches the element-to-tile map: either it leaves the range
as it is, or it replaces the map by the result of its loops. -/
theorem init_map_fields (r0 r : TiledRange1) (h : init_map_ r0 = .ok r) :
    r.range_ = r0.range_ ∧ r.element_range_ = r0.element_range_ ∧
      r.tile_ranges_ = r0.tile_ranges_ ∧
      ((r0.element_range_.size = 0 ∧ r.elem2tile_ = r0.elem2tile_) ∨
       (r0.element_range_.size ≠ 0 ∧
        fill_map r0 0 r0.range_.size (vector_resize r0.elem2tile_ r0.element_range_.size) =
          .ok r.elem2tile_)) := by
  by_cases hsz : r0.element_range_.size = 0
  · simp only [init_map_, hsz, if_true] at h
    injection h with h
    subst h
    exact ⟨rfl, rfl, rfl, Or.inl ⟨hsz, rfl⟩⟩
  · simp only [init_map_, hsz, if_false, bind, Except.bind] at h
    cases hm : fill_map r0 0 r0.range_.size
        (vector_resize r0.elem2tile_ r0.element_range_.size) with
    | error e => rw [hm] at h; cases h
    | ok m =>
      rw [hm] at h
      injection h with h
      subst h
      exact ⟨rfl, rfl, rfl, Or.inr ⟨hsz, rfl⟩⟩

/-- What `init_tiles_` returns on a non-empty strictly increasing sequence whose length is
not 2. -/
theorem init_tiles_ok (x : Nat) (rest : List Nat) (s : Nat) (hlen : rest.length ≠ 1)
    (hch : (x :: rest).Chain' (· < ·)) :
    init_tiles_ ⟨⟨0, 0⟩, ⟨0, 0⟩, [], []⟩ (x :: rest) s =
      .ok ⟨⟨s, uadd s rest.length⟩, ⟨x, (x :: rest).getD rest.length 0⟩,
        push_tiles (x :: rest) [], []⟩ := by
  have hlast : (x :: rest).getLast? = some ((x :: rest).getD rest.length 0) := by
    rw [List.getLast?_eq_getElem?, List.getD_eq_getElem?_getD]
    have hl : rest.length < (x :: rest).length := by simp
    have h1 : (x :: rest)[rest.length]? = some ((x :: rest)[rest.length]) :=
      List.getElem?_eq_getElem hl
    simp only [List.length_cons, Nat.add_sub_cancel, h1, Option.getD_some]
  have hlen2 : ¬ rest.length + 1 = 2 := by omega
  simp only [init_tiles_, valid_, List.length_cons, hlen2, if_false, valid_loop_cons, hch,
    decide_True, TA_ASSERT, if_true, bind, Except.bind, List.head?_cons, hlast,
    Nat.add_sub_cancel]

/-- The boundaries of a chain increase from each position to the next. -/
theorem chain_step (x : Nat) (rest : List Nat) (hch : (x :: rest).Chain' (· < ·)) :
    ∀ j, j < rest.length → (x :: rest).getD j 0 < (x :: rest).getD (j + 1) 0 := by
  intro j hj
  have := (List.chain'_iff_get.mp hch) j (by simpa using hj)
  have hj0 : j < (x :: rest).length := by simp; omega
  have hj1 : j + 1 < (x :: rest).length := by simpa using hj
  have h1 : (x :: rest)[j]? = some ((x :: rest)[j]) := List.getElem?_eq_getElem hj0
  have h2 : (x :: rest)[j + 1]? = some ((x :: rest)[j + 1]) :=
    List.getElem?_eq_getElem hj1
  rw [List.getD_eq_getElem?_getD, List.getD_eq_getElem?_getD, h1, h2]
  simpa using this

/-- What a successful construction has established: the sequence has `n + 1` boundaries with
`n ≠ 1`, it increases strictly, the tile range starts at `s` and ends at the machine sum
`s + n`, the element range is `[a_0, a_n)`, tile `j` is `[a_j, a_{j+1})`, and, when
`s + n` is inside the machine word, the map sends each element of tile `j` to `j + s`. -/
theorem ctor_ok_spec (a : List Nat) (s : Nat) (r : TiledRange1) (h : ctor a s = .ok r) :
    ∃ n, a.length = n + 1 ∧ n ≠ 1 ∧
      (∀ j, j < n → a.getD j 0 < a.getD (j + 1) 0) ∧
      r.range_ = ⟨s, uadd s n⟩ ∧
      r.element_range_ = ⟨a.getD 0 0, a.getD n 0⟩ ∧
      r.tile_ranges_.length = n ∧
      (∀ j, j < n → r.tile_ranges_[j]? = some ⟨a.getD j 0, a.getD (j + 1) 0⟩) ∧
      (s + n < 2 ^ word_bits → ∀ j, j < n → ∀ e, a.getD j 0 ≤ e → e < a.getD (j + 1) 0 →
        r.elem2tile_[e - a.getD 0 0]? = some (j + s)) := by
  cases a with
  | nil => simp [ctor, init_tiles_, valid_, valid_loop, bind, Except.bind] at h
  | cons x rest =>
    refine ⟨rest.length, by simp, ?_⟩
    by_cases hlen : (x :: rest).length = 2
    · simp [ctor, init_tiles_, valid_, hlen, TA_ASSERT, bind, Except.bind] at h
    have hn1 : rest.length ≠ 1 := by simpa using hlen
    by_cases hch : (x :: rest).Chain' (· < ·)
    swap
    · simp [ctor, init_tiles_, valid_, hlen, valid_loop_cons, hch, TA_ASSERT, bind,
        Except.bind] at h
    have hstep := chain_step x rest hch
    have hinit := init_tiles_ok x rest s hn1 hch
    have hT : ∀ j, j < rest.length → (push_tiles (x :: rest) [])[j]? =
        some ⟨(x :: rest).getD j 0, (x :: rest).getD (j + 1) 0⟩ := by
      intro j hj
      exact push_tiles_getElem _ _ (by simpa using hj)
    have hmono : ∀ j, j ≤ rest.length → ∀ i, i ≤ j →
        (x :: rest).getD i 0 ≤ (x :: rest).getD j 0 :=
      mono_of_step (fun j => (x :: rest).getD j 0) rest.length hstep
    have hx : (x :: rest).getD 0 0 = x := by simp
    simp only [ctor, hinit, bind, Except.bind] at h
    obtain ⟨hf1, hf2, hf3, hmap⟩ := init_map_fields _ _ h
    refine ⟨hn1, hstep, hf1, by rw [hf2, hx], ?_, ?_, ?_⟩
    · rw [hf3]; simp [push_tiles_length]
    · intro j hj; rw [hf3]; exact hT j hj
    · intro hfit j hj e he1 he2
      have hxl : x ≤ (x :: rest).getD rest.length 0 := by
        have := hmono rest.length (le_refl _) 0 (by omega)
        simpa only [hx] using this
      have hesize : (⟨x, (x :: rest).getD rest.length 0⟩ : Range).size =
          (x :: rest).getD rest.length 0 - x := by
        simp only [Range.size, usub, hxl, if_true]
      have hrsize : (⟨s, uadd s rest.length⟩ : Range).size = rest.length := by
        simp only [Range.size]
        exact usub_uadd_cancel s rest.length (by omega) (by omega)
      have hjl := hmono rest.length (le_refl _) (j + 1) (by omega)
      have hj0 := hmono j (by omega) 0 (by omega)
      simp only [hx] at hj0
      rcases hmap with ⟨hz, -⟩ | ⟨-, hfill⟩
      · rw [hesize] at hz
        omega
      · rw [hesize, hrsize] at hfill
        obtain ⟨m1, hm1, -, -, hat⟩ :=
          fill_map_spec
            ⟨⟨s, uadd s rest.length⟩, ⟨x, (x :: rest).getD rest.length 0⟩,
              push_tiles (x :: rest) [], []⟩
            (fun j => (x :: rest).getD j 0) rest.length hT hstep (by simp) rest.length 0
            (vector_resize [] ((x :: rest).getD rest.length 0 - x)) (by omega)
        rw [hfill] at hm1
        injection hm1 with hm1
        have := hat j (Nat.zero_le _) hj e he1 he2 (by
          simp only [vector_resize, List.take_nil, List.nil_append, List.length_replicate,
            List.length_nil, Nat.sub_zero, hx]
          omega)
        rw [hm1, hx]
        rw [hx] at this
        rw [this, uadd_of_lt j s (by omega)]

/-- A strictly increasing sequence of `n + 1` boundaries with `n ≠ 1`, with a starting tile
index and a number of tiles that are machine words, is accepted: the constructor returns a
range. -/
theorem ctor_ok_of_increasing (a : List Nat) (s : Nat) (hne : a ≠ []) (hlen : a.length ≠ 2)
    (hch : a.Chain' (· < ·)) (hs : s < 2 ^ word_bits) (hn : a.length ≤ 2 ^ word_bits) :
    ∃ r, ctor a s = .ok r := by
  cases a with
  | nil => exact absurd rfl hne
  | cons x rest =>
    have hn1 : rest.length ≠ 1 := by simpa using hlen
    have hinit := init_tiles_ok x rest s hn1 hch
    have hstep := chain_step x rest hch
    have hT : ∀ j, j < rest.length → (push_tiles (x :: rest) [])[j]? =
        some ⟨(x :: rest).getD j 0, (x :: rest).getD (j + 1) 0⟩ := by
      intro j hj
      exact push_tiles_getElem _ _ (by simpa using hj)
    have hrsize : usub (uadd s rest.length) s = rest.length :=
      usub_uadd_cancel s rest.length hs (by simp at hn; omega)
    simp only [ctor, hinit, bind, Except.bind, init_map_, Range.size, hrsize]
    by_cases hsz : usub ((x :: rest).getD rest.length 0) x = 0
    · rw [if_pos hsz]
      exact ⟨_, rfl⟩
    · rw [if_neg hsz]
      obtain ⟨m1, hm1, -, -, -⟩ :=
        fill_map_spec
          ⟨⟨s, uadd s rest.length⟩, ⟨x, (x :: rest).getD rest.length 0⟩,
            push_tiles (x :: rest) [], []⟩
          (fun j => (x :: rest).getD j 0) rest.length hT hstep (by simp) rest.length 0
          (vector_resize [] (usub ((x :: rest).getD rest.length 0) x)) (by omega)
      simp only [hm1]
      exact ⟨_, rfl⟩

/-- Two boundaries are always rejected, whatever their values and the starting tile index. -/
theorem ctor_two_boundaries (a0 a1 s : Nat) : ctor [a0, a1] s = .error .runtime_error := by
  simp [ctor, init_tiles_, valid_, TA_ASSERT, bind, Except.bind]

/-- One boundary is always accepted and gives a range without tiles and elements. -/
theorem ctor_one_boundary (a0 s : Nat) :
    ctor [a0] s = .ok ⟨⟨s, uadd s 0⟩, ⟨a0, a0⟩, [], []⟩ := by
  simp [ctor, init_tiles_, valid_, valid_loop, TA_ASSERT, bind, Except.bind, init_map_,
    Range.size, push_tiles, usub]

/-- A sequence of at least two boundaries that does not increase strictly is rejected. -/
theorem ctor_not_increasing (a : List Nat) (s : Nat) (hlen : 2 ≤ a.length)
    (hch : ¬ a.Chain' (· < ·)) : ctor a s = .error .runtime_error := by
  cases a with
  | nil => simp at hlen
  | cons x rest =>
    by_cases h2 : rest.length + 1 = 2
    · simp [ctor, init_tiles_, valid_, h2, TA_ASSERT, bind, Except.bind]
    · simp [ctor, init_tiles_, valid_, h2, valid_loop_cons, hch, TA_ASSERT, bind, Except.bind]

/-- C1 (defect of the code): the strictly increasing boundary sequence `0 < 10` has two
boundaries, so one tile should result, but `valid_` answers `false` on every sequence of
exactly two boundaries and the constructor fails with `std::runtime_error`. -/
theorem C1_two_boundaries_rejected : ctor [0, 10] 0 = .error .runtime_error :=
  rfl

/-- C3: for a range constructed from the boundaries `a_0 < ... < a_n` with starting tile
index `s` and a tile index `i` with `s ≤ i < s + n`, `tile(i)` returns the half-open
interval `[a_{i-s}, a_{i-s+1})`: it includes exactly the elements `e` with
`a_{i-s} ≤ e < a_{i-s+1}` and its size is `a_{i-s+1} - a_{i-s}`. -/
theorem C3_tile_interval (a : List Nat) (s n : Nat) (r : TiledRange1)
    (hr : ctor a s = .ok r) (hn : a.length = n + 1) (i : Nat) (h1 : s ≤ i) (h2 : i < s + n) :
    ∃ t, r.tile i = .ok t ∧ t.start = a.getD (i - s) 0 ∧ t.finish = a.getD (i - s + 1) 0 ∧
      t.size = a.getD (i - s + 1) 0 - a.getD (i - s) 0 ∧
      ∀ e, t.includes e = true ↔ a.getD (i - s) 0 ≤ e ∧ e < a.getD (i - s + 1) 0 := by
  obtain ⟨n1, hn1, -, hstep, hrange, -, -, hT, -⟩ := ctor_ok_spec a s r hr
  have hnn : n1 = n := by omega
  subst hnn
  have hu : usub i r.range_.start = i - s := by
    simp only [hrange, usub, h1, if_true]
  have hle : a.getD (i - s) 0 ≤ a.getD (i - s + 1) 0 := Nat.le_of_lt (hstep (i - s) (by omega))
  refine ⟨⟨a.getD (i - s) 0, a.getD (i - s + 1) 0⟩, ?_, rfl, rfl, ?_, ?_⟩
  swap
  · simp only [Range.size, usub, hle, if_true]
  · simp only [tile, hu, hT (i - s) (by omega)]
  · intro e
    simp [Range.includes, -List.getD_eq_getElem?_getD]

/-- C3, on the boundaries `0, 3, 7, 10, 20, 50` with starting tile index 2: tile 5 is the
interval `[10, 20)` of size 10. -/
theorem C3_tile_interval_witness :
    ctor [0, 3, 7, 10, 20, 50] 2 =
      .ok ⟨⟨2, 7⟩, ⟨0, 50⟩, [⟨0, 3⟩, ⟨3, 7⟩, ⟨7, 10⟩, ⟨10, 20⟩, ⟨20, 50⟩],
        [2, 2, 2, 3, 3, 3, 3, 4, 4, 4, 5, 5, 5, 5, 5, 5, 5, 5, 5, 5, 6, 6, 6, 6, 6, 6, 6, 6, 6,
          6, 6, 6, 6, 6, 6, 6, 6, 6, 6, 6, 6, 6, 6, 6, 6, 6, 6, 6, 6, 6]⟩ ∧
    ∃ t, tile
        ⟨⟨2, 7⟩, ⟨0, 50⟩, [⟨0, 3⟩, ⟨3, 7⟩, ⟨7, 10⟩, ⟨10, 20⟩, ⟨20, 50⟩],
          [2, 2, 2, 3, 3, 3, 3, 4, 4, 4, 5, 5, 5, 5, 5, 5, 5, 5, 5, 5, 6, 6, 6, 6, 6, 6, 6, 6,
            6, 6, 6, 6, 6, 6, 6, 6, 6, 6, 6, 6, 6, 6, 6, 6, 6, 6, 6, 6, 6, 6]⟩ 5 = .ok t ∧
      t.start = [0, 3, 7, 10, 20, 50].getD (5 - 2) 0 ∧
      t.finish = [0, 3, 7, 10, 20, 50].getD (5 - 2 + 1) 0 ∧
      t.size = [0, 3, 7, 10, 20, 50].getD (5 - 2 + 1) 0 - [0, 3, 7, 10, 20, 50].getD (5 - 2) 0 ∧
      ∀ e, t.includes e = true ↔
        [0, 3, 7, 10, 20, 50].getD (5 - 2) 0 ≤ e ∧ e < [0, 3, 7, 10, 20, 50].getD (5 - 2 + 1) 0 :=
  ⟨rfl, C3_tile_interval [0, 3, 7, 10, 20, 50] 2 5 _ rfl rfl 5 (by decide) (by decide)⟩

/-- C10 (defect of the code): the sequence with the single boundary 5 has fewer than two
boundaries, so construction should fail, but `valid_` only rejects the length 2 and the
constructor returns a range with no tiles and no elements. -/
theorem C10_single_boundary_accepted : ctor [5] 0 = .ok ⟨⟨0, 0⟩, ⟨5, 5⟩, [], []⟩ :=
  rfl

end TiledRange1

namespace ProcGrid

/-- The search loop of `minimize_unused_procs`, run with a lower limit of at least 1 from
the candidate `t`: it returns, and either no candidate was accepted (then every candidate
leaves at least `u` processes unused) or the result is an accepted candidate `x1` with
`y1 = nprocs / x1` that leaves fewer than `u` processes unused and no more than any other
candidate of the window. -/
theorem minimize_loop_spec (P mn : Nat) (hmn : 1 ≤ mn) :
    ∀ t x y u, ∃ x1 y1, minimize_loop P mn t x y u = .ok (x1, y1) ∧
      ((x1 = x ∧ y1 = y ∧ ∀ c, mn ≤ c → c ≤ t → u ≤ P - c * (P / c)) ∨
       (mn ≤ x1 ∧ x1 ≤ t ∧ y1 = P / x1 ∧ P - x1 * y1 < u ∧
          ∀ c, mn ≤ c → c ≤ t → P - x1 * y1 ≤ P - c * (P / c))) := by
  intro t
  induction t with
  | zero =>
    intro x y u
    refine ⟨x, y, ?_, Or.inl ⟨rfl, rfl, ?_⟩⟩
    · have : ¬ 0 ≥ mn := by omega
      simp only [minimize_loop, this, if_false]
    · intro c h1 h2; omega
  | succ t ih =>
    intro x y u
    by_cases hge : t + 1 ≥ mn
    · by_cases hlt : P - (t + 1) * (P / (t + 1)) < u
      · by_cases hz : P - (t + 1) * (P / (t + 1)) = 0
        · refine ⟨t + 1, P / (t + 1), ?_, Or.inr ⟨hge, le_refl _, rfl, hlt, ?_⟩⟩
          · have hu0 : 0 < u := by omega
            simp only [minimize_loop, hge, hz, hu0, if_true]
          · intro c _ _; omega
        · obtain ⟨x1, y1, heq, hcase⟩ :=
            ih (t + 1) (P / (t + 1)) (P - (t + 1) * (P / (t + 1)))
          refine ⟨x1, y1, ?_, Or.inr ?_⟩
          · simp only [minimize_loop, hge, hlt, hz, if_true, if_false]
            exact heq
          · rcases hcase with ⟨h1, h2, h3⟩ | ⟨h1, h2, h3, h4, h5⟩
            · subst h1; subst h2
              refine ⟨hge, le_refl _, rfl, hlt, ?_⟩
              intro c hc1 hc2
              rcases Nat.eq_or_lt_of_le hc2 with h | h
              · subst h; exact le_refl _
              · exact h3 c hc1 (by omega)
            · refine ⟨h1, by omega, h3, by omega, ?_⟩
              intro c hc1 hc2
              rcases Nat.eq_or_lt_of_le hc2 with h | h
              · subst h; omega
              · exact h5 c hc1 (by omega)
      · obtain ⟨x1, y1, heq, hcase⟩ := ih x y u
        refine ⟨x1, y1, ?_, ?_⟩
        · simp only [minimize_loop, hge, hlt, if_true, if_false]
          exact heq
        · rcases hcase with ⟨h1, h2, h3⟩ | ⟨h1, h2, h3, h4, h5⟩
          · refine Or.inl ⟨h1, h2, ?_⟩
            intro c hc1 hc2
            rcases Nat.eq_or_lt_of_le hc2 with h | h
            · subst h; omega
            · exact h3 c hc1 (by omega)
          · refine Or.inr ⟨h1, by omega, h3, h4, ?_⟩
            intro c hc1 hc2
            rcases Nat.eq_or_lt_of_le hc2 with h | h
            · subst h; omega
            · exact h5 c hc1 (by omega)
    · refine ⟨x, y, ?_, Or.inl ⟨rfl, rfl, ?_⟩⟩
      · simp only [minimize_loop, hge, if_false]
      · intro c h1 h2; omega

/-- The method `minimize_unused_procs`, called with `1 ≤ min_x ≤ x ≤ max_x`, `x ≤ nprocs`
and `y = nprocs / x`: it returns a candidate of the window
`[max(min_x, x - delta), min(x + delta, max_x)]` together with `nprocs / x1`, and no
candidate of the window leaves fewer processes unused. -/
theorem minimize_unused_procs_spec (x y P min_x max_x : Nat) (hmin : 1 ≤ min_x)
    (hx1 : min_x ≤ x) (hx2 : x ≤ max_x) (hxP : x ≤ P) (hy : y = P / x) :
    ∃ x1 y1, minimize_unused_procs x y P min_x max_x = .ok (x1, y1) ∧
      max min_x (x - max 1 (log2 P)) ≤ x1 ∧ x1 ≤ min (x + max 1 (log2 P)) max_x ∧
      y1 = P / x1 ∧
      ∀ c, max min_x (x - max 1 (log2 P)) ≤ c → c ≤ min (x + max 1 (log2 P)) max_x →
        P - x1 * y1 ≤ P - c * (P / c) := by
  have hxpos : 0 < x := by omega
  have hdiv : 1 ≤ P / x := (Nat.one_le_div_iff hxpos).mpr hxP
  have hu : x * (P / x) ≠ 0 := Nat.mul_ne_zero (by omega) (by omega)
  have hmtx : (max (min_x : Int) ((x : Int) - ((max 1 (log2 P) : Nat) : Int))).toNat =
      max min_x (x - max 1 (log2 P)) := by
    omega
  have hmn1 : 1 ≤ max min_x (x - max 1 (log2 P)) := le_trans hmin (le_max_left _ _)
  obtain ⟨x1, y1, heq, hcase⟩ :=
    minimize_loop_spec P (max min_x (x - max 1 (log2 P))) hmn1
      (min (x + max 1 (log2 P)) max_x) x (P / x) (x * (P / x))
  refine ⟨x1, y1, ?_, ?_⟩
  · subst hy
    simp only [minimize_unused_procs, hu, if_false, hmtx]
    exact heq
  · rcases hcase with ⟨_, _, h3⟩ | ⟨h1, h2, h3, _, h5⟩
    · exfalso
      have hc := h3 x (by omega) (by omega)
      have hmod : P - x * (P / x) = P % x := by
        have := Nat.div_add_mod P x
        omega
      have hlt : P % x < x := Nat.mod_lt _ hxpos
      have hle : x ≤ x * (P / x) := Nat.le_mul_of_pos_right x (by omega)
      omega
    · exact ⟨h1, h2, h3, h5⟩

/-- In the general case the lower limit `ceil(P / N)` of the clamp is at least 1 and at
most the upper limit `min(P, M)`. -/
theorem clamp_limits (P M N : Nat) (hP : 1 < P) (hMN : P < M * N) :
    1 ≤ (P + N - 1) / N ∧ (P + N - 1) / N ≤ min P M := by
  have hN : 0 < N := by
    rcases Nat.eq_zero_or_pos N with h | h
    · subst h; simp at hMN
    · exact h
  refine ⟨?_, ?_⟩
  · exact (Nat.one_le_div_iff hN).mpr (by omega)
  · apply Nat.le_min.mpr
    refine ⟨?_, ?_⟩
    · have hle : P ≤ P * N := Nat.le_mul_of_pos_right P hN
      have : (P + N - 1) / N < P + 1 :=
        (Nat.div_lt_iff_lt_mul hN).mpr (by rw [Nat.add_mul, Nat.one_mul]; omega)
      omega
    · have : (P + N - 1) / N < M + 1 :=
        (Nat.div_lt_iff_lt_mul hN).mpr (by rw [Nat.add_mul, Nat.one_mul]; omega)
      omega

/-- A machine product inside the machine word is the product. -/
theorem umul_of_lt (a b : Nat) (h : a * b < 2 ^ word_bits) : umul a b = a * b := by
  simp only [umul, Nat.mod_eq_of_lt h]

/-- A machine product is at most the product. -/
theorem umul_le (a b : Nat) : umul a b ≤ a * b := Nat.mod_le _ _

/-- The numerator `nprocs + cols_ - 1` of the lower limit of the clamp, in machine
arithmetic, is at most the exact one. -/
theorem usub_uadd_one_le (P N : Nat) (hN : 1 ≤ N) : usub (uadd P N) 1 ≤ P + N - 1 := by
  have hpow : 0 < 2 ^ word_bits := Nat.two_pow_pos word_bits
  have hmod : (P + N) % 2 ^ word_bits < 2 ^ word_bits := Nat.mod_lt _ hpow
  have hle : (P + N) % 2 ^ word_bits ≤ P + N := Nat.mod_le _ _
  simp only [usub, uadd]
  by_cases h : 1 ≤ (P + N) % 2 ^ word_bits
  · simp only [h, if_true]
    omega
  · simp only [h, if_false]
    have h0 : (P + N) % 2 ^ word_bits = 0 := by omega
    have hdvd : 2 ^ word_bits ∣ P + N := Nat.dvd_of_mod_eq_zero h0
    have := Nat.le_of_dvd (by omega) hdvd
    omega

/-- The numerator `nprocs + cols_ - 1` of the lower limit of the clamp is exact when
`nprocs + cols_` does not exceed `2^64`. -/
theorem usub_uadd_one (P N : Nat) (hN : 1 ≤ N) (hPN : P + N ≤ 2 ^ word_bits) :
    usub (uadd P N) 1 = P + N - 1 := by
  simp only [usub, uadd]
  rcases Nat.lt_or_ge (P + N) (2 ^ word_bits) with h | h
  · rw [Nat.mod_eq_of_lt h]
    have : 1 ≤ P + N := by omega
    simp only [this, if_true]
  · have he : P + N = 2 ^ word_bits := by omega
    rw [he, Nat.mod_self]
    simp

/-- A share `M / x + (r < M mod x ? 1 : 0)` of `M` tile rows among `x ≥ 1` process rows is at
most `M`. -/
theorem share_le (M x r : Nat) (hx : 1 ≤ x) :
    M / x + (if r < M % x then 1 else 0) ≤ M := by
  have hdm := Nat.div_add_mod M x
  have hmul : M / x ≤ x * (M / x) := Nat.le_mul_of_pos_left _ (by omega)
  by_cases h : r < M % x
  · simp only [h, if_true]
    omega
  · simp only [h, if_false]
    omega

/-- The general case of `init` (more than one process, more tiles than processes, the tile
count being the machine product `rows_ * cols_`): the constructor returns on every rank,
with the same number of process rows `x` on all of them; `x` lies between the lower limit
`L` that the code computes and `min(P, M)`; when the clamped estimate `x0` is strictly
inside these limits, `x` is a candidate of the search window that leaves the fewest
processes unused, otherwise `x = x0`; ranks below `x * (P / x)` are placed in the grid and
get their share of the tiles, the others stay outside. -/
theorem ctor_general_w (opr : Nat → Nat → Nat → Nat) (P M N rs cs : Nat) (hP : 1 < P)
    (hMN : P < umul M N) (hrs : 1 ≤ rs) (hcs : 1 ≤ cs) (L : Nat)
    (hL : L = max (usub (uadd P N) 1 / N) 1) :
    ∃ x, L ≤ x ∧ x ≤ min P M ∧
      (∀ x0, x0 = max L (min (opr P rs cs) (min P M)) →
        (L < x0 ∧ x0 < min P M →
          max L (x0 - max 1 (log2 P)) ≤ x ∧
          x ≤ min (x0 + max 1 (log2 P)) (min P M) ∧
          ∀ c, max L (x0 - max 1 (log2 P)) ≤ c →
            c ≤ min (x0 + max 1 (log2 P)) (min P M) → P - x * (P / x) ≤ P - c * (P / c)) ∧
        (¬ (L < x0 ∧ x0 < min P M) → x = x0)) ∧
      ∀ rank,
        (rank < x * (P / x) →
          ctor opr rank P M N rs cs =
            .ok { rows_ := M, cols_ := N, size_ := umul M N
                  proc_rows_ := x, proc_cols_ := P / x, proc_size_ := x * (P / x)
                  rank_row_ := ((rank / (P / x) : Nat) : Int)
                  rank_col_ := ((rank % (P / x) : Nat) : Int)
                  local_rows_ := M / x + (if rank / (P / x) < M % x then 1 else 0)
                  local_cols_ := N / (P / x) + (if rank % (P / x) < N % (P / x) then 1 else 0)
                  local_size_ := umul (M / x + (if rank / (P / x) < M % x then 1 else 0))
                    (N / (P / x) + (if rank % (P / x) < N % (P / x) then 1 else 0)) }) ∧
        (x * (P / x) ≤ rank →
          ctor opr rank P M N rs cs =
            .ok { rows_ := M, cols_ := N, size_ := umul M N
                  proc_rows_ := x, proc_cols_ := P / x, proc_size_ := x * (P / x)
                  rank_row_ := -1, rank_col_ := -1
                  local_rows_ := 0, local_cols_ := 0, local_size_ := 0 }) := by
  have hMN2 : P < M * N := lt_of_lt_of_le hMN (umul_le M N)
  have hN : 1 ≤ N := by
    rcases Nat.eq_zero_or_pos N with h | h
    · subst h; simp at hMN2
    · exact h
  have hM : 1 ≤ M := by
    rcases Nat.eq_zero_or_pos M with h | h
    · subst h; simp at hMN2
    · exact h
  have hP1 : P ≠ 1 := by omega
  have hsz : ¬ umul M N ≤ P := by omega
  have hN0 : N ≠ 0 := by omega
  obtain ⟨hc1, hc2⟩ := clamp_limits P M N hP hMN2
  have hL1 : 1 ≤ L := by rw [hL]; exact le_max_right _ _
  have hLhi : L ≤ min P M := by
    rw [hL]
    apply max_le
    · exact le_trans (Nat.div_le_div_right (usub_uadd_one_le P N hN)) hc2
    · exact le_trans hc1 hc2
  -- the clamped estimate
  obtain ⟨x0, hx0def⟩ : ∃ x0, x0 = max L (min (opr P rs cs) (min P M)) := ⟨_, rfl⟩
  have hx0lo : L ≤ x0 := by rw [hx0def]; exact le_max_left _ _
  have hx0hi : x0 ≤ min P M := by
    rw [hx0def]; exact max_le hLhi (min_le_right _ _)
  have hx0ne : x0 ≠ 0 := by omega
  have hpos : ∀ x, L ≤ x → x ≤ min P M → x ≠ 0 ∧ P / x ≠ 0 := by
    intro x h1 h2
    have hxP : x ≤ P := le_trans h2 (min_le_left _ _)
    have := (Nat.one_le_div_iff (by omega : 0 < x)).mpr hxP
    exact ⟨by omega, by omega⟩
  by_cases hstrict : L < x0 ∧ x0 < min P M
  · obtain ⟨x1, y1, heq, hw1, hw2, hy1, hbest⟩ :=
      minimize_unused_procs_spec x0 (P / x0) P L (min P M) hL1 hx0lo hx0hi
        (le_trans hx0hi (min_le_left _ _)) rfl
    subst hy1
    have hx1lo : L ≤ x1 := le_trans (le_max_left _ _) hw1
    have hx1hi : x1 ≤ min P M := le_trans hw2 (min_le_right _ _)
    obtain ⟨hx1ne, hy1ne⟩ := hpos x1 hx1lo hx1hi
    refine ⟨x1, hx1lo, hx1hi, ?_, ?_⟩
    · intro z hz
      have hzz : z = x0 := by rw [hz, hx0def]
      subst hzz
      exact ⟨fun _ => ⟨hw1, hw2, hbest⟩, fun hn => absurd hstrict hn⟩
    · intro rank
      refine ⟨fun hr => ?_, fun hr => ?_⟩
      · simp only [ctor, TA_ASSERT, hM, hN, hrs, hcs, ge_iff_le, decide_True, if_true, bind,
          Except.bind, init, hP1, if_false, hsz, udiv, umod, hN0, ← hL, ← hx0def, hx0ne,
          gt_iff_lt, hstrict, and_self, heq, hr, hx1ne, hy1ne]
      · have hr2 : ¬ rank < x1 * (P / x1) := by omega
        simp only [ctor, TA_ASSERT, hM, hN, hrs, hcs, ge_iff_le, decide_True, if_true, bind,
          Except.bind, init, hP1, if_false, hsz, udiv, umod, hN0, ← hL, ← hx0def, hx0ne,
          gt_iff_lt, hstrict, and_self, heq, hr2]
  · obtain ⟨-, hy0ne⟩ := hpos x0 hx0lo hx0hi
    refine ⟨x0, hx0lo, hx0hi, ?_, ?_⟩
    · intro z hz
      have hzz : z = x0 := by rw [hz, hx0def]
      subst hzz
      exact ⟨fun h => absurd h hstrict, fun _ => rfl⟩
    · intro rank
      refine ⟨fun hr => ?_, fun hr => ?_⟩
      · simp only [ctor, TA_ASSERT, hM, hN, hrs, hcs, ge_iff_le, decide_True, if_true, bind,
          Except.bind, init, hP1, if_false, hsz, udiv, umod, hN0, ← hL, ← hx0def, hx0ne,
          gt_iff_lt, hstrict, hr, hy0ne]
      · have hr2 : ¬ rank < x0 * (P / x0) := by omega
        simp only [ctor, TA_ASSERT, hM, hN, hrs, hcs, ge_iff_le, decide_True, if_true, bind,
          Except.bind, init, hP1, if_false, hsz, udiv, umod, hN0, ← hL, ← hx0def, hx0ne,
          gt_iff_lt, hstrict, hr2]

/-- The general case of `init` when the tile count `M * N` is inside the machine word: as
`ctor_general_w`, with the exact products in the grid. -/
theorem ctor_general_fit (opr : Nat → Nat → Nat → Nat) (P M N rs cs : Nat) (hP : 1 < P)
    (hMN : P < M * N) (hrs : 1 ≤ rs) (hcs : 1 ≤ cs) (hfit : M * N < 2 ^ word_bits) (L : Nat)
    (hL : L = max (usub (uadd P N) 1 / N) 1) :
    ∃ x, L ≤ x ∧ x ≤ min P M ∧
      (∀ x0, x0 = max L (min (opr P rs cs) (min P M)) →
        (L < x0 ∧ x0 < min P M →
          max L (x0 - max 1 (log2 P)) ≤ x ∧
          x ≤ min (x0 + max 1 (log2 P)) (min P M) ∧
          ∀ c, max L (x0 - max 1 (log2 P)) ≤ c →
            c ≤ min (x0 + max 1 (log2 P)) (min P M) → P - x * (P / x) ≤ P - c * (P / c)) ∧
        (¬ (L < x0 ∧ x0 < min P M) → x = x0)) ∧
      ∀ rank,
        (rank < x * (P / x) →
          ctor opr rank P M N rs cs =
            .ok { rows_ := M, cols_ := N, size_ := M * N
                  proc_rows_ := x, proc_cols_ := P / x, proc_size_ := x * (P / x)
                  rank_row_ := ((rank / (P / x) : Nat) : Int)
                  rank_col_ := ((rank % (P / x) : Nat) : Int)
                  local_rows_ := M / x + (if rank / (P / x) < M % x then 1 else 0)
                  local_cols_ := N / (P / x) + (if rank % (P / x) < N % (P / x) then 1 else 0)
                  local_size_ := (M / x + (if rank / (P / x) < M % x then 1 else 0)) *
                    (N / (P / x) + (if rank % (P / x) < N % (P / x) then 1 else 0)) }) ∧
        (x * (P / x) ≤ rank →
          ctor opr rank P M N rs cs =
            .ok { rows_ := M, cols_ := N, size_ := M * N
                  proc_rows_ := x, proc_cols_ := P / x, proc_size_ := x * (P / x)
                  rank_row_ := -1, rank_col_ := -1
                  local_rows_ := 0, local_cols_ := 0, local_size_ := 0 }) := by
  have hS : umul M N = M * N := umul_of_lt M N hfit
  obtain ⟨x, hlo, hhi, hsearch, hctor⟩ :=
    ctor_general_w opr P M N rs cs hP (by rw [hS]; exact hMN) hrs hcs L hL
  refine ⟨x, hlo, hhi, hsearch, fun rank => ?_⟩
  have hx1 : 1 ≤ x := by
    have : 1 ≤ L := by rw [hL]; exact le_max_right _ _
    omega
  have hxP : x ≤ P := le_trans hhi (min_le_left _ _)
  have hy1 : 1 ≤ P / x := (Nat.one_le_div_iff (by omega)).mpr hxP
  have hloc : umul (M / x + (if rank / (P / x) < M % x then 1 else 0))
      (N / (P / x) + (if rank % (P / x) < N % (P / x) then 1 else 0)) =
      (M / x + (if rank / (P / x) < M % x then 1 else 0)) *
      (N / (P / x) + (if rank % (P / x) < N % (P / x) then 1 else 0)) := by
    apply umul_of_lt
    exact lt_of_le_of_lt (Nat.mul_le_mul (share_le M x _ hx1) (share_le N (P / x) _ hy1)) hfit
  obtain ⟨hin, hout⟩ := hctor rank
  rw [hS, hloc] at hin
  rw [hS] at hout
  exact ⟨hin, hout⟩

/-- The general case of `init` when the tile count `M * N` and the sum `P + N` are inside the
machine word: the constructor returns on every rank, with the same number of process rows
`x` on all of them; `x` lies in the clamp `[ceil(P/N), min(P, M)]`; when the clamped
estimate `x0` is strictly inside the clamp, `x` is a candidate of the search window that
leaves the fewest processes unused, otherwise `x = x0`; ranks below `x * (P / x)` are
placed in the grid and get their share of the tiles, the others stay outside. -/
theorem ctor_general (opr : Nat → Nat → Nat → Nat) (P M N rs cs : Nat) (hP : 1 < P)
    (hMN : P < M * N) (hrs : 1 ≤ rs) (hcs : 1 ≤ cs) (hfit : M * N < 2 ^ word_bits)
    (hPN : P + N ≤ 2 ^ word_bits) :
    ∃ x, (P + N - 1) / N ≤ x ∧ x ≤ min P M ∧
      (∀ x0, x0 = max ((P + N - 1) / N) (min (opr P rs cs) (min P M)) →
        ((P + N - 1) / N < x0 ∧ x0 < min P M →
          max ((P + N - 1) / N) (x0 - max 1 (log2 P)) ≤ x ∧
          x ≤ min (x0 + max 1 (log2 P)) (min P M) ∧
          ∀ c, max ((P + N - 1) / N) (x0 - max 1 (log2 P)) ≤ c →
            c ≤ min (x0 + max 1 (log2 P)) (min P M) → P - x * (P / x) ≤ P - c * (P / c)) ∧
        (¬ ((P + N - 1) / N < x0 ∧ x0 < min P M) → x = x0)) ∧
      ∀ rank,
        (rank < x * (P / x) →
          ctor opr rank P M N rs cs =
            .ok { rows_ := M, cols_ := N, size_ := M * N
                  proc_rows_ := x, proc_cols_ := P / x, proc_size_ := x * (P / x)
                  rank_row_ := ((rank / (P / x) : Nat) : Int)
                  rank_col_ := ((rank % (P / x) : Nat) : Int)
                  local_rows_ := M / x + (if rank / (P / x) < M % x then 1 else 0)
                  local_cols_ := N / (P / x) + (if rank % (P / x) < N % (P / x) then 1 else 0)
                  local_size_ := (M / x + (if rank / (P / x) < M % x then 1 else 0)) *
                    (N / (P / x) + (if rank % (P / x) < N % (P / x) then 1 else 0)) }) ∧
        (x * (P / x) ≤ rank →
          ctor opr rank P M N rs cs =
            .ok { rows_ := M, cols_ := N, size_ := M * N
                  proc_rows_ := x, proc_cols_ := P / x, proc_size_ := x * (P / x)
                  rank_row_ := -1, rank_col_ := -1
                  local_rows_ := 0, local_cols_ := 0, local_size_ := 0 }) := by
  have hN : 1 ≤ N := by
    rcases Nat.eq_zero_or_pos N with h | h
    · subst h; simp at hMN
    · exact h
  obtain ⟨hc1, -⟩ := clamp_limits P M N hP hMN
  have hL : (P + N - 1) / N = max (usub (uadd P N) 1 / N) 1 := by
    rw [usub_uadd_one P N hN hPN, max_eq_left hc1]
  exact ctor_general_fit opr P M N rs cs hP hMN hrs hcs hfit _ hL

/-- A sum over the ranks `0 .. P-1` of a quantity that vanishes from rank `K` on is the sum
over the ranks `0 .. K-1`. -/
theorem sum_range_cutoff (F : Nat → Nat) (K : Nat) :
    ∀ P, K ≤ P →
      (Finset.range P).sum (fun r => if r < K then F r else 0) = (Finset.range K).sum F := by
  intro P hKP
  induction P, hKP using Nat.le_induction with
  | base =>
    apply Finset.sum_congr rfl
    intro r hr
    simp only [Finset.mem_range] at hr
    simp only [hr, if_true]
  | succ P hKP ih =>
    have : ¬ P < K := by omega
    rw [Finset.sum_range_succ, ih]
    simp only [this, if_false, Nat.add_zero]

/-- Giving each of `x ≥ 1` process rows `M / x` tile rows, and one more to the first
`M % x` of them, hands out exactly `M` tile rows. -/
theorem sum_share (x M : Nat) (hx : 1 ≤ x) :
    (Finset.range x).sum (fun i => M / x + (if i < M % x then 1 else 0)) = M := by
  have hmod : M % x ≤ x := le_of_lt (Nat.mod_lt _ (by omega))
  have h1 := sum_range_cutoff (fun _ => 1) (M % x) x hmod
  rw [Finset.sum_add_distrib, h1]
  simp only [Finset.sum_const, Finset.card_range, smul_eq_mul, Nat.mul_one]
  exact Nat.div_add_mod M x

/-- A sum over the ranks of an `x` by `y` grid, rank `r` sitting in row `r / y` and column
`r % y`, of a product of a row quantity and a column quantity factors into the sum over the
rows times the sum over the columns. -/
theorem sum_grid (f g : Nat → Nat) (y : Nat) (hy : 0 < y) :
    ∀ x, (Finset.range (x * y)).sum (fun r => f (r / y) * g (r % y)) =
      (Finset.range x).sum f * (Finset.range y).sum g := by
  intro x
  induction x with
  | zero => simp
  | succ x ih =>
    have hrow : (Finset.range y).sum (fun j => f ((x * y + j) / y) * g ((x * y + j) % y)) =
        f x * (Finset.range y).sum g := by
      rw [Finset.mul_sum]
      apply Finset.sum_congr rfl
      intro j hj
      simp only [Finset.mem_range] at hj
      have h1 : (x * y + j) / y = x := by
        rw [Nat.mul_comm x y, Nat.mul_add_div hy, Nat.div_eq_of_lt hj, Nat.add_zero]
      have h2 : (x * y + j) % y = j := by
        rw [Nat.mul_comm x y, Nat.mul_add_mod, Nat.mod_eq_of_lt hj]
      rw [h1, h2]
    rw [Nat.succ_mul, Finset.sum_range_add, ih, hrow, Finset.sum_range_succ, Nat.add_mul]

/-- With a single process the constructor returns the 1x1 grid on every rank; the tile count
stored is the machine product. -/
theorem ctor_one_process_w (opr : Nat → Nat → Nat → Nat) (rank M N rs cs : Nat)
    (hM : 1 ≤ M) (hN : 1 ≤ N) (hrs : 1 ≤ rs) (hcs : 1 ≤ cs) :
    ctor opr rank 1 M N rs cs =
      .ok ⟨M, N, umul M N, 1, 1, 1, 0, 0, M, N, umul M N⟩ := by
  simp only [ctor, TA_ASSERT, hM, hN, hrs, hcs, ge_iff_le, decide_True, if_true, bind,
    Except.bind, init]

/-- With a single process and a tile count inside the machine word the constructor returns
the 1x1 grid on every rank. -/
theorem ctor_one_process (opr : Nat → Nat → Nat → Nat) (rank M N rs cs : Nat)
    (hM : 1 ≤ M) (hN : 1 ≤ N) (hrs : 1 ≤ rs) (hcs : 1 ≤ cs) (hfit : M * N < 2 ^ word_bits) :
    ctor opr rank 1 M N rs cs = .ok ⟨M, N, M * N, 1, 1, 1, 0, 0, M, N, M * N⟩ := by
  rw [ctor_one_process_w opr rank M N rs cs hM hN hrs hcs, umul_of_lt M N hfit]

/-- With more than one process and a stored tile count `S` of at most `P` the constructor
returns the tile grid as process grid, with `S` as its size; ranks below `S` own one tile,
the others none. -/
theorem ctor_one_tile_per_process_w (opr : Nat → Nat → Nat → Nat) (rank P M N rs cs : Nat)
    (hP : 1 < P) (hMN : umul M N ≤ P) (hM : 1 ≤ M) (hN : 1 ≤ N) (hrs : 1 ≤ rs)
    (hcs : 1 ≤ cs) :
    (rank < umul M N → ctor opr rank P M N rs cs =
      .ok ⟨M, N, umul M N, M, N, umul M N, ((rank / N : Nat) : Int),
        ((rank % N : Nat) : Int), 1, 1, 1⟩) ∧
    (umul M N ≤ rank → ctor opr rank P M N rs cs =
      .ok ⟨M, N, umul M N, M, N, umul M N, -1, -1, 0, 0, 0⟩) := by
  have hP1 : P ≠ 1 := by omega
  have hN0 : N ≠ 0 := by omega
  refine ⟨fun hr => ?_, fun hr => ?_⟩
  · simp only [ctor, TA_ASSERT, hM, hN, hrs, hcs, ge_iff_le, decide_True, if_true, bind,
      Except.bind, init, hP1, if_false, hMN, hr, udiv, umod, hN0]
  · have hr2 : ¬ rank < umul M N := by omega
    simp only [ctor, TA_ASSERT, hM, hN, hrs, hcs, ge_iff_le, decide_True, if_true, bind,
      Except.bind, init, hP1, if_false, hMN, hr2]

/-- With more than one process, at most one tile per process and a tile count inside the
machine word the constructor returns the tile grid as process grid; ranks below `M * N` own
one tile, the others none. -/
theorem ctor_one_tile_per_process (opr : Nat → Nat → Nat → Nat) (rank P M N rs cs : Nat)
    (hP : 1 < P) (hMN : M * N ≤ P) (hM : 1 ≤ M) (hN : 1 ≤ N) (hrs : 1 ≤ rs) (hcs : 1 ≤ cs)
    (hfit : M * N < 2 ^ word_bits) :
    (rank < M * N → ctor opr rank P M N rs cs =
      .ok ⟨M, N, M * N, M, N, M * N, ((rank / N : Nat) : Int), ((rank % N : Nat) : Int),
        1, 1, 1⟩) ∧
    (M * N ≤ rank → ctor opr rank P M N rs cs =
      .ok ⟨M, N, M * N, M, N, M * N, -1, -1, 0, 0, 0⟩) := by
  have hS : umul M N = M * N := umul_of_lt M N hfit
  have h := ctor_one_tile_per_process_w opr rank P M N rs cs hP (by rw [hS]; exact hMN) hM hN
    hrs hcs
  rw [hS] at h
  exact h

/-- C4, counterexample: for 2 processes and a tile grid of `2^32` rows and `2^32`
columns the tile count `rows_ * cols_` wraps around to 0, `init` takes the branch for at
most one tile per process, and the grid has `2^32` rows and `2^32` columns and the size 0:
`proc_rows * proc_cols` exceeds `P` and differs from `proc_size`. -/
theorem C4_tile_count_wraps :
    ctor (fun _ _ _ => 1) 0 2 4294967296 4294967296 1 1 =
      .ok ⟨4294967296, 4294967296, 0, 4294967296, 4294967296, 0, -1, -1, 0, 0, 0⟩ ∧
    ¬ (4294967296 * 4294967296 ≤ 2) ∧ ¬ ((0 : Nat) = 4294967296 * 4294967296) :=
  ⟨rfl, by decide, by decide⟩

/-- C4, amended: for every world size `P ≥ 1`, rank below `P`, tile grid of `M ≥ 1` rows and
`N ≥ 1` columns with `M * N` inside the machine word, and footprints at least 1, and for
every value of the row estimate, the constructor returns a grid with
`proc_rows * proc_cols ≤ P` and `proc_size = proc_rows * proc_cols`. -/
theorem C4_grid_fits_world (opr : Nat → Nat → Nat → Nat) (rank P M N rs cs : Nat)
    (hP : 1 ≤ P) (_hr : rank < P) (hM : 1 ≤ M) (hN : 1 ≤ N) (hrs : 1 ≤ rs) (hcs : 1 ≤ cs)
    (hfit : M * N < 2 ^ word_bits) :
    ∃ g, ctor opr rank P M N rs cs = .ok g ∧
      g.proc_rows_ * g.proc_cols_ ≤ P ∧ g.proc_size_ = g.proc_rows_ * g.proc_cols_ := by
  rcases Nat.eq_or_lt_of_le hP with h1 | h1
  · subst h1
    exact ⟨_, ctor_one_process opr rank M N rs cs hM hN hrs hcs hfit, le_refl 1, rfl⟩
  · rcases le_or_lt (M * N) P with hsz | hsz
    · obtain ⟨hin, hout⟩ :=
        ctor_one_tile_per_process opr rank P M N rs cs h1 hsz hM hN hrs hcs hfit
      rcases Nat.lt_or_ge rank (M * N) with h | h
      · exact ⟨_, hin h, hsz, rfl⟩
      · exact ⟨_, hout h, hsz, rfl⟩
    · obtain ⟨x, -, -, -, hctor⟩ := ctor_general_fit opr P M N rs cs h1 hsz hrs hcs hfit _ rfl
      obtain ⟨hin, hout⟩ := hctor rank
      rcases Nat.lt_or_ge rank (x * (P / x)) with h | h
      · exact ⟨_, hin h, Nat.mul_div_le P x, rfl⟩
      · exact ⟨_, hout h, Nat.mul_div_le P x, rfl⟩

/-- C4, amended, on 11 processes and a 7x5 tile grid with row estimate 4, at rank 9. -/
theorem C4_grid_fits_world_witness :
    (1 ≤ 11 ∧ 9 < 11 ∧ 1 ≤ 7 ∧ 1 ≤ 5 ∧ 7 * 5 < 2 ^ word_bits) ∧
    ∃ g, ctor (fun _ _ _ => 4) 9 11 7 5 100 100 = .ok g ∧
      g.proc_rows_ * g.proc_cols_ ≤ 11 ∧ g.proc_size_ = g.proc_rows_ * g.proc_cols_ :=
  ⟨by decide, C4_grid_fits_world (fun _ _ _ => 4) 9 11 7 5 100 100 (by decide) (by decide)
    (by decide) (by decide) (by decide) (by decide) (by decide)⟩

/-- C5, counterexample: first, for 2 processes and a tile grid of `2^32` rows and
`2^32` columns (`M * N > P`) the tile count wraps around to 0, the general case is not
taken and `proc_rows = 2^32` exceeds `min(P, M) = 2`.  Second, for `P = 2^64 - 4`
processes (`nprocs` is a `size_type`) and a tile grid of `(2^64 - 1) / 5` rows and 5 columns (`M * N = 2^64 - 1 > P`)
the sum `nprocs + cols_ - 1` wraps around to 0 and the lower limit becomes 1; with equal
footprints the row estimate is `2^32` (the `double` nearest to `P` is `2^64`, and at its
square root `2^32` the residual of the iteration of `optimal_proc_row` is exactly 0), the
search stops at `2^32 + 2` rows, where `(2^32 + 2) * (2^32 - 2) = P` leaves no process
unused, and `proc_rows = 2^32 + 2` is below `ceil(P / N) = (2^64 - 1) / 5`. -/
theorem C5_rows_leave_clamp :
    (1 < 2 ∧ 2 < 4294967296 * 4294967296 ∧
      ctor (fun _ _ _ => 1) 0 2 4294967296 4294967296 1 1 =
        .ok ⟨4294967296, 4294967296, 0, 4294967296, 4294967296, 0, -1, -1, 0, 0, 0⟩ ∧
      ¬ (4294967296 ≤ min 2 4294967296)) ∧
    (1 < 18446744073709551612 ∧ 18446744073709551612 < 3689348814741910323 * 5 ∧
      3689348814741910323 * 5 < 2 ^ word_bits ∧
      ctor (fun _ _ _ => 4294967296) 0 18446744073709551612 3689348814741910323 5 1 1 =
        .ok ⟨3689348814741910323, 5, 18446744073709551615, 4294967298, 4294967294,
          18446744073709551612, 0, 0, 858993459, 1, 858993459⟩ ∧
      4294967298 * 4294967294 = 18446744073709551612 ∧
      ¬ ((18446744073709551612 + 5 - 1) / 5 ≤ 4294967298)) :=
  ⟨⟨by decide, by decide, rfl, by decide⟩,
    ⟨by decide, by decide, by decide, rfl, by decide, by decide⟩⟩

/-- C5, amended: in the general case (`P > 1` and `M * N > P`), with the tile count `M * N`
inside the machine word (`M * N < 2^64`), the constructor returns a grid with
`proc_rows ≤ min(P, M)`, also after the search for fewer unused processes, and
`proc_cols = P / proc_rows`; when moreover `P + N ≤ 2^64` (the sum `nprocs + cols_ - 1` does
not wrap), the number of process rows lies in the clamp, `ceil(P / N) ≤ proc_rows`, the
lower limit being `(P + N - 1) / N`, the least `k` with `P ≤ k * N`. -/
theorem C5_rows_in_clamp (opr : Nat → Nat → Nat → Nat) (rank P M N rs cs : Nat)
    (hP : 1 < P) (hMN : P < M * N) (_hr : rank < P) (hrs : 1 ≤ rs) (hcs : 1 ≤ cs)
    (hfit : M * N < 2 ^ word_bits) :
    ∃ g, ctor opr rank P M N rs cs = .ok g ∧
      g.proc_rows_ ≤ min P M ∧ g.proc_cols_ = P / g.proc_rows_ ∧
      (P + N ≤ 2 ^ word_bits →
        (P + N - 1) / N ≤ g.proc_rows_ ∧ P ≤ g.proc_rows_ * N) := by
  have hN : 0 < N := by
    rcases Nat.eq_zero_or_pos N with h | h
    · subst h; simp at hMN
    · exact h
  obtain ⟨x, hlo, hhi, -, hctor⟩ :=
    ctor_general_fit opr P M N rs cs hP hMN hrs hcs hfit _ rfl
  obtain ⟨hin, hout⟩ := hctor rank
  have hcl : P + N ≤ 2 ^ word_bits → (P + N - 1) / N ≤ x ∧ P ≤ x * N := by
    intro hPN
    have hlo2 : (P + N - 1) / N ≤ x := by
      have := le_trans (le_max_left _ _) hlo
      rw [usub_uadd_one P N hN hPN] at this
      exact this
    refine ⟨hlo2, ?_⟩
    have h1 : (P + N - 1) / N < x + 1 := by omega
    have h2 := (Nat.div_lt_iff_lt_mul hN).mp h1
    rw [Nat.add_mul, Nat.one_mul] at h2
    omega
  rcases Nat.lt_or_ge rank (x * (P / x)) with h | h
  · exact ⟨_, hin h, hhi, rfl, hcl⟩
  · exact ⟨_, hout h, hhi, rfl, hcl⟩

/-- C5, amended, on 11 processes and a 7x5 tile grid with row estimate 4, at rank 9: the
search moves from 4 to 5 process rows, inside the clamp `[3, 7]`. -/
theorem C5_rows_in_clamp_witness :
    (1 < 11 ∧ 11 < 7 * 5 ∧ 9 < 11 ∧ 7 * 5 < 2 ^ word_bits ∧ 11 + 5 ≤ 2 ^ word_bits) ∧
    ctor (fun _ _ _ => 4) 9 11 7 5 100 100 = .ok ⟨7, 5, 35, 5, 2, 10, 4, 1, 1, 2, 2⟩ ∧
    ∃ g, ctor (fun _ _ _ => 4) 9 11 7 5 100 100 = .ok g ∧
      g.proc_rows_ ≤ min 11 7 ∧ g.proc_cols_ = 11 / g.proc_rows_ ∧
      (11 + 5 ≤ 2 ^ word_bits →
        (11 + 5 - 1) / 5 ≤ g.proc_rows_ ∧ 11 ≤ g.proc_rows_ * 5) :=
  ⟨by decide, rfl,
    C5_rows_in_clamp (fun _ _ _ => 4) 9 11 7 5 100 100 (by decide) (by decide)
      (by decide) (by decide) (by decide) (by decide)⟩

/-- C6, counterexample: for 11 processes, a tile grid of `2^32` rows and `2^32` columns
and the row estimate 3 (what `optimal_proc_row` returns for equal footprints,
`sqrt(11) + 0.5` truncated), the clamped estimate 3 lies strictly between `ceil(P / N) = 1`
and `min(P, M) = 11`, but the tile count wraps around to 0, the search is never reached, and
the grid has `2^32` rows and `2^32` columns and the size 0: `proc_rows` is outside the search
window `[1, 6]`, the grid would need `2^64` processes where there are 11, and with
`proc_size = 0` all 11 processes are unused, while the candidate 5 of the window leaves one
process unused. -/
theorem C6_search_not_reached :
    (1 < 11 ∧ 11 < 4294967296 * 4294967296 ∧
      3 = max ((11 + 4294967296 - 1) / 4294967296)
        (min ((fun _ _ _ => 3) 11 1 1) (min 11 4294967296)) ∧
      (11 + 4294967296 - 1) / 4294967296 < 3 ∧ 3 < min 11 4294967296) ∧
    ctor (fun _ _ _ => 3) 0 11 4294967296 4294967296 1 1 =
      .ok ⟨4294967296, 4294967296, 0, 4294967296, 4294967296, 0, -1, -1, 0, 0, 0⟩ ∧
    ¬ (4294967296 ≤ min (3 + max 1 (log2 11)) (min 11 4294967296)) ∧
    ¬ (4294967296 * 4294967296 ≤ 11) ∧
    (max ((11 + 4294967296 - 1) / 4294967296) (3 - max 1 (log2 11)) ≤ 5 ∧
      5 ≤ min (3 + max 1 (log2 11)) (min 11 4294967296) ∧
      ¬ (11 - (⟨4294967296, 4294967296, 0, 4294967296, 4294967296, 0, -1, -1, 0, 0, 0⟩ :
        ProcGrid).proc_size_ ≤ 11 - 5 * (11 / 5)) ∧
      ¬ (usub 11 (umul 4294967296 4294967296) ≤ 11 - 5 * (11 / 5))) :=
  ⟨by decide, rfl, by decide, by decide, by decide, by decide, by decide, by decide⟩

/-- C6, amended: in the general case, with the tile count `M * N` inside the machine word
(`M * N < 2^64`), when the clamped row estimate `x0` lies strictly between `ceil(P / N)` and
`min(P, M)`, the grid returned by the constructor has its number of process rows in the
search window `[max(ceil(P/N), x0 - delta), min(x0 + delta, min(P, M))]` with
`delta = max(1, log2(P))`, and it leaves no more processes unused than any candidate `t` of
that window: `P - proc_rows * proc_cols ≤ P - t * (P / t)`. -/
theorem C6_search_minimises_unused (opr : Nat → Nat → Nat → Nat) (rank P M N rs cs : Nat)
    (hP : 1 < P) (hMN : P < M * N) (_hr : rank < P) (hrs : 1 ≤ rs) (hcs : 1 ≤ cs)
    (hfit : M * N < 2 ^ word_bits)
    (x0 : Nat) (hx0 : x0 = max ((P + N - 1) / N) (min (opr P rs cs) (min P M)))
    (hlo : (P + N - 1) / N < x0) (hhi : x0 < min P M) :
    ∃ g, ctor opr rank P M N rs cs = .ok g ∧
      max ((P + N - 1) / N) (x0 - max 1 (log2 P)) ≤ g.proc_rows_ ∧
      g.proc_rows_ ≤ min (x0 + max 1 (log2 P)) (min P M) ∧
      ∀ t, max ((P + N - 1) / N) (x0 - max 1 (log2 P)) ≤ t →
        t ≤ min (x0 + max 1 (log2 P)) (min P M) →
        P - g.proc_rows_ * g.proc_cols_ ≤ P - t * (P / t) := by
  have hN : 1 ≤ N := by
    rcases Nat.eq_zero_or_pos N with h | h
    · subst h; simp at hMN
    · exact h
  have hPN : P + N ≤ 2 ^ word_bits := by
    have hc : P ≤ (P + N - 1) / N * N := by
      have h2 : (P + N - 1) / N < (P + N - 1) / N + 1 := Nat.lt_succ_self _
      have h3 := (Nat.div_lt_iff_lt_mul (by omega : 0 < N)).mp h2
      rw [Nat.add_mul, Nat.one_mul] at h3
      omega
    have hM2 : (P + N - 1) / N + 2 ≤ M := by
      have := min_le_right P M
      omega
    have h4 := Nat.mul_le_mul_right N hM2
    rw [Nat.add_mul] at h4
    omega
  obtain ⟨x, -, -, hsearch, hctor⟩ := ctor_general opr P M N rs cs hP hMN hrs hcs hfit hPN
  obtain ⟨hw1, hw2, hbest⟩ := (hsearch x0 hx0).1 ⟨hlo, hhi⟩
  obtain ⟨hin, hout⟩ := hctor rank
  rcases Nat.lt_or_ge rank (x * (P / x)) with h | h
  · exact ⟨_, hin h, hw1, hw2, hbest⟩
  · exact ⟨_, hout h, hw1, hw2, hbest⟩

/-- C6, amended, on 11 processes and a 7x5 tile grid with row estimate 4 (strictly inside
the clamp `[3, 7]`), at rank 9: the window is `[3, 7]` and the grid 5x2 leaves one process
unused. -/
theorem C6_search_minimises_unused_witness :
    (1 < 11 ∧ 11 < 7 * 5 ∧ 9 < 11 ∧ 7 * 5 < 2 ^ word_bits ∧
      4 = max ((11 + 5 - 1) / 5) (min ((fun _ _ _ => 4) 11 100 100) (min 11 7)) ∧
      (11 + 5 - 1) / 5 < 4 ∧ 4 < min 11 7) ∧
    ctor (fun _ _ _ => 4) 9 11 7 5 100 100 = .ok ⟨7, 5, 35, 5, 2, 10, 4, 1, 1, 2, 2⟩ ∧
    ∃ g, ctor (fun _ _ _ => 4) 9 11 7 5 100 100 = .ok g ∧
      max ((11 + 5 - 1) / 5) (4 - max 1 (log2 11)) ≤ g.proc_rows_ ∧
      g.proc_rows_ ≤ min (4 + max 1 (log2 11)) (min 11 7) ∧
      ∀ t, max ((11 + 5 - 1) / 5) (4 - max 1 (log2 11)) ≤ t →
        t ≤ min (4 + max 1 (log2 11)) (min 11 7) →
        11 - g.proc_rows_ * g.proc_cols_ ≤ 11 - t * (11 / t) :=
  ⟨by decide, rfl,
    C6_search_minimises_unused (fun _ _ _ => 4) 9 11 7 5 100 100 (by decide)
      (by decide) (by decide) (by decide) (by decide) (by decide) 4 (by decide) (by decide)
      (by decide)⟩

/-- C7: with more than one process, the world size being a machine word, and at most `P`
tiles (`M * N ≤ P`) the process grid is the tile grid, `proc_rows = M`, `proc_cols = N`,
`proc_size = M * N`; a rank `r < M * N` sits at `(r / N, r mod N)` and owns one tile (all
local counts 1); a rank `r ≥ M * N` is outside the grid (`rank_row = rank_col = -1`, all
local counts 0). -/
theorem C7_one_tile_per_process (opr : Nat → Nat → Nat → Nat) (r P M N rs cs : Nat)
    (hP : 1 < P) (hPw : P < 2 ^ word_bits) (hMN : M * N ≤ P) (hM : 1 ≤ M) (hN : 1 ≤ N)
    (hrs : 1 ≤ rs) (hcs : 1 ≤ cs) :
    (r < M * N → ctor opr r P M N rs cs =
      .ok { rows_ := M, cols_ := N, size_ := M * N
            proc_rows_ := M, proc_cols_ := N, proc_size_ := M * N
            rank_row_ := ((r / N : Nat) : Int), rank_col_ := ((r % N : Nat) : Int)
            local_rows_ := 1, local_cols_ := 1, local_size_ := 1 }) ∧
    (M * N ≤ r → ctor opr r P M N rs cs =
      .ok { rows_ := M, cols_ := N, size_ := M * N
            proc_rows_ := M, proc_cols_ := N, proc_size_ := M * N
            rank_row_ := -1, rank_col_ := -1
            local_rows_ := 0, local_cols_ := 0, local_size_ := 0 }) :=
  ctor_one_tile_per_process opr r P M N rs cs hP hMN hM hN hrs hcs (by omega)

/-- C7, on 8 processes and a 2x3 tile grid: rank 4 sits at `(1, 1)` with one tile, rank 6
is outside the grid. -/
theorem C7_one_tile_per_process_witness :
    (1 < 8 ∧ 8 < 2 ^ word_bits ∧ 2 * 3 ≤ 8) ∧
    ctor (fun _ _ _ => 2) 4 8 2 3 10 10 = .ok ⟨2, 3, 6, 2, 3, 6, 1, 1, 1, 1, 1⟩ ∧
    ctor (fun _ _ _ => 2) 6 8 2 3 10 10 = .ok ⟨2, 3, 6, 2, 3, 6, -1, -1, 0, 0, 0⟩ :=
  ⟨by decide,
    (C7_one_tile_per_process (fun _ _ _ => 2) 4 8 2 3 10 10 (by decide) (by decide) (by decide)
      (by decide) (by decide) (by decide) (by decide)).1 (by decide),
    (C7_one_tile_per_process (fun _ _ _ => 2) 6 8 2 3 10 10 (by decide) (by decide) (by decide)
      (by decide) (by decide) (by decide) (by decide)).2 (by decide)⟩

/-- C8, counterexample: with a single process and a tile grid of `2^32` rows and `2^32`
columns the tile count `rows_ * cols_` wraps around to 0, and the single process is given
`local_size = size_ = 0` instead of `M * N`. -/
theorem C8_local_size_wraps :
    ctor (fun _ _ _ => 1) 0 1 4294967296 4294967296 1 1 =
      .ok ⟨4294967296, 4294967296, 0, 1, 1, 1, 0, 0, 4294967296, 4294967296, 0⟩ ∧
    ¬ ((0 : Nat) = 4294967296 * 4294967296) :=
  ⟨rfl, by decide⟩

/-- C8, amended: with a single process (`P = 1`, so the rank is 0) and `M, N ≥ 1` with
`M * N` inside the machine word the grid is 1x1, `proc_rows = proc_cols = proc_size = 1`,
the rank sits at `(0, 0)` and owns the whole tile grid: `local_rows = M`, `local_cols = N`,
`local_size = M * N`. -/
theorem C8_single_process (opr : Nat → Nat → Nat → Nat) (rank M N rs cs : Nat)
    (_hr : rank < 1) (hM : 1 ≤ M) (hN : 1 ≤ N) (hrs : 1 ≤ rs) (hcs : 1 ≤ cs)
    (hfit : M * N < 2 ^ word_bits) :
    ctor opr rank 1 M N rs cs =
      .ok { rows_ := M, cols_ := N, size_ := M * N
            proc_rows_ := 1, proc_cols_ := 1, proc_size_ := 1
            rank_row_ := 0, rank_col_ := 0
            local_rows_ := M, local_cols_ := N, local_size_ := M * N } :=
  ctor_one_process opr rank M N rs cs hM hN hrs hcs hfit

/-- C8, amended, on a 7x5 tile grid: the single process owns all 35 tiles. -/
theorem C8_single_process_witness :
    (0 < 1 ∧ 1 ≤ 7 ∧ 1 ≤ 5 ∧ 7 * 5 < 2 ^ word_bits) ∧
    ctor (fun _ _ _ => 1) 0 1 7 5 100 100 = .ok ⟨7, 5, 35, 1, 1, 1, 0, 0, 7, 5, 35⟩ :=
  ⟨by decide, C8_single_process (fun _ _ _ => 1) 0 7 5 100 100 (by decide) (by decide)
    (by decide) (by decide) (by decide) (by decide)⟩

/-- C9, counterexample: for 2 processes and a tile grid of `2^32` rows and `2^32`
columns the tile count wraps around to 0 and both ranks stay outside the grid with
`local_size = 0`: the local sizes add up to 0, not to `M * N = 2^64`. -/
theorem C9_local_sizes_vanish :
    ctor (fun _ _ _ => 1) 0 2 4294967296 4294967296 1 1 =
      .ok ⟨4294967296, 4294967296, 0, 4294967296, 4294967296, 0, -1, -1, 0, 0, 0⟩ ∧
    ctor (fun _ _ _ => 1) 1 2 4294967296 4294967296 1 1 =
      .ok ⟨4294967296, 4294967296, 0, 4294967296, 4294967296, 0, -1, -1, 0, 0, 0⟩ ∧
    ¬ ((0 : Nat) + 0 = 4294967296 * 4294967296) :=
  ⟨rfl, rfl, by decide⟩

/-- C9, amended: for `P, M, N ≥ 1` with `M * N` inside the machine word the constructor
returns a grid `f r` on every rank `r < P`; in the general case (`P > 1`, `M * N > P`) a
rank inside the grid (`r < proc_size`) has
`local_rows = M / proc_rows + (1 if rank_row < M mod proc_rows else 0)`,
`local_cols = N / proc_cols + (1 if rank_col < N mod proc_cols else 0)` and
`local_size = local_rows * local_cols`; and in all cases the values of `local_size` of the
ranks `0 .. P-1` add up to `M * N`. -/
theorem C9_local_counts_sum (opr : Nat → Nat → Nat → Nat) (P M N rs cs : Nat)
    (hP : 1 ≤ P) (hM : 1 ≤ M) (hN : 1 ≤ N) (hrs : 1 ≤ rs) (hcs : 1 ≤ cs)
    (hfit : M * N < 2 ^ word_bits) :
    ∃ f : Nat → ProcGrid,
      (∀ r, r < P → ctor opr r P M N rs cs = .ok (f r)) ∧
      (1 < P → P < M * N → ∀ r, r < P → r < (f r).proc_size_ →
        (f r).local_rows_ = M / (f r).proc_rows_ +
          (if (f r).rank_row_ < ((M % (f r).proc_rows_ : Nat) : Int) then 1 else 0) ∧
        (f r).local_cols_ = N / (f r).proc_cols_ +
          (if (f r).rank_col_ < ((N % (f r).proc_cols_ : Nat) : Int) then 1 else 0) ∧
        (f r).local_size_ = (f r).local_rows_ * (f r).local_cols_) ∧
      (Finset.range P).sum (fun r => (f r).local_size_) = M * N := by
  rcases Nat.eq_or_lt_of_le hP with h1 | h1
  · -- one process
    subst h1
    refine ⟨fun _ => ⟨M, N, M * N, 1, 1, 1, 0, 0, M, N, M * N⟩, ?_, ?_, ?_⟩
    · intro r _
      exact ctor_one_process opr r M N rs cs hM hN hrs hcs hfit
    · intro h; omega
    · simp
  · rcases le_or_lt (M * N) P with hsz | hsz
    · -- at most one tile per process
      refine ⟨fun r => if r < M * N then
          ⟨M, N, M * N, M, N, M * N, ((r / N : Nat) : Int), ((r % N : Nat) : Int), 1, 1, 1⟩
        else ⟨M, N, M * N, M, N, M * N, -1, -1, 0, 0, 0⟩, ?_, ?_, ?_⟩
      · intro r _
        obtain ⟨hin, hout⟩ :=
          ctor_one_tile_per_process opr r P M N rs cs h1 hsz hM hN hrs hcs hfit
        rcases Nat.lt_or_ge r (M * N) with h | h
        · rw [hin h]; simp only [h, if_true]
        · have h2 : ¬ r < M * N := by omega
          rw [hout h]; simp only [h2, if_false]
      · intro _ h; omega
      · have hterm : ∀ r, (if r < M * N then
            (⟨M, N, M * N, M, N, M * N, ((r / N : Nat) : Int), ((r % N : Nat) : Int), 1, 1, 1⟩ :
              ProcGrid)
            else ⟨M, N, M * N, M, N, M * N, -1, -1, 0, 0, 0⟩).local_size_ =
            if r < M * N then 1 else 0 := by
          intro r
          by_cases h : r < M * N
          · simp only [h, if_true]
          · simp only [h, if_false]
        simp only [hterm]
        rw [sum_range_cutoff (fun _ => 1) (M * N) P hsz]
        simp
    · -- the general case
      obtain ⟨x, hlo, hhi, -, hctor⟩ :=
        ctor_general_fit opr P M N rs cs h1 hsz hrs hcs hfit _ rfl
      have hx1 : 1 ≤ x := le_trans (le_max_right _ _) hlo
      have hxP : x ≤ P := le_trans hhi (min_le_left _ _)
      have hy1 : 1 ≤ P / x := (Nat.one_le_div_iff (by omega)).mpr hxP
      have hxy : x * (P / x) ≤ P := Nat.mul_div_le P x
      refine ⟨fun r => if r < x * (P / x) then
          { rows_ := M, cols_ := N, size_ := M * N
            proc_rows_ := x, proc_cols_ := P / x, proc_size_ := x * (P / x)
            rank_row_ := ((r / (P / x) : Nat) : Int)
            rank_col_ := ((r % (P / x) : Nat) : Int)
            local_rows_ := M / x + (if r / (P / x) < M % x then 1 else 0)
            local_cols_ := N / (P / x) + (if r % (P / x) < N % (P / x) then 1 else 0)
            local_size_ := (M / x + (if r / (P / x) < M % x then 1 else 0)) *
              (N / (P / x) + (if r % (P / x) < N % (P / x) then 1 else 0)) }
        else
          { rows_ := M, cols_ := N, size_ := M * N
            proc_rows_ := x, proc_cols_ := P / x, proc_size_ := x * (P / x)
            rank_row_ := -1, rank_col_ := -1
            local_rows_ := 0, local_cols_ := 0, local_size_ := 0 }, ?_, ?_, ?_⟩
      · intro r _
        obtain ⟨hin, hout⟩ := hctor r
        rcases Nat.lt_or_ge r (x * (P / x)) with h | h
        · rw [hin h]; simp only [h, if_true]
        · have h2 : ¬ r < x * (P / x) := by omega
          rw [hout h]; simp only [h2, if_false]
      · intro _ _ r _ hin
        by_cases h : r < x * (P / x)
        · simp only [h, if_true, Nat.cast_lt, and_self]
        · simp only [h, if_false] at hin
      · have hterm : ∀ r, (if r < x * (P / x) then
            ({ rows_ := M, cols_ := N, size_ := M * N
               proc_rows_ := x, proc_cols_ := P / x, proc_size_ := x * (P / x)
               rank_row_ := ((r / (P / x) : Nat) : Int)
               rank_col_ := ((r % (P / x) : Nat) : Int)
               local_rows_ := M / x + (if r / (P / x) < M % x then 1 else 0)
               local_cols_ := N / (P / x) + (if r % (P / x) < N % (P / x) then 1 else 0)
               local_size_ := (M / x + (if r / (P / x) < M % x then 1 else 0)) *
                 (N / (P / x) + (if r % (P / x) < N % (P / x) then 1 else 0)) } : ProcGrid)
            else
              { rows_ := M, cols_ := N, size_ := M * N
                proc_rows_ := x, proc_cols_ := P / x, proc_size_ := x * (P / x)
                rank_row_ := -1, rank_col_ := -1
                local_rows_ := 0, local_cols_ := 0, local_size_ := 0 }).local_size_ =
            if r < x * (P / x) then
              (fun i => M / x + (if i < M % x then 1 else 0)) (r / (P / x)) *
                (fun j => N / (P / x) + (if j < N % (P / x) then 1 else 0)) (r % (P / x))
            else 0 := by
          intro r
          by_cases h : r < x * (P / x)
          · simp only [h, if_true]
          · simp only [h, if_false]
        simp only [hterm]
        rw [sum_range_cutoff
            (fun r => (fun i => M / x + (if i < M % x then 1 else 0)) (r / (P / x)) *
              (fun j => N / (P / x) + (if j < N % (P / x) then 1 else 0)) (r % (P / x)))
            (x * (P / x)) P hxy]
        refine (sum_grid (fun i => M / x + (if i < M % x then 1 else 0))
          (fun j => N / (P / x) + (if j < N % (P / x) then 1 else 0)) (P / x) (by omega) x).trans ?_
        rw [sum_share x M hx1, sum_share (P / x) N hy1]

/-- C9, amended, on 11 processes and a 7x5 tile grid with row estimate 4: the grid is 5x2
and the local sizes of the 11 ranks add up to 35. -/
theorem C9_local_counts_sum_witness :
    (1 ≤ 11 ∧ 1 ≤ 7 ∧ 1 ≤ 5 ∧ 7 * 5 < 2 ^ word_bits) ∧
    ∃ f : Nat → ProcGrid,
      (∀ r, r < 11 → ctor (fun _ _ _ => 4) r 11 7 5 100 100 = .ok (f r)) ∧
      (1 < 11 → 11 < 7 * 5 → ∀ r, r < 11 → r < (f r).proc_size_ →
        (f r).local_rows_ = 7 / (f r).proc_rows_ +
          (if (f r).rank_row_ < ((7 % (f r).proc_rows_ : Nat) : Int) then 1 else 0) ∧
        (f r).local_cols_ = 5 / (f r).proc_cols_ +
          (if (f r).rank_col_ < ((5 % (f r).proc_cols_ : Nat) : Int) then 1 else 0) ∧
        (f r).local_size_ = (f r).local_rows_ * (f r).local_cols_) ∧
      (Finset.range 11).sum (fun r => (f r).local_size_) = 7 * 5 :=
  ⟨by decide, C9_local_counts_sum (fun _ _ _ => 4) 11 7 5 100 100 (by decide) (by decide)
    (by decide) (by decide) (by decide) (by decide)⟩

end ProcGrid

end TiledArray

/-! ## `TiledRange1`: lookup outside the range, `find`, default construction, `resize` -/

namespace TiledArray

namespace TiledRange1

/-- The comparison of two intervals answers `true` exactly when they are the same. -/
theorem range_equal_iff (a b : Range) : range_equal a b = true ↔ a = b := by
  cases a with
  | mk a1 a2 =>
    cases b with
    | mk b1 b2 => simp [range_equal]

/-- Comparing a sequence of tile ranges with itself finds no mismatch. -/
theorem std_equal_self (beyond : Nat → Range) (l : List Range) (k : Nat) :
    std_equal beyond l l k = true := by
  induction l with
  | nil => rfl
  | cons x xs ih =>
    have : range_equal x x = true := (range_equal_iff x x).mpr rfl
    simp only [std_equal, this, ih, Bool.and_self]

/-- When `std::equal` answers `true`, the two sequences agree at every position they both
have. -/
theorem std_equal_initial_part (beyond : Nat → Range) (l1 : List Range) :
    ∀ l2 k, std_equal beyond l1 l2 k = true →
      ∀ j, j < l1.length → j < l2.length → l1[j]? = l2[j]? := by
  induction l1 with
  | nil => intro l2 k _ j hj; simp at hj
  | cons x xs ih =>
    intro l2 k h j hj1 hj2
    cases l2 with
    | nil => simp at hj2
    | cons y ys =>
      simp only [std_equal, Bool.and_eq_true] at h
      have hx : x = y := (range_equal_iff x y).mp h.1
      cases j with
      | zero => simp [hx]
      | succ j =>
        simp only [List.getElem?_cons_succ]
        exact ih ys k h.2 j (by simpa using hj1) (by simpa using hj2)

/-- With starting tile index 0 and an element `e` of the element range, `find(e)` points to
the tile that `tile(element2tile(e))` returns, and that tile holds `e`. -/
theorem find_spec_of_zero_offset (a : List Nat) (n : Nat) (r : TiledRange1)
    (hr : ctor a 0 = .ok r) (hn : a.length = n + 1) (hfit : n < 2 ^ word_bits) (e : Nat)
    (hlo : a.getD 0 0 ≤ e) (hhi : e < a.getD n 0) :
    ∃ pos t, r.find e = .ok pos ∧ r.deref pos = .ok t ∧
      (∃ i, r.element2tile e = .ok i ∧ r.tile i = .ok t) ∧ t.start ≤ e ∧ e < t.finish := by
  obtain ⟨n1, hn1, -, -, hrange, helem, hlen, hT, hmap⟩ := ctor_ok_spec a 0 r hr
  have hnn : n1 = n := by omega
  subst hnn
  obtain ⟨j, hj, hj1, hj2⟩ := exists_tile_of_mem (fun j => a.getD j 0) e n1 hlo hhi
  have hget := hmap (by omega) j hj e hj1 hj2
  have hinc : r.element_range_.includes e = true := by
    simp [helem, Range.includes, -List.getD_eq_getElem?_getD]
    exact ⟨hlo, hhi⟩
  have hu : usub e r.element_range_.start = e - a.getD 0 0 := by
    simp only [helem, usub, hlo, if_true]
  have he2t : r.element2tile e = .ok j := by
    simp only [element2tile, hinc, TA_ASSERT, if_true, bind, Except.bind, hu, hget,
      Nat.add_zero]
  have hle : j ≤ r.end_ := by
    simp only [end_, hlen]; omega
  refine ⟨j, ⟨a.getD j 0, a.getD (j + 1) 0⟩, ?_, ?_, ⟨j, he2t, ?_⟩, hj1, hj2⟩
  · simp only [find, hinc, Bool.not_true, Bool.false_eq_true, if_false, he2t, bind,
      Except.bind, hle, if_true, begin, Nat.zero_add]
  · simp only [deref, hT j hj]
  · have hu2 : usub j r.range_.start = j := by simp [hrange, usub]
    simp only [tile, hu2, hT j hj]

/-- C11: for every range and every element `e` outside its element range (`e` below the
start or not below the finish), `element2tile(e)` fails with the out-of-range error and
`find(e)` returns `end()`. -/
theorem C11_outside_element_range (r : TiledRange1) (e : Nat)
    (hout : e < r.elements.start ∨ r.elements.finish ≤ e) :
    r.element2tile e = .error .out_of_range ∧ r.find e = .ok r.end_ := by
  have hinc : r.element_range_.includes e = false := by
    simp only [elements] at hout
    simp only [Range.includes, Bool.and_eq_false_imp, decide_eq_true_eq, decide_eq_false_iff_not]
    intro h
    omega
  constructor
  · simp only [element2tile, hinc, TA_ASSERT, Bool.false_eq_true, if_false, bind, Except.bind]
  · simp only [find, hinc, Bool.not_false, if_true]

/-- C11, on the range built from `0, 3, 7, 10, 20, 50`: element 55 is outside `[0, 50)`. -/
theorem C11_outside_element_range_witness :
    ctor [0, 3, 7, 10, 20, 50] 0 =
      .ok ⟨⟨0, 5⟩, ⟨0, 50⟩, [⟨0, 3⟩, ⟨3, 7⟩, ⟨7, 10⟩, ⟨10, 20⟩, ⟨20, 50⟩],
        [0, 0, 0, 1, 1, 1, 1, 2, 2, 2, 3, 3, 3, 3, 3, 3, 3, 3, 3, 3, 4, 4, 4, 4, 4, 4, 4, 4, 4,
          4, 4, 4, 4, 4, 4, 4, 4, 4, 4, 4, 4, 4, 4, 4, 4, 4, 4, 4, 4, 4]⟩ ∧
    element2tile
        ⟨⟨0, 5⟩, ⟨0, 50⟩, [⟨0, 3⟩, ⟨3, 7⟩, ⟨7, 10⟩, ⟨10, 20⟩, ⟨20, 50⟩],
          [0, 0, 0, 1, 1, 1, 1, 2, 2, 2, 3, 3, 3, 3, 3, 3, 3, 3, 3, 3, 4, 4, 4, 4, 4, 4, 4, 4,
            4, 4, 4, 4, 4, 4, 4, 4, 4, 4, 4, 4, 4, 4, 4, 4, 4, 4, 4, 4, 4, 4]⟩ 55 =
      .error .out_of_range ∧
    find
        ⟨⟨0, 5⟩, ⟨0, 50⟩, [⟨0, 3⟩, ⟨3, 7⟩, ⟨7, 10⟩, ⟨10, 20⟩, ⟨20, 50⟩],
          [0, 0, 0, 1, 1, 1, 1, 2, 2, 2, 3, 3, 3, 3, 3, 3, 3, 3, 3, 3, 4, 4, 4, 4, 4, 4, 4, 4,
            4, 4, 4, 4, 4, 4, 4, 4, 4, 4, 4, 4, 4, 4, 4, 4, 4, 4, 4, 4, 4, 4]⟩ 55 = .ok 5 :=
  ⟨rfl, C11_outside_element_range _ 55 (Or.inr (by decide))⟩

/-- C12 (defect of the code): on the range built from `0, 3, 7, 10, 20, 50` with starting
tile index 2, element 0 lies in the first tile, `tile(element2tile(0)) = tile(2) = [0, 3)`,
but `find(0)` advances `begin()` by the tile index 2 instead of the position 0 and points to
the tile `[7, 10)`, which does not hold 0. -/
theorem C12_find_ignores_tile_offset :
    ∃ r, ctor [0, 3, 7, 10, 20, 50] 2 = .ok r ∧
      r.element2tile 0 = .ok 2 ∧ r.tile 2 = .ok ⟨0, 3⟩ ∧
      r.find 0 = .ok 2 ∧ r.deref 2 = .ok ⟨7, 10⟩ :=
  ⟨_, rfl, rfl, rfl, rfl, rfl⟩

/-- C13, counterexample: first, the default-constructed range has the empty tile range
`[0, 0)`, so the index 0 is not one of its tiles, and yet `tile(0)` returns the interval
`[0, 0)`.  Second, the range constructed from the boundaries `0, 1, 2` with the starting tile
index `2^64 - 1` has the tiles `2^64 - 1` and `2^64`; the index 0 lies below its tile range
(and outside the stored `tiles()`), and yet `tile(0)` returns the interval `[1, 2)`, because
`0 - (2^64 - 1)` wraps around to the position 1. -/
theorem C13_tile_outside_returns :
    (default_ctor = .ok ⟨⟨0, 0⟩, ⟨0, 0⟩, [⟨0, 0⟩], [0]⟩ ∧
      (tiles ⟨⟨0, 0⟩, ⟨0, 0⟩, [⟨0, 0⟩], [0]⟩).includes 0 = false ∧
      tile ⟨⟨0, 0⟩, ⟨0, 0⟩, [⟨0, 0⟩], [0]⟩ 0 = .ok ⟨0, 0⟩) ∧
    (ctor [0, 1, 2] 18446744073709551615 = .ok ⟨⟨18446744073709551615, 1⟩, ⟨0, 2⟩, [⟨0, 1⟩, ⟨1, 2⟩], [18446744073709551615, 0]⟩ ∧
      0 < 18446744073709551615 ∧
      (tiles ⟨⟨18446744073709551615, 1⟩, ⟨0, 2⟩, [⟨0, 1⟩, ⟨1, 2⟩], [18446744073709551615, 0]⟩).includes 0 = false ∧
      tile ⟨⟨18446744073709551615, 1⟩, ⟨0, 2⟩, [⟨0, 1⟩, ⟨1, 2⟩], [18446744073709551615, 0]⟩ 0 = .ok ⟨1, 2⟩) :=
  ⟨⟨rfl, rfl, rfl⟩, ⟨rfl, by decide, rfl, rfl⟩⟩

/-- C13, amended: for a range constructed from a sequence of `n + 1` boundaries with
starting tile index `s`, where `s + n` does not exceed `2^64`, and for a tile index `i`
outside `[s, s + n)` (`i < s`, where the unsigned subtraction wraps around, or
`i ≥ s + n`), `tile(i)` fails with the out-of-range error; and on the default-constructed
range `tile(k)` fails with the out-of-range error for every tile index `k ≥ 1`. -/
theorem C13_tile_outside_fails (a : List Nat) (s n : Nat) (r : TiledRange1)
    (hr : ctor a s = .ok r) (hn : a.length = n + 1) (hfit : s + n ≤ 2 ^ word_bits)
    (i : Nat) (hout : i < s ∨ s + n ≤ i) (k : Nat) (hk : 1 ≤ k) :
    r.tile i = .error .out_of_range ∧
    ∃ r0, default_ctor = .ok r0 ∧ r0.tile k = .error .out_of_range := by
  obtain ⟨n1, hn1, -, -, hrange, -, hlen, -, -⟩ := ctor_ok_spec a s r hr
  have hnn : n1 = n := by omega
  subst hnn
  have hidx : r.tile_ranges_.length ≤ usub i r.range_.start := by
    rw [hlen, hrange]
    rcases hout with h | h
    · have hs : ¬ s ≤ i := by omega
      simp only [usub, hs, if_false]
      omega
    · have hs : s ≤ i := by omega
      simp only [usub, hs, if_true]
      omega
  refine ⟨by simp only [tile, List.getElem?_eq_none hidx],
    ⟨⟨⟨0, 0⟩, ⟨0, 0⟩, [⟨0, 0⟩], [0]⟩, rfl, ?_⟩⟩
  have hk2 : ([⟨0, 0⟩] : List Range).length ≤ usub k 0 := by
    simp only [usub, Nat.zero_le, if_true, List.length_singleton, Nat.sub_zero]
    exact hk
  simp only [tile, List.getElem?_eq_none hk2]

/-- C13, amended, on the range built from `0, 3, 7, 10, 20, 50` with starting tile index 2:
the tile indices 1 (below the range) and 7 (above it) are rejected, and so is the tile index
1 on the default-constructed range. -/
theorem C13_tile_outside_fails_witness :
    ctor [0, 3, 7, 10, 20, 50] 2 =
      .ok ⟨⟨2, 7⟩, ⟨0, 50⟩, [⟨0, 3⟩, ⟨3, 7⟩, ⟨7, 10⟩, ⟨10, 20⟩, ⟨20, 50⟩],
          [2, 2, 2, 3, 3, 3, 3, 4, 4, 4, 5, 5, 5, 5, 5, 5, 5, 5, 5, 5, 6, 6, 6, 6, 6, 6, 6, 6,
            6, 6, 6, 6, 6, 6, 6, 6, 6, 6, 6, 6, 6, 6, 6, 6, 6, 6, 6, 6, 6, 6]⟩ ∧
    (2 + 5 ≤ 2 ^ word_bits ∧ (1 < 2 ∨ 2 + 5 ≤ 1) ∧ (7 < 2 ∨ 2 + 5 ≤ 7) ∧ 1 ≤ 1) ∧
    (tile
        ⟨⟨2, 7⟩, ⟨0, 50⟩, [⟨0, 3⟩, ⟨3, 7⟩, ⟨7, 10⟩, ⟨10, 20⟩, ⟨20, 50⟩],
          [2, 2, 2, 3, 3, 3, 3, 4, 4, 4, 5, 5, 5, 5, 5, 5, 5, 5, 5, 5, 6, 6, 6, 6, 6, 6, 6, 6,
            6, 6, 6, 6, 6, 6, 6, 6, 6, 6, 6, 6, 6, 6, 6, 6, 6, 6, 6, 6, 6, 6]⟩ 1 =
      .error .out_of_range ∧
     ∃ r0, default_ctor = .ok r0 ∧ r0.tile 1 = .error .out_of_range) ∧
    (tile
        ⟨⟨2, 7⟩, ⟨0, 50⟩, [⟨0, 3⟩, ⟨3, 7⟩, ⟨7, 10⟩, ⟨10, 20⟩, ⟨20, 50⟩],
          [2, 2, 2, 3, 3, 3, 3, 4, 4, 4, 5, 5, 5, 5, 5, 5, 5, 5, 5, 5, 6, 6, 6, 6, 6, 6, 6, 6,
            6, 6, 6, 6, 6, 6, 6, 6, 6, 6, 6, 6, 6, 6, 6, 6, 6, 6, 6, 6, 6, 6]⟩ 7 =
      .error .out_of_range ∧
     ∃ r0, default_ctor = .ok r0 ∧ r0.tile 1 = .error .out_of_range) :=
  ⟨rfl, by decide,
    C13_tile_outside_fails [0, 3, 7, 10, 20, 50] 2 5 _ rfl rfl (by decide) 1
      (Or.inl (by decide)) 1 (by decide),
    C13_tile_outside_fails [0, 3, 7, 10, 20, 50] 2 5 _ rfl rfl (by decide) 7
      (Or.inr (by decide)) 1 (by decide)⟩

/-- C15, counterexample: the range constructed from the boundaries `0, 1, 2` with the
starting tile index `2^64 - 1` has the tiles `2^64 - 1` and `2^64`, but the upper end of
`tiles()` is the machine sum `(2^64 - 1) + 2 = 1`: `tiles()` is `[2^64 - 1, 1)`, not
`[s, s + n)`.  With the starting tile index `2^64 - 2` both tile indices are machine words,
but the upper end `2^64` is not: `tiles()` is `[2^64 - 2, 0)`. -/
theorem C15_tile_range_wraps :
    (ctor [0, 1, 2] 18446744073709551615 =
        .ok ⟨⟨18446744073709551615, 1⟩, ⟨0, 2⟩, [⟨0, 1⟩, ⟨1, 2⟩], [18446744073709551615, 0]⟩ ∧
      tiles ⟨⟨18446744073709551615, 1⟩, ⟨0, 2⟩, [⟨0, 1⟩, ⟨1, 2⟩], [18446744073709551615, 0]⟩ =
        ⟨18446744073709551615, 1⟩ ∧
      ¬ (tiles ⟨⟨18446744073709551615, 1⟩, ⟨0, 2⟩, [⟨0, 1⟩, ⟨1, 2⟩],
          [18446744073709551615, 0]⟩ = ⟨18446744073709551615, 18446744073709551615 + 2⟩)) ∧
    (ctor [0, 1, 2] 18446744073709551614 =
        .ok ⟨⟨18446744073709551614, 0⟩, ⟨0, 2⟩, [⟨0, 1⟩, ⟨1, 2⟩],
          [18446744073709551614, 18446744073709551615]⟩ ∧
      ¬ (tiles ⟨⟨18446744073709551614, 0⟩, ⟨0, 2⟩, [⟨0, 1⟩, ⟨1, 2⟩],
          [18446744073709551614, 18446744073709551615]⟩ =
        ⟨18446744073709551614, 18446744073709551614 + 2⟩)) :=
  ⟨⟨rfl, rfl, by decide⟩, rfl, by decide⟩

/-- C15, amended: for a range constructed from a sequence of `n + 1` boundaries `a_0 .. a_n`
with starting tile index `s`, where `s + n` is inside the machine word, `tiles()` is
`[s, s + n)` and `elements()` is `[a_0, a_n)`. -/
theorem C15_tiles_and_elements (a : List Nat) (s n : Nat) (r : TiledRange1)
    (hr : ctor a s = .ok r) (hn : a.length = n + 1) (hfit : s + n < 2 ^ word_bits) :
    r.tiles = ⟨s, s + n⟩ ∧ r.elements = ⟨a.getD 0 0, a.getD n 0⟩ := by
  obtain ⟨n1, hn1, -, -, hrange, helem, -, -, -⟩ := ctor_ok_spec a s r hr
  have hnn : n1 = n := by omega
  subst hnn
  rw [uadd_of_lt s n1 hfit] at hrange
  exact ⟨hrange, helem⟩

/-- C15, amended, on the boundaries `3, 7, 10, 20, 50` with starting tile index 2: both
offsets are kept, `tiles() = [2, 6)` and `elements() = [3, 50)`. -/
theorem C15_tiles_and_elements_witness :
    2 + 4 < 2 ^ word_bits ∧
    ∃ r, ctor [3, 7, 10, 20, 50] 2 = .ok r ∧ r.tiles = ⟨2, 2 + 4⟩ ∧
      r.elements = ⟨[3, 7, 10, 20, 50].getD 0 0, [3, 7, 10, 20, 50].getD 4 0⟩ :=
  ⟨by decide, _, rfl, C15_tiles_and_elements [3, 7, 10, 20, 50] 2 4 _ rfl rfl (by decide)⟩

/-- For every range `r` and every boundary sequence `b` that the constructor accepts with
starting tile index `s`, giving the value `t`, `r.resize(b, s)` leaves `t` in `r` and returns
`t` (all four members), and `t` compares equal to itself; likewise the assignment
`r1 = rng` leaves `rng` in `r1` and returns it. -/
theorem resize_replaces_value (r : TiledRange1) (b : List Nat) (s : Nat)
    (t : TiledRange1) (hb : ctor b s = .ok t) :
    r.resize b s = .ok (t, t) ∧ (∀ beyond, t.operator_eq beyond t = true) ∧
      ∀ r1 rng : TiledRange1, r1.operator_assign rng = (rng, rng) := by
  refine ⟨?_, ?_, ?_⟩
  · simp only [resize, hb, bind, Except.bind, swap]
  · intro beyond
    have h1 : range_equal t.tiles t.tiles = true := (range_equal_iff _ _).mpr rfl
    have h2 : range_equal t.elements t.elements = true := (range_equal_iff _ _).mpr rfl
    simp only [operator_eq, std_equal_self, h1, h2, Bool.and_self]
  · intro r1 rng
    rfl

/-- C16, failing input: the boundary sequence `0 < 10` is valid and describes one tile,
but the constructor rejects every sequence of two boundaries, so `r.resize` with it throws
`std::runtime_error` and `r`, here the range built from `0, 3, 7`, keeps its old value
instead of becoming the range of the tile `[0, 10)`. -/
theorem C16_resize_two_boundaries_throws :
    ctor [0, 3, 7] 0 = .ok ⟨⟨0, 2⟩, ⟨0, 7⟩, [⟨0, 3⟩, ⟨3, 7⟩], [0, 0, 0, 1, 1, 1, 1]⟩ ∧
    resize ⟨⟨0, 2⟩, ⟨0, 7⟩, [⟨0, 3⟩, ⟨3, 7⟩], [0, 0, 0, 1, 1, 1, 1]⟩ [0, 10] 0 = .error .runtime_error ∧
    resize_this ⟨⟨0, 2⟩, ⟨0, 7⟩, [⟨0, 3⟩, ⟨3, 7⟩], [0, 0, 0, 1, 1, 1, 1]⟩ [0, 10] 0 = ⟨⟨0, 2⟩, ⟨0, 7⟩, [⟨0, 3⟩, ⟨3, 7⟩], [0, 0, 0, 1, 1, 1, 1]⟩ :=
  ⟨rfl, rfl, rfl⟩

/-- C17: the default constructor returns a range with `tiles() = [0, 0)` and
`elements() = [0, 0)`, that is 0 tiles and 0 elements, on which `tile(0)` returns the empty
interval `[0, 0)`. -/
theorem C17_default_constructed :
    ∃ r, default_ctor = .ok r ∧ r.tiles = ⟨0, 0⟩ ∧ r.tiles.size = 0 ∧
      r.elements = ⟨0, 0⟩ ∧ r.elements.size = 0 ∧ r.tile 0 = .ok ⟨0, 0⟩ :=
  ⟨_, rfl, rfl, rfl, rfl, rfl, rfl⟩

end TiledRange1

end TiledArray

/-! ## `TiledRange1`: equality -/

namespace TiledArray

namespace TiledRange1

/-- Inside a list, the checked and the defaulted access agree. -/
theorem getElem?_eq_some_getD (a : List Nat) (i : Nat) (h : i < a.length) :
    a[i]? = some (a.getD i 0) := by
  rw [List.getD_eq_getElem?_getD, List.getElem?_eq_getElem h]
  rfl

/-- Two ranges constructed from boundary sequences whose tile vectors agree wherever both
have a tile, and whose tile ranges and element ranges agree, come from the same boundaries
and the same starting tile index. -/
theorem ctor_injective (b1 b2 : List Nat) (s1 s2 : Nat) (r1 r2 : TiledRange1)
    (h1 : ctor b1 s1 = .ok r1) (h2 : ctor b2 s2 = .ok r2)
    (htiles : ∀ j, j < r1.tile_ranges_.length → j < r2.tile_ranges_.length →
      r1.tile_ranges_[j]? = r2.tile_ranges_[j]?)
    (hrange : r1.range_ = r2.range_) (helem : r1.element_range_ = r2.element_range_) :
    b1 = b2 ∧ s1 = s2 := by
  obtain ⟨n1, hn1, -, hstep1, hr1, he1, hl1, hT1, -⟩ := ctor_ok_spec b1 s1 r1 h1
  obtain ⟨n2, hn2, -, hstep2, hr2, he2, hl2, hT2, -⟩ := ctor_ok_spec b2 s2 r2 h2
  rw [hr1, hr2] at hrange
  rw [he1, he2] at helem
  injection hrange with hs hf
  injection helem with h0 hlast
  subst hs
  rw [hl1, hl2] at htiles
  have hsame : ∀ j, j < n1 → j < n2 →
      b1.getD j 0 = b2.getD j 0 ∧ b1.getD (j + 1) 0 = b2.getD (j + 1) 0 := by
    intro j hj1 hj2
    have e := htiles j hj1 hj2
    rw [hT1 j hj1, hT2 j hj2] at e
    injection e with e
    injection e with e3 e4
    exact ⟨e3, e4⟩
  have hat : ∀ j, j ≤ n1 → j ≤ n2 → b1.getD j 0 = b2.getD j 0 := by
    intro j hj1 hj2
    rcases Nat.eq_zero_or_pos j with hz | hz
    · subst hz; exact h0
    · have := (hsame (j - 1) (by omega) (by omega)).2
      rw [Nat.sub_add_cancel hz] at this
      exact this
  have hmono1 := mono_of_step (fun j => b1.getD j 0) n1 hstep1
  have hmono2 := mono_of_step (fun j => b2.getD j 0) n2 hstep2
  have hn : n1 = n2 := by
    rcases Nat.lt_trichotomy n1 n2 with h | h | h
    · exfalso
      have e1 := hat n1 (le_refl _) (by omega)
      have e2 := hstep2 n1 h
      have e3 := hmono2 n2 (le_refl _) (n1 + 1) (by omega)
      simp only at e3
      omega
    · exact h
    · exfalso
      have e1 := hat n2 (by omega) (le_refl _)
      have e2 := hstep1 n2 h
      have e3 := hmono1 n1 (le_refl _) (n2 + 1) (by omega)
      simp only at e3
      omega
  subst hn
  refine ⟨?_, rfl⟩
  apply List.ext_getElem?
  intro i
  rcases Nat.lt_or_ge i (n1 + 1) with hi | hi
  · rw [getElem?_eq_some_getD b1 i (by omega), getElem?_eq_some_getD b2 i (by omega),
      hat i (by omega) (by omega)]
  · rw [List.getElem?_eq_none (by omega), List.getElem?_eq_none (by omega)]

/-- C14: for two ranges constructed from the boundary sequences `b1`, `b2` with starting
tile indices `s1`, `s2`, and whatever lies behind the tiles of `r2` in memory, `r1 == r2`
returns `true` when `b1 = b2` and `s1 = s2` and `false` otherwise, and `r1 != r2` returns
`false` when `b1 = b2` and `s1 = s2` and `true` otherwise. -/
theorem C14_equality_is_structural (beyond : Nat → Range) (b1 b2 : List Nat) (s1 s2 : Nat)
    (r1 r2 : TiledRange1) (h1 : ctor b1 s1 = .ok r1) (h2 : ctor b2 s2 = .ok r2) :
    r1.operator_eq beyond r2 = decide (b1 = b2 ∧ s1 = s2) ∧
    r1.operator_ne beyond r2 = decide (¬ (b1 = b2 ∧ s1 = s2)) := by
  have hiff : r1.operator_eq beyond r2 = true ↔ (b1 = b2 ∧ s1 = s2) := by
    constructor
    · intro h
      simp only [operator_eq, Bool.and_eq_true] at h
      obtain ⟨⟨hv, ht⟩, he⟩ := h
      exact ctor_injective b1 b2 s1 s2 r1 r2 h1 h2 (std_equal_initial_part beyond _ _ 0 hv)
        ((range_equal_iff _ _).mp ht) ((range_equal_iff _ _).mp he)
    · rintro ⟨hb, hs⟩
      subst hb; subst hs
      have hr : r1 = r2 := by
        rw [h1] at h2
        injection h2
      subst hr
      have e1 : range_equal r1.tiles r1.tiles = true := (range_equal_iff _ _).mpr rfl
      have e2 : range_equal r1.elements r1.elements = true := (range_equal_iff _ _).mpr rfl
      simp only [operator_eq, std_equal_self, e1, e2, Bool.and_self]
  by_cases hc : b1 = b2 ∧ s1 = s2
  · have := hiff.mpr hc
    simp only [operator_ne, this, hc, and_self, decide_True, not_true_eq_false, decide_False,
      Bool.not_true]
  · have hf : r1.operator_eq beyond r2 = false := by
      cases hv : r1.operator_eq beyond r2 with
      | false => rfl
      | true => exact absurd (hiff.mp hv) hc
    simp only [operator_ne, hf, hc, decide_False, not_false_eq_true, decide_True,
      Bool.not_false, and_self]

/-- C14, on the boundaries `0, 3, 7, 10` compared with their proper prefix `0, 3, 7`, both
with starting tile index 1, when the tile `[7, 10)` happens to lie behind the two tiles of
the second range: `==` returns `false` and `!=` returns `true`. -/
theorem C14_equality_is_structural_witness :
    (ctor [0, 3, 7, 10] 1 = .ok ⟨⟨1, 4⟩, ⟨0, 10⟩, [⟨0, 3⟩, ⟨3, 7⟩, ⟨7, 10⟩], [1, 1, 1, 2, 2, 2, 2, 3, 3, 3]⟩ ∧
      ctor [0, 3, 7] 1 = .ok ⟨⟨1, 3⟩, ⟨0, 7⟩, [⟨0, 3⟩, ⟨3, 7⟩], [1, 1, 1, 2, 2, 2, 2]⟩) ∧
    (operator_eq (fun _ => ⟨7, 10⟩) ⟨⟨1, 4⟩, ⟨0, 10⟩, [⟨0, 3⟩, ⟨3, 7⟩, ⟨7, 10⟩], [1, 1, 1, 2, 2, 2, 2, 3, 3, 3]⟩
        ⟨⟨1, 3⟩, ⟨0, 7⟩, [⟨0, 3⟩, ⟨3, 7⟩], [1, 1, 1, 2, 2, 2, 2]⟩ = decide ([0, 3, 7, 10] = [0, 3, 7] ∧ 1 = 1) ∧
      operator_ne (fun _ => ⟨7, 10⟩) ⟨⟨1, 4⟩, ⟨0, 10⟩, [⟨0, 3⟩, ⟨3, 7⟩, ⟨7, 10⟩], [1, 1, 1, 2, 2, 2, 2, 3, 3, 3]⟩
        ⟨⟨1, 3⟩, ⟨0, 7⟩, [⟨0, 3⟩, ⟨3, 7⟩], [1, 1, 1, 2, 2, 2, 2]⟩ = decide (¬ ([0, 3, 7, 10] = [0, 3, 7] ∧ 1 = 1))) ∧
    operator_eq (fun _ => ⟨7, 10⟩) ⟨⟨1, 4⟩, ⟨0, 10⟩, [⟨0, 3⟩, ⟨3, 7⟩, ⟨7, 10⟩], [1, 1, 1, 2, 2, 2, 2, 3, 3, 3]⟩
      ⟨⟨1, 3⟩, ⟨0, 7⟩, [⟨0, 3⟩, ⟨3, 7⟩], [1, 1, 1, 2, 2, 2, 2]⟩ = false :=
  ⟨⟨rfl, rfl⟩,
    C14_equality_is_structural (fun _ => ⟨7, 10⟩) [0, 3, 7, 10] [0, 3, 7] 1 1 _ _ rfl rfl,
    rfl⟩

end TiledRange1

end TiledArray

/-! ## `ProcGrid`: shape-filtered groups -/

namespace TiledArray

namespace ProcGrid

/-- What the constructor has established when it returns a grid for a world of at least one
process, whatever the size of the tile grid: the tile grid is stored, the process grid has
at least one row and one column, a rank with `local_size != 0` has its row and column inside
the grid, and a rank below `proc_size` sits at `(rank / proc_cols, rank mod proc_cols)`,
inside the grid, with the local counts
`M / proc_rows + (rank_row < M mod proc_rows ? 1 : 0)` and
`N / proc_cols + (rank_col < N mod proc_cols ? 1 : 0)`. -/
theorem ctor_grid_facts_w (opr : Nat → Nat → Nat → Nat) (rank P M N rs cs : Nat)
    (g : ProcGrid) (hP : 1 ≤ P) (hg : ctor opr rank P M N rs cs = .ok g) :
    1 ≤ M ∧ 1 ≤ N ∧ g.rows_ = M ∧ g.cols_ = N ∧ 1 ≤ g.proc_rows_ ∧ 1 ≤ g.proc_cols_ ∧
      (g.local_size_ ≠ 0 →
        0 ≤ g.rank_row_ ∧ 0 ≤ g.rank_col_ ∧
        g.rank_row_.toNat < g.proc_rows_ ∧ g.rank_col_.toNat < g.proc_cols_) ∧
      (rank < g.proc_size_ →
        rank / g.proc_cols_ < g.proc_rows_ ∧
        g.rank_row_ = ((rank / g.proc_cols_ : Nat) : Int) ∧
        g.rank_col_ = ((rank % g.proc_cols_ : Nat) : Int) ∧
        g.local_rows_ =
          M / g.proc_rows_ + (if rank / g.proc_cols_ < M % g.proc_rows_ then 1 else 0) ∧
        g.local_cols_ =
          N / g.proc_cols_ + (if rank % g.proc_cols_ < N % g.proc_cols_ then 1 else 0)) := by
  have hM : 1 ≤ M := by
    by_contra h
    simp [ctor, TA_ASSERT, h, bind, Except.bind] at hg
  have hN : 1 ≤ N := by
    by_contra h
    simp [ctor, TA_ASSERT, hM, h, bind, Except.bind] at hg
  have hrs : 1 ≤ rs := by
    by_contra h
    simp [ctor, TA_ASSERT, hM, hN, h, bind, Except.bind] at hg
  have hcs : 1 ≤ cs := by
    by_contra h
    simp [ctor, TA_ASSERT, hM, hN, hrs, h, bind, Except.bind] at hg
  refine ⟨hM, hN, ?_⟩
  rcases Nat.eq_or_lt_of_le hP with h1 | h1
  · subst h1
    rw [ctor_one_process_w opr rank M N rs cs hM hN hrs hcs] at hg
    injection hg with hg
    subst hg
    refine ⟨rfl, rfl, le_refl _, le_refl _, fun _ =>
      ⟨le_refl _, le_refl _, Nat.zero_lt_one, Nat.zero_lt_one⟩, fun hr => ?_⟩
    have hr0 : rank = 0 := by
      have : rank < 1 := hr
      omega
    subst hr0
    simp [Nat.mod_one]
  · rcases le_or_lt (umul M N) P with hsz | hsz
    · obtain ⟨hin, hout⟩ :=
        ctor_one_tile_per_process_w opr rank P M N rs cs h1 hsz hM hN hrs hcs
      rcases Nat.lt_or_ge rank (umul M N) with h | h
      · rw [hin h] at hg
        injection hg with hg
        subst hg
        have h2 : rank / N < M :=
          (Nat.div_lt_iff_lt_mul (by omega)).mpr (lt_of_lt_of_le h (umul_le M N))
        have h3 : rank % N < N := Nat.mod_lt _ (by omega)
        have hM0 : 0 < M := hM
        have hN0 : 0 < N := hN
        refine ⟨rfl, rfl, hM, hN, fun _ =>
          ⟨Int.ofNat_nonneg _, Int.ofNat_nonneg _, by simpa using h2, by simpa using h3⟩,
          fun _ => ⟨h2, rfl, rfl, ?_, ?_⟩⟩
        · simp [Nat.div_self hM0]
        · simp [Nat.div_self hN0]
      · rw [hout h] at hg
        injection hg with hg
        subst hg
        refine ⟨rfl, rfl, hM, hN, fun h => absurd rfl h, fun hr => ?_⟩
        have : rank < umul M N := hr
        omega
    · obtain ⟨x, hlo, hhi, -, hctor⟩ := ctor_general_w opr P M N rs cs h1 hsz hrs hcs _ rfl
      have hx1 : 1 ≤ x := le_trans (le_max_right _ _) hlo
      have hxP : x ≤ P := le_trans hhi (min_le_left _ _)
      have hy1 : 1 ≤ P / x := (Nat.one_le_div_iff (by omega)).mpr hxP
      obtain ⟨hin, hout⟩ := hctor rank
      rcases Nat.lt_or_ge rank (x * (P / x)) with h | h
      · rw [hin h] at hg
        injection hg with hg
        subst hg
        have h2 : rank / (P / x) < x := (Nat.div_lt_iff_lt_mul (by omega)).mpr h
        have h3 : rank % (P / x) < P / x := Nat.mod_lt _ (by omega)
        exact ⟨rfl, rfl, hx1, hy1, fun _ =>
          ⟨Int.ofNat_nonneg _, Int.ofNat_nonneg _, by simpa using h2, by simpa using h3⟩,
          fun _ => ⟨h2, rfl, rfl, rfl, rfl⟩⟩
      · rw [hout h] at hg
        injection hg with hg
        subst hg
        refine ⟨rfl, rfl, hx1, hy1, fun h => absurd rfl h, fun hr => ?_⟩
        have : rank < x * (P / x) := hr
        omega

/-- The size that the constructor stores for the process grid when the tile count is inside
the machine word: `proc_size = proc_rows * proc_cols`. -/
theorem ctor_proc_size (opr : Nat → Nat → Nat → Nat) (rank P M N rs cs : Nat) (g : ProcGrid)
    (hP : 1 ≤ P) (hg : ctor opr rank P M N rs cs = .ok g) (hfit : M * N < 2 ^ word_bits) :
    g.proc_size_ = g.proc_rows_ * g.proc_cols_ := by
  obtain ⟨hM, hN, -⟩ := ctor_grid_facts_w opr rank P M N rs cs g hP hg
  have hrs : 1 ≤ rs := by
    by_contra h
    simp [ctor, TA_ASSERT, hM, hN, h, bind, Except.bind] at hg
  have hcs : 1 ≤ cs := by
    by_contra h
    simp [ctor, TA_ASSERT, hM, hN, hrs, h, bind, Except.bind] at hg
  rcases Nat.eq_or_lt_of_le hP with h1 | h1
  · subst h1
    rw [ctor_one_process opr rank M N rs cs hM hN hrs hcs hfit] at hg
    injection hg with hg
    subst hg
    rfl
  · rcases le_or_lt (M * N) P with hsz | hsz
    · obtain ⟨hin, hout⟩ :=
        ctor_one_tile_per_process opr rank P M N rs cs h1 hsz hM hN hrs hcs hfit
      rcases Nat.lt_or_ge rank (M * N) with h | h
      · rw [hin h] at hg
        injection hg with hg
        subst hg
        rfl
      · rw [hout h] at hg
        injection hg with hg
        subst hg
        rfl
    · obtain ⟨x, -, -, -, hctor⟩ := ctor_general_fit opr P M N rs cs h1 hsz hrs hcs hfit _ rfl
      obtain ⟨hin, hout⟩ := hctor rank
      rcases Nat.lt_or_ge rank (x * (P / x)) with h | h
      · rw [hin h] at hg
        injection hg with hg
        subst hg
        rfl
      · rw [hout h] at hg
        injection hg with hg
        subst hg
        rfl

/-- What the constructor has established when it returns a grid for a world of at least one
process and a tile count inside the machine word: the tile grid is stored,
`proc_size = proc_rows * proc_cols`, both factors are at least 1, and a rank with
`local_size != 0` has its row and column inside the grid. -/
theorem ctor_grid_facts (opr : Nat → Nat → Nat → Nat) (rank P M N rs cs : Nat) (g : ProcGrid)
    (hP : 1 ≤ P) (hg : ctor opr rank P M N rs cs = .ok g) (hfit : M * N < 2 ^ word_bits) :
    1 ≤ M ∧ 1 ≤ N ∧ g.rows_ = M ∧ g.cols_ = N ∧
      g.proc_size_ = g.proc_rows_ * g.proc_cols_ ∧ 1 ≤ g.proc_rows_ ∧ 1 ≤ g.proc_cols_ ∧
      (g.local_size_ ≠ 0 →
        0 ≤ g.rank_row_ ∧ 0 ≤ g.rank_col_ ∧
        g.rank_row_.toNat < g.proc_rows_ ∧ g.rank_col_.toNat < g.proc_cols_) := by
  obtain ⟨hM, hN, hrows, hcols, hpr, hpc, hinside, -⟩ :=
    ctor_grid_facts_w opr rank P M N rs cs g hP hg
  exact ⟨hM, hN, hrows, hcols, ctor_proc_size opr rank P M N rs cs g hP hg hfit, hpr, hpc,
    hinside⟩

/-- Writing a flag at a position of `proc_list` makes that position non-zero and leaves the
other positions as they were. -/
theorem getD_set_one_ne_zero (l : List Nat) (c0 c : Nat) (hc0 : c0 < l.length) :
    (l.set c0 1).getD c 0 ≠ 0 ↔ (c = c0 ∨ l.getD c 0 ≠ 0) := by
  simp only [List.getD_eq_getElem?_getD, List.getElem?_set, hc0, if_true]
  by_cases h : c0 = c
  · subst h; simp
  · have h2 : ¬ c = c0 := fun e => h e.symm
    simp [h, h2]

/-- The first loop of the shape-filtered `make_row_group`, run over the ordinals
`i .. i+k-1` of the shape: it returns, keeps the size of `proc_list`, and afterwards position
`c` is non-zero exactly when it was before or some non-zero tile among these ordinals has
`(i' - i_start) mod proc_cols = c`. -/
theorem flag_cols_spec (shape : Nat → Bool) (size i_start pc : Nat) (hpc : 1 ≤ pc) :
    ∀ k i l, l.length = pc → i_start ≤ i → i + k ≤ size →
      ∃ l1, flag_cols shape size i_start pc i k l = .ok l1 ∧ l1.length = pc ∧
        ∀ c, c < pc → (l1.getD c 0 ≠ 0 ↔
          (l.getD c 0 ≠ 0 ∨
            ∃ i1, i ≤ i1 ∧ i1 < i + k ∧ shape i1 = false ∧ (i1 - i_start) % pc = c)) := by
  intro k
  induction k with
  | zero =>
    intro i l hl _ _
    refine ⟨l, rfl, hl, ?_⟩
    intro c _
    constructor
    · intro h; exact Or.inl h
    · rintro (h | ⟨i1, h1, h2, -, -⟩)
      · exact h
      · omega
  | succ k ih =>
    intro i l hl hi hsz
    have hread : shape_is_zero shape size i = .ok (shape i) := by
      have : i < size := by omega
      simp only [shape_is_zero, this, if_true]
    have hpc0 : pc ≠ 0 := by omega
    by_cases hz : shape i = true
    · obtain ⟨l1, hl1, hlen1, hflag⟩ := ih (i + 1) l hl (by omega) (by omega)
      refine ⟨l1, ?_, hlen1, ?_⟩
      · simp only [flag_cols, hread, bind, Except.bind, hz, Bool.not_true, Bool.false_eq_true,
          if_false]
        exact hl1
      · intro c hc
        rw [hflag c hc]
        constructor
        · rintro (h | ⟨i1, h1, h2, h3, h4⟩)
          · exact Or.inl h
          · exact Or.inr ⟨i1, by omega, by omega, h3, h4⟩
        · rintro (h | ⟨i1, h1, h2, h3, h4⟩)
          · exact Or.inl h
          · rcases Nat.eq_or_lt_of_le h1 with e | e
            · subst e; rw [hz] at h3; cases h3
            · exact Or.inr ⟨i1, by omega, by omega, h3, h4⟩
    · have hz2 : shape i = false := by simpa using hz
      have hc0 : (i - i_start) % pc < l.length := by
        rw [hl]; exact Nat.mod_lt _ (by omega)
      obtain ⟨l1, hl1, hlen1, hflag⟩ :=
        ih (i + 1) (l.set ((i - i_start) % pc) 1) (by simp [hl]) (by omega) (by omega)
      refine ⟨l1, ?_, hlen1, ?_⟩
      · simp only [flag_cols, hread, bind, Except.bind, hz2, Bool.not_false, if_true, umod,
          hpc0, if_false]
        exact hl1
      · intro c hc
        rw [hflag c hc, getD_set_one_ne_zero l _ c hc0]
        constructor
        · rintro ((h | h) | ⟨i1, h1, h2, h3, h4⟩)
          · exact Or.inr ⟨i, le_refl _, by omega, hz2, h.symm⟩
          · exact Or.inl h
          · exact Or.inr ⟨i1, by omega, by omega, h3, h4⟩
        · rintro (h | ⟨i1, h1, h2, h3, h4⟩)
          · exact Or.inl (Or.inr h)
          · rcases Nat.eq_or_lt_of_le h1 with e | e
            · subst e; exact Or.inl (Or.inl h4.symm)
            · exact Or.inr ⟨i1, by omega, by omega, h3, h4⟩

/-- The second loop of the shape-filtered `make_row_group`, started at column `p` with `x`
ranks already stored in front: at the end the first `x` entries of `proc_list` are the ranks
`p_start + c` of the flagged columns `c`, in increasing order of `c`. -/
theorem compact_flags_spec (p_start pc : Nat) (f : Nat → Bool) :
    ∀ k p x l, p + k = pc → l.length = pc → x ≤ p →
      (∀ c, p ≤ c → c < pc → (l.getD c 0 ≠ 0 ↔ f c = true)) →
      l.take x = ((List.range p).filter f).map (fun c => p_start + c) →
      (compact_flags p_start p k x l).1.take (compact_flags p_start p k x l).2 =
          ((List.range pc).filter f).map (fun c => p_start + c) ∧
        (compact_flags p_start p k x l).2 ≤ (compact_flags p_start p k x l).1.length := by
  intro k
  induction k with
  | zero =>
    intro p x l hp hl hx _ htake
    have : p = pc := by omega
    subst this
    simp only [compact_flags]
    exact ⟨htake, by omega⟩
  | succ k ih =>
    intro p x l hp hl hx hflags htake
    have hpf := hflags p (le_refl _) (by omega)
    by_cases hf : f p = true
    · have hne : l.getD p 0 ≠ 0 := hpf.mpr hf
      have hstep : compact_flags p_start p (k + 1) x l =
          compact_flags p_start (p + 1) k (x + 1) (l.set x (p_start + p)) := by
        simp only [compact_flags, hne, if_true, ne_eq, not_false_eq_true]
      rw [hstep]
      apply ih (p + 1) (x + 1) (l.set x (p_start + p)) (by omega) (by simp [hl]) (by omega)
      · intro c hc1 hc2
        rw [← hflags c (by omega) hc2]
        have hxc : x ≠ c := by omega
        simp only [List.getD_eq_getElem?_getD, List.getElem?_set, hxc, if_false]
      · have hxl : x < l.length := by omega
        have hget : (l.set x (p_start + p))[x]? = some (p_start + p) := by
          simp only [List.getElem?_set, hxl, if_true]
        have hpre : (l.set x (p_start + p)).take x = l.take x := by
          apply List.ext_getElem?
          intro i
          rw [List.getElem?_take, List.getElem?_take]
          by_cases hi : i < x
          · have hxi : ¬ x = i := by omega
            simp only [hi, if_true, List.getElem?_set, hxi, if_false]
          · simp only [hi, if_false]
        rw [List.take_succ, hget, hpre, htake, List.range_succ, List.filter_append]
        simp [hf]
    · have hne : ¬ l.getD p 0 ≠ 0 := fun h => hf (hpf.mp h)
      have hstep : compact_flags p_start p (k + 1) x l =
          compact_flags p_start (p + 1) k x l := by
        simp only [compact_flags, hne, if_false]
      rw [hstep]
      apply ih (p + 1) x l (by omega) hl (by omega)
      · intro c hc1 hc2
        exact hflags c (by omega) hc2
      · rw [htake, List.range_succ, List.filter_append]
        simp [hf]

/-- Handing a list of ranks to the group constructor only when it is not empty gives the
list itself. -/
theorem group_of_list (l : List Nat) :
    (if l.length ≠ 0 then (Except.ok l : Except Error (List Nat)) else .ok []) = .ok l := by
  cases l with
  | nil => rfl
  | cons x xs => simp

/-- Membership in the list of ranks that the specification gives for the row group. -/
theorem mem_row_group_spec (g : ProcGrid) (shape : Nat → Bool) (row p : Nat) :
    p ∈ row_group_spec g shape row ↔
      ∃ c, c < g.proc_cols_ ∧ p = g.rank_row_.toNat * g.proc_cols_ + c ∧
        ∃ j, j < g.cols_ ∧ j % g.proc_cols_ = c ∧ shape (row * g.cols_ + j) = false := by
  simp only [row_group_spec, List.mem_map, List.mem_filter, List.mem_range, List.any_eq_true,
    Bool.and_eq_true, decide_eq_true_eq, Bool.not_eq_true']
  constructor
  · rintro ⟨c, ⟨hc, j, hj, h1, h2⟩, rfl⟩
    exact ⟨c, hc, rfl, j, hj, h1, h2⟩
  · rintro ⟨c, hc, rfl, j, hj, h1, h2⟩
    exact ⟨c, ⟨hc, j, hj, h1, h2⟩, rfl⟩

/-- The shape-filtered row group on a grid returned by the constructor, for every shape,
every `size` with `size mod N = 0` and every `row < size / N`: a rank with `local_size != 0`
gets the ranks of `row_group_spec`, a rank with `local_size = 0` the empty group. -/
theorem make_row_group_eq_spec (opr : Nat → Nat → Nat → Nat) (rank P M N rs cs : Nat)
    (g : ProcGrid) (hP : 1 ≤ P) (hg : ctor opr rank P M N rs cs = .ok g)
    (shape : Nat → Bool) (row size : Nat) (hsize : size % N = 0) (hrow : row < size / N) :
    (g.local_size_ ≠ 0 → make_row_group g shape row size = .ok (row_group_spec g shape row)) ∧
    (g.local_size_ = 0 → make_row_group g shape row size = .ok []) := by
  obtain ⟨-, hN, -, hcols, -, hpc, -, -⟩ := ctor_grid_facts_w opr rank P M N rs cs g hP hg
  rw [← hcols] at hsize hrow hN
  have hN0 : g.cols_ ≠ 0 := by omega
  have hdec1 : decide (size % g.cols_ = 0) = true := by simp [hsize]
  have hdec2 : decide (row < size / g.cols_) = true := by simp [hrow]
  constructor
  · intro hin
    have hfit : row * g.cols_ + g.cols_ ≤ size := by
      have h1 : row + 1 ≤ size / g.cols_ := hrow
      have h2 := (Nat.le_div_iff_mul_le (by omega)).mp h1
      rw [Nat.add_mul, Nat.one_mul] at h2
      exact h2
    obtain ⟨l1, hl1, hlen1, hflag⟩ :=
      flag_cols_spec shape size (row * g.cols_) g.proc_cols_ hpc g.cols_ (row * g.cols_)
        (List.replicate g.proc_cols_ 0) (by simp) (le_refl _) hfit
    have hcount : row * g.cols_ + g.cols_ - row * g.cols_ = g.cols_ := by omega
    have hflag2 : ∀ c, 0 ≤ c → c < g.proc_cols_ →
        (l1.getD c 0 ≠ 0 ↔
          (List.range g.cols_).any (fun j =>
            decide (j % g.proc_cols_ = c) && !shape (row * g.cols_ + j)) = true) := by
      intro c _ hc
      rw [hflag c hc]
      have hzero : (List.replicate g.proc_cols_ 0).getD c 0 = 0 := by
        simp [List.getD_eq_getElem?_getD, List.getElem?_replicate, hc]
      simp only [hzero, ne_eq, not_true_eq_false, false_or, List.any_eq_true, List.mem_range,
        Bool.and_eq_true, decide_eq_true_eq, Bool.not_eq_true']
      constructor
      · rintro ⟨i1, h1, h2, h3, h4⟩
        refine ⟨i1 - row * g.cols_, by omega, h4, ?_⟩
        rw [Nat.add_sub_cancel' h1]
        exact h3
      · rintro ⟨j, hj, h1, h2⟩
        exact ⟨row * g.cols_ + j, by omega, by omega, h2, by rw [Nat.add_sub_cancel_left]; exact h1⟩
    obtain ⟨htake, hle⟩ :=
      compact_flags_spec (g.rank_row_.toNat * g.proc_cols_) g.proc_cols_
        (fun c => (List.range g.cols_).any (fun j =>
          decide (j % g.proc_cols_ = c) && !shape (row * g.cols_ + j)))
        g.proc_cols_ 0 0 l1 (by omega) hlen1 (le_refl _) hflag2 (by simp)
    have hresize : TiledRange1.vector_resize
        (compact_flags (g.rank_row_.toNat * g.proc_cols_) 0 g.proc_cols_ 0 l1).1
        (compact_flags (g.rank_row_.toNat * g.proc_cols_) 0 g.proc_cols_ 0 l1).2 =
        row_group_spec g shape row := by
      simp only [TiledRange1.vector_resize, htake, Nat.sub_eq_zero_of_le hle,
        List.replicate_zero, List.append_nil, row_group_spec]
    simp only [make_row_group, umod, udiv, hN0, if_false, bind, Except.bind, TA_ASSERT, hdec1,
      hdec2, if_true, hin, ne_eq, not_false_eq_true, hcount, hl1, hresize]
    exact group_of_list _
  · intro hout
    simp only [make_row_group, umod, udiv, hN0, if_false, bind, Except.bind, TA_ASSERT, hdec1,
      hdec2, if_true, hout, ne_eq, not_true_eq_false]

/-- The inner loop of the shape-filtered `make_col_group` with a positive step and enough
iterations allowed: it returns, and it reports a non-zero tile exactly when one of the
ordinals `i, i + i_step, i + 2 i_step, ...` below `size` holds one. -/
theorem scan_col_spec (shape : Nat → Bool) (size i_step : Nat) (hstep : 1 ≤ i_step) :
    ∀ fuel i, size ≤ i + fuel →
      ∃ b, scan_col shape size i_step fuel i = .ok b ∧
        (b = true ↔ ∃ k, i + k * i_step < size ∧ shape (i + k * i_step) = false) := by
  intro fuel
  induction fuel with
  | zero =>
    intro i hi
    have hlt : ¬ i < size := by omega
    refine ⟨false, by simp only [scan_col, hlt, if_false], ?_⟩
    constructor
    · intro h; cases h
    · rintro ⟨k, hk, -⟩
      have : i ≤ i + k * i_step := Nat.le_add_right _ _
      omega
  | succ fuel ih =>
    intro i hi
    by_cases hlt : i < size
    · have hread : shape_is_zero shape size i = .ok (shape i) := by
        simp only [shape_is_zero, hlt, if_true]
      by_cases hz : shape i = true
      · obtain ⟨b, hb, hiff⟩ := ih (i + i_step) (by omega)
        refine ⟨b, ?_, ?_⟩
        · simp only [scan_col, hlt, if_true, hread, bind, Except.bind, hz, Bool.not_true,
            Bool.false_eq_true, if_false]
          exact hb
        · rw [hiff]
          constructor
          · rintro ⟨k, hk1, hk2⟩
            refine ⟨k + 1, ?_, ?_⟩
            · rw [Nat.add_mul, Nat.one_mul]; omega
            · have e : i + (k + 1) * i_step = i + i_step + k * i_step := by
                rw [Nat.add_mul, Nat.one_mul]; omega
              rw [e]; exact hk2
          · rintro ⟨k, hk1, hk2⟩
            cases k with
            | zero =>
              simp only [Nat.zero_mul, Nat.add_zero] at hk2
              rw [hz] at hk2; cases hk2
            | succ k =>
              have e : i + (k + 1) * i_step = i + i_step + k * i_step := by
                rw [Nat.add_mul, Nat.one_mul]; omega
              rw [e] at hk1 hk2
              exact ⟨k, hk1, hk2⟩
      · have hz2 : shape i = false := by simpa using hz
        refine ⟨true, ?_, ?_⟩
        · simp only [scan_col, hlt, if_true, hread, bind, Except.bind, hz2, Bool.not_false]
        · constructor
          · intro _
            exact ⟨0, by simpa using hlt, by simpa using hz2⟩
          · intro _; rfl
    · refine ⟨false, by simp only [scan_col, hlt, if_false], ?_⟩
      constructor
      · intro h; cases h
      · rintro ⟨k, hk, -⟩
        have : i ≤ i + k * i_step := Nat.le_add_right _ _
        omega

/-- The outer loop of the shape-filtered `make_col_group` on a `pr` by `pc` grid, started at
process row `r` with the rank `rc + r * pc` and the ordinal `col + r * W`: it returns and
appends the ranks `r1 * pc + rc` of the process rows `r1` in `[r, pr)`, in increasing order,
whose scan finds a non-zero tile. -/
theorem col_loop_spec (shape : Nat → Bool) (size W i_step pr pc rc col : Nat)
    (sel : Nat → Bool) (hrc : rc < pc)
    (hsel : ∀ r, r < pr → scan_col shape size i_step size (col + r * W) = .ok (sel r)) :
    ∀ fuel r l, r ≤ pr → pr ≤ r + fuel →
      col_loop shape size W i_step (pr * pc) pc fuel (rc + r * pc) (col + r * W) l =
        .ok (l ++ ((List.range' r (pr - r)).filter sel).map (fun r1 => r1 * pc + rc)) := by
  intro fuel
  induction fuel with
  | zero =>
    intro r l hr1 hr2
    have hr : r = pr := by omega
    subst hr
    have hlt : ¬ rc + r * pc < r * pc := by omega
    simp only [col_loop, hlt, if_false, Nat.sub_self, List.range'_zero, List.filter_nil,
      List.map_nil, List.append_nil]
  | succ fuel ih =>
    intro r l hr1 hr2
    rcases Nat.eq_or_lt_of_le hr1 with hr | hr
    · subst hr
      have hlt : ¬ rc + r * pc < r * pc := by omega
      simp only [col_loop, hlt, if_false, Nat.sub_self, List.range'_zero, List.filter_nil,
        List.map_nil, List.append_nil]
    · have hlt : rc + r * pc < pr * pc := by
        have h1 : (r + 1) * pc ≤ pr * pc := Nat.mul_le_mul_right pc hr
        rw [Nat.add_mul, Nat.one_mul] at h1
        omega
      have e1 : rc + r * pc + pc = rc + (r + 1) * pc := by
        rw [Nat.add_mul, Nat.one_mul]; omega
      have e2 : col + r * W + W = col + (r + 1) * W := by
        rw [Nat.add_mul, Nat.one_mul]; omega
      have e3 : pr - r = (pr - (r + 1)) + 1 := by omega
      simp only [col_loop, hlt, if_true, hsel r hr, bind, Except.bind, e1, e2]
      rw [ih (r + 1) _ (by omega) (by omega), e3, List.range'_succ]
      by_cases hs : sel r = true
      · simp only [hs, if_true, List.filter_cons_of_pos, List.map_cons, List.append_assoc,
          List.singleton_append, Nat.add_comm rc (r * pc)]
      · have hs2 : sel r = false := by simpa using hs
        simp only [hs2, Bool.false_eq_true, if_false, List.filter_cons_of_neg,
          not_false_eq_true]

/-- On a grid with `pr ≥ 1` process rows, a shape of `M * W` tiles and a column `col < W`,
the scan of process row `r < pr` finds a non-zero tile exactly when some tile row `q` in
`[0, M)` with `q mod pr = r` has a non-zero tile at the ordinal `q * W + col`. -/
theorem scan_col_rows (shape : Nat → Bool) (M W pr col r : Nat) (hcol : col < W)
    (hpr : 1 ≤ pr) (hr : r < pr) :
    scan_col shape (M * W) (W * pr) (M * W) (col + r * W) =
      .ok ((List.range M).any (fun q => decide (q % pr = r) && !shape (q * W + col))) := by
  have hstep : 1 ≤ W * pr := Nat.mul_pos (by omega) (by omega)
  obtain ⟨b, hb, hiff⟩ :=
    scan_col_spec shape (M * W) (W * pr) hstep (M * W) (col + r * W) (by omega)
  rw [hb]
  congr 1
  rw [Bool.eq_iff_iff, hiff]
  simp only [List.any_eq_true, List.mem_range, Bool.and_eq_true, decide_eq_true_eq,
    Bool.not_eq_true']
  constructor
  · rintro ⟨k, hk1, hk2⟩
    have e : col + r * W + k * (W * pr) = (r + k * pr) * W + col := by ring
    rw [e] at hk1 hk2
    refine ⟨r + k * pr, ?_, ?_, hk2⟩
    · by_contra hge
      have h1 : M * W ≤ (r + k * pr) * W := Nat.mul_le_mul_right W (by omega)
      omega
    · rw [Nat.add_mul_mod_self_right, Nat.mod_eq_of_lt hr]
  · rintro ⟨q, hq, hmod, hz⟩
    refine ⟨q / pr, ?_, ?_⟩
    · have e : col + r * W + q / pr * (W * pr) = (r + pr * (q / pr)) * W + col := by ring
      rw [e, ← hmod, Nat.mod_add_div]
      have h1 : (q + 1) * W ≤ M * W := Nat.mul_le_mul_right W hq
      rw [Nat.add_mul, Nat.one_mul] at h1
      omega
    · have e : col + r * W + q / pr * (W * pr) = (r + pr * (q / pr)) * W + col := by ring
      rw [e, ← hmod, Nat.mod_add_div]
      exact hz

/-- The list of ranks that the specification gives for the column group only depends on the
tiles of the shape, the ordinals below `size`. -/
theorem col_group_spec_congr (g : ProcGrid) (shape1 shape2 : Nat → Bool) (col size : Nat)
    (hsize : size % g.rows_ = 0) (hcol : col < size / g.rows_)
    (hsame : ∀ i, i < size → shape1 i = shape2 i) :
    col_group_spec g shape1 col size = col_group_spec g shape2 col size := by
  have hsz : g.rows_ * (size / g.rows_) = size := by
    have := Nat.div_add_mod size g.rows_
    omega
  simp only [col_group_spec]
  congr 1
  apply List.filter_congr
  intro r _
  rw [Bool.eq_iff_iff]
  simp only [List.any_eq_true, List.mem_range, Bool.and_eq_true, decide_eq_true_eq,
    Bool.not_eq_true']
  have hlt : ∀ q, q < g.rows_ → q * (size / g.rows_) + col < size := by
    intro q hq
    have h1 : (q + 1) * (size / g.rows_) ≤ g.rows_ * (size / g.rows_) :=
      Nat.mul_le_mul_right _ hq
    rw [Nat.add_mul, Nat.one_mul] at h1
    omega
  constructor
  · rintro ⟨q, hq, hmod, hz⟩
    exact ⟨q, hq, hmod, by rw [← hsame _ (hlt q hq)]; exact hz⟩
  · rintro ⟨q, hq, hmod, hz⟩
    exact ⟨q, hq, hmod, by rw [hsame _ (hlt q hq)]; exact hz⟩

/-- The shape-filtered column group on a grid returned by the constructor, for every shape,
every `size` with `size mod M = 0` and every `col < size / M`: a rank with `local_size != 0`
gets the ranks of `col_group_spec`, a rank with `local_size = 0` the empty group, and the
result depends only on the shape below `size`. -/
theorem make_col_group_eq_spec (opr : Nat → Nat → Nat → Nat) (rank P M N rs cs : Nat)
    (g : ProcGrid) (hP : 1 ≤ P) (hg : ctor opr rank P M N rs cs = .ok g)
    (hfit : M * N < 2 ^ word_bits)
    (shape : Nat → Bool) (col size : Nat) (hsize : size % M = 0) (hcol : col < size / M) :
    (g.local_size_ ≠ 0 →
      make_col_group g shape col size = .ok (col_group_spec g shape col size)) ∧
    (g.local_size_ = 0 → make_col_group g shape col size = .ok []) ∧
    (∀ shape2 : Nat → Bool, (∀ i, i < size → shape2 i = shape i) →
      make_col_group g shape2 col size = make_col_group g shape col size) := by
  obtain ⟨hM, -, hrows, -, hps, hpr, hpc, hinside⟩ :=
    ctor_grid_facts opr rank P M N rs cs g hP hg hfit
  rw [← hrows] at hsize hcol hM
  have hM0 : g.rows_ ≠ 0 := by omega
  have hdec1 : decide (size % g.rows_ = 0) = true := by simp [hsize]
  have hdec2 : decide (col < size / g.rows_) = true := by simp [hcol]
  have hsz : size = g.rows_ * (size / g.rows_) := by
    have := Nat.div_add_mod size g.rows_
    omega
  have hmain : ∀ sh : Nat → Bool, g.local_size_ ≠ 0 →
      make_col_group g sh col size = .ok (col_group_spec g sh col size) := by
    intro sh hin
    obtain ⟨-, -, -, hrc⟩ := hinside hin
    have hsel : ∀ r, r < g.proc_rows_ →
        scan_col sh size (size / g.rows_ * g.proc_rows_) size (col + r * (size / g.rows_)) =
          .ok ((List.range g.rows_).any (fun q =>
            decide (q % g.proc_rows_ = r) && !sh (q * (size / g.rows_) + col))) := by
      intro r hr
      have := scan_col_rows sh g.rows_ (size / g.rows_) g.proc_rows_ col r hcol hpr hr
      rw [← hsz] at this
      exact this
    have hfuel : g.proc_rows_ ≤ 0 + g.proc_rows_ * g.proc_cols_ := by
      have := Nat.le_mul_of_pos_right g.proc_rows_ (by omega : 0 < g.proc_cols_)
      omega
    have hloop := col_loop_spec sh size (size / g.rows_) (size / g.rows_ * g.proc_rows_)
      g.proc_rows_ g.proc_cols_ g.rank_col_.toNat col _ hrc hsel
      (g.proc_rows_ * g.proc_cols_) 0 [] (Nat.zero_le _) hfuel
    simp only [Nat.zero_mul, Nat.add_zero, Nat.sub_zero, List.nil_append,
      ← List.range_eq_range'] at hloop
    simp only [make_col_group, umod, udiv, hM0, if_false, bind, Except.bind, TA_ASSERT, hdec1,
      hdec2, if_true, hin, ne_eq, not_false_eq_true, hps, hloop]
    exact group_of_list _
  have hempty : ∀ sh : Nat → Bool, g.local_size_ = 0 → make_col_group g sh col size = .ok [] := by
    intro sh hout
    simp only [make_col_group, umod, udiv, hM0, if_false, bind, Except.bind, TA_ASSERT, hdec1,
      hdec2, if_true, hout, ne_eq, not_true_eq_false]
  refine ⟨hmain shape, hempty shape, ?_⟩
  intro shape2 hsame
  by_cases hin : g.local_size_ = 0
  · rw [hempty shape2 hin, hempty shape hin]
  · rw [hmain shape2 hin, hmain shape hin,
      col_group_spec_congr g shape2 shape col size hsize hcol hsame]

end ProcGrid

end TiledArray

/-! ## `Array::make_shape` -/

namespace TiledArray

namespace Array

/-- Setting a bit inside the bitset keeps its size, sets that bit and leaves the others. -/
theorem bitset_set_spec (bits bits1 : List Bool) (k : Nat)
    (h : bitset_set bits k = .ok bits1) :
    k < bits.length ∧ bits1.length = bits.length ∧
      ∀ i, (bits1.getD i false = true ↔ (bits.getD i false = true ∨ k = i)) := by
  by_cases hk : k < bits.length
  · simp only [bitset_set, hk, if_true] at h
    injection h with h
    subst h
    refine ⟨hk, by simp, ?_⟩
    intro i
    simp only [List.getD_eq_getElem?_getD, List.getElem?_set, hk, if_true]
    by_cases hki : k = i
    · simp [hki]
    · simp [hki]
  · simp [bitset_set, hk] at h

/-- The loop of `make_shape` returns when every listed tile is a tile of the bitset. -/
theorem set_tiles_total {ι : Type} (ord : ι → Nat) :
    ∀ (tiles : List ι) (bits : List Bool), (∀ t, t ∈ tiles → ord t < bits.length) →
      ∃ bits1, set_tiles ord tiles bits = .ok bits1 := by
  intro tiles
  induction tiles with
  | nil => intro bits _; exact ⟨bits, rfl⟩
  | cons t rest ih =>
    intro bits h
    have ht : ord t < bits.length := h t (List.mem_cons_self _ _)
    obtain ⟨bits1, hb⟩ := ih (bits.set (ord t) true) (by
      intro u hu
      simp only [List.length_set]
      exact h u (List.mem_cons_of_mem _ hu))
    exact ⟨bits1, by simp only [set_tiles, bitset_set, ht, if_true, bind, Except.bind, hb]⟩

/-- When the loop of `make_shape` returns, every listed tile was a tile of the bitset, the
size is unchanged, and a bit is set exactly when it was set before or its tile is listed. -/
theorem set_tiles_spec {ι : Type} (ord : ι → Nat) :
    ∀ (tiles : List ι) (bits bits1 : List Bool), set_tiles ord tiles bits = .ok bits1 →
      (∀ t, t ∈ tiles → ord t < bits.length) ∧ bits1.length = bits.length ∧
        ∀ i, (bits1.getD i false = true ↔
          (bits.getD i false = true ∨ ∃ t, t ∈ tiles ∧ ord t = i)) := by
  intro tiles
  induction tiles with
  | nil =>
    intro bits bits1 h
    simp only [set_tiles] at h
    injection h with h
    subst h
    refine ⟨by simp, rfl, ?_⟩
    intro i
    simp
  | cons t rest ih =>
    intro bits bits1 h
    simp only [set_tiles, bind, Except.bind] at h
    cases hs : bitset_set bits (ord t) with
    | error err => rw [hs] at h; cases h
    | ok bits0 =>
      rw [hs] at h
      obtain ⟨hk, hlen0, hbit0⟩ := bitset_set_spec bits bits0 (ord t) hs
      obtain ⟨hin, hlen1, hbit1⟩ := ih bits0 bits1 h
      refine ⟨?_, by rw [hlen1, hlen0], ?_⟩
      · intro u hu
        rcases List.mem_cons.mp hu with e | e
        · subst e; exact hk
        · rw [← hlen0]; exact hin u e
      · intro i
        rw [hbit1 i, hbit0 i]
        constructor
        · rintro ((h1 | h1) | ⟨u, hu, h1⟩)
          · exact Or.inl h1
          · exact Or.inr ⟨t, List.mem_cons_self _ _, h1⟩
          · exact Or.inr ⟨u, List.mem_cons_of_mem _ hu, h1⟩
        · rintro (h1 | ⟨u, hu, h1⟩)
          · exact Or.inl (Or.inl h1)
          · rcases List.mem_cons.mp hu with e | e
            · subst e; exact Or.inl (Or.inr h1)
            · exact Or.inr ⟨u, e, h1⟩

/-- The collective disjunction keeps the size of the bitmap, and a bit of the result is set
exactly when it is set locally or contributed by another process. -/
theorem bit_or_spec (bits : List Bool) (remote : Nat → Bool) :
    (bit_or bits remote).length = bits.length ∧
      ∀ i, i < bits.length →
        (bit_or bits remote)[i]? = some (bits.getD i false || remote i) := by
  refine ⟨by simp [bit_or], ?_⟩
  intro i hi
  simp only [bit_or, List.getElem?_map, List.getElem?_range hi, Option.map_some']

/-- C20: for every tile list and every bitmap `remote` contributed by the other processes,
`make_shape` returns a shape whenever the listed tiles are tiles of the range, and every
shape it returns has one bit per tile ordinal (`volume` bits), has the bit of every listed
tile set, has a bit set exactly when its tile is listed locally or contributed remotely, and
is the shape that any other build from the same inputs returns. -/
theorem C20_make_shape_bits {ι : Type} (volume : Nat) (ord : ι → Nat) (tiles : List ι)
    (remote : Nat → Bool) :
    ((∀ t, t ∈ tiles → ord t < volume) →
      ∃ shape, make_shape volume ord tiles remote = .ok shape) ∧
    (∀ shape, make_shape volume ord tiles remote = .ok shape →
      shape.length = volume ∧
      (∀ t, t ∈ tiles → shape[ord t]? = some true) ∧
      (∀ i, i < volume →
        (shape[i]? = some true ↔ ((∃ t, t ∈ tiles ∧ ord t = i) ∨ remote i = true))) ∧
      (∀ shape2, make_shape volume ord tiles remote = .ok shape2 → shape2 = shape)) := by
  constructor
  · intro hin
    obtain ⟨bits1, hb⟩ := set_tiles_total ord tiles (bitset_ctor volume) (by
      simpa [bitset_ctor] using hin)
    exact ⟨bit_or bits1 remote, by simp only [make_shape, hb, bind, Except.bind]⟩
  · intro shape h
    simp only [make_shape, bind, Except.bind] at h
    cases hs : set_tiles ord tiles (bitset_ctor volume) with
    | error err => rw [hs] at h; cases h
    | ok bits1 =>
      rw [hs] at h
      injection h with h
      subst h
      obtain ⟨hin, hlen, hbit⟩ := set_tiles_spec ord tiles (bitset_ctor volume) bits1 hs
      have hvol : (bitset_ctor volume).length = volume := by simp [bitset_ctor]
      rw [hvol] at hin hlen
      obtain ⟨hlen2, hget⟩ := bit_or_spec bits1 remote
      have hclear : ∀ i, (bitset_ctor volume).getD i false = false := by
        intro i
        simp only [bitset_ctor, List.getD_eq_getElem?_getD, List.getElem?_replicate]
        by_cases hi : i < volume
        · simp only [hi, if_true, Option.getD_some]
        · simp only [hi, if_false, Option.getD_none]
      have hchar : ∀ i, i < volume →
          ((bit_or bits1 remote)[i]? = some true ↔
            ((∃ t, t ∈ tiles ∧ ord t = i) ∨ remote i = true)) := by
        intro i hi
        rw [hget i (by omega)]
        simp only [Option.some.injEq, Bool.or_eq_true, hbit i, hclear i, Bool.false_eq_true,
          false_or]
      refine ⟨by omega, ?_, hchar, ?_⟩
      · intro t ht
        exact (hchar (ord t) (hin t ht)).mpr (Or.inl ⟨t, ht, rfl⟩)
      · intro shape2 h2
        simp only [make_shape, hs, bind, Except.bind] at h2
        injection h2 with h2
        exact h2.symm

/-- C20, on a range of 6 tiles with the tile list 1, 4, 1 and a remote contribution for
tile 0: the shape has the bits 0, 1 and 4 set. -/
theorem C20_make_shape_bits_witness :
    (∀ t, t ∈ [1, 4, 1] → id t < 6) ∧
    make_shape 6 id [1, 4, 1] (fun i => decide (i = 0)) =
      .ok [true, true, false, false, true, false] ∧
    [true, true, false, false, true, false].length = 6 ∧
    (∀ t, t ∈ [1, 4, 1] → [true, true, false, false, true, false][id t]? = some true) :=
  ⟨by decide, rfl,
    ((C20_make_shape_bits 6 id [1, 4, 1] (fun i => decide (i = 0))).2 _ rfl).1,
    ((C20_make_shape_bits 6 id [1, 4, 1] (fun i => decide (i = 0))).2 _ rfl).2.1⟩

end Array

end TiledArray

/-! ## `ProcGrid`: the grid inside the tile grid, the search loop, local counts -/

namespace TiledArray

namespace ProcGrid

/-- For tile counts and footprints of at least 1 the constructor returns a grid on every
rank of every world of at least one process. -/
theorem ctor_returns (opr : Nat → Nat → Nat → Nat) (rank P M N rs cs : Nat) (hP : 1 ≤ P)
    (hM : 1 ≤ M) (hN : 1 ≤ N) (hrs : 1 ≤ rs) (hcs : 1 ≤ cs) :
    ∃ g, ctor opr rank P M N rs cs = .ok g := by
  rcases Nat.eq_or_lt_of_le hP with h1 | h1
  · subst h1
    exact ⟨_, ctor_one_process_w opr rank M N rs cs hM hN hrs hcs⟩
  · rcases le_or_lt (umul M N) P with hsz | hsz
    · obtain ⟨hin, hout⟩ :=
        ctor_one_tile_per_process_w opr rank P M N rs cs h1 hsz hM hN hrs hcs
      rcases Nat.lt_or_ge rank (umul M N) with h | h
      · exact ⟨_, hin h⟩
      · exact ⟨_, hout h⟩
    · obtain ⟨x, -, -, -, hctor⟩ := ctor_general_w opr P M N rs cs h1 hsz hrs hcs _ rfl
      obtain ⟨hin, hout⟩ := hctor rank
      rcases Nat.lt_or_ge rank (x * (P / x)) with h | h
      · exact ⟨_, hin h⟩
      · exact ⟨_, hout h⟩

/-- What the constructor has stored when it returns a grid for a world of at least one
process, in all three cases of `init`: the process grid has no more rows than the tile grid;
when `P + N` does not exceed `2^64` it has no more columns than the tile grid; and a rank
inside the grid has as `local_size` the machine product of its local counts. -/
theorem ctor_grid_bounds_w (opr : Nat → Nat → Nat → Nat) (rank P M N rs cs : Nat)
    (g : ProcGrid) (hP : 1 ≤ P) (hg : ctor opr rank P M N rs cs = .ok g) :
    g.proc_rows_ ≤ M ∧ (P + N ≤ 2 ^ word_bits → g.proc_cols_ ≤ N) ∧
      (rank < g.proc_size_ → g.local_size_ = umul g.local_rows_ g.local_cols_) := by
  have hM : 1 ≤ M := by
    by_contra h
    simp [ctor, TA_ASSERT, h, bind, Except.bind] at hg
  have hN : 1 ≤ N := by
    by_contra h
    simp [ctor, TA_ASSERT, hM, h, bind, Except.bind] at hg
  have hrs : 1 ≤ rs := by
    by_contra h
    simp [ctor, TA_ASSERT, hM, hN, h, bind, Except.bind] at hg
  have hcs : 1 ≤ cs := by
    by_contra h
    simp [ctor, TA_ASSERT, hM, hN, hrs, h, bind, Except.bind] at hg
  rcases Nat.eq_or_lt_of_le hP with h1 | h1
  · subst h1
    rw [ctor_one_process_w opr rank M N rs cs hM hN hrs hcs] at hg
    injection hg with hg
    subst hg
    exact ⟨hM, fun _ => hN, fun _ => rfl⟩
  · rcases le_or_lt (umul M N) P with hsz | hsz
    · obtain ⟨hin, hout⟩ :=
        ctor_one_tile_per_process_w opr rank P M N rs cs h1 hsz hM hN hrs hcs
      rcases Nat.lt_or_ge rank (umul M N) with h | h
      · rw [hin h] at hg
        injection hg with hg
        subst hg
        exact ⟨le_refl _, fun _ => le_refl _, fun _ => (umul_of_lt 1 1 (by decide)).symm⟩
      · rw [hout h] at hg
        injection hg with hg
        subst hg
        refine ⟨le_refl _, fun _ => le_refl _, fun hr => ?_⟩
        have : rank < umul M N := hr
        omega
    · obtain ⟨x, hlo, hhi, -, hctor⟩ := ctor_general_w opr P M N rs cs h1 hsz hrs hcs _ rfl
      have hx1 : 1 ≤ x := le_trans (le_max_right _ _) hlo
      have hxM : x ≤ M := le_trans hhi (min_le_right _ _)
      have hyN : P + N ≤ 2 ^ word_bits → P / x ≤ N := by
        intro hPN
        have hlo2 : (P + N - 1) / N ≤ x := by
          have := le_trans (le_max_left _ _) hlo
          rw [usub_uadd_one P N hN hPN] at this
          exact this
        have hPxN : P ≤ x * N := by
          have h2 : (P + N - 1) / N < x + 1 := by omega
          have h3 := (Nat.div_lt_iff_lt_mul (by omega : 0 < N)).mp h2
          rw [Nat.add_mul, Nat.one_mul] at h3
          omega
        have h4 : P / x < N + 1 := by
          apply (Nat.div_lt_iff_lt_mul (by omega : 0 < x)).mpr
          rw [Nat.add_mul, Nat.one_mul, Nat.mul_comm N x]
          omega
        omega
      obtain ⟨hin, hout⟩ := hctor rank
      rcases Nat.lt_or_ge rank (x * (P / x)) with h | h
      · rw [hin h] at hg
        injection hg with hg
        subst hg
        exact ⟨hxM, hyN, fun _ => rfl⟩
      · rw [hout h] at hg
        injection hg with hg
        subst hg
        refine ⟨hxM, hyN, fun hr => ?_⟩
        have : rank < x * (P / x) := hr
        omega

/-- The number of `j` in `[0, b)` with `j mod r = v mod r` is `b / r`, plus 1 when
`v mod r < b mod r`. -/
theorem count_cyclic (r v b : Nat) (hr : 0 < r) :
    Nat.count (fun j => ((j % r : Nat) : Int) = ((v % r : Nat) : Int)) b =
      b / r + (if v % r < b % r then 1 else 0) := by
  rw [← Nat.count_modEq_card b hr v]
  simp only [Nat.count_eq_card_filter_range]
  congr 1
  apply Finset.filter_congr
  intro j _
  show ((j % r : Nat) : Int) = ((v % r : Nat) : Int) ↔ j % r = v % r
  exact Nat.cast_inj

end ProcGrid

end TiledArray

namespace TiledArray

namespace ProcGrid

/-- On a grid returned by the constructor for a world of at least one process, a rank inside
the grid has at least one local tile row; when `P + N` does not exceed `2^64` it has at least
one local tile column; and when moreover the tile count `M * N` is inside the machine word
it has at least one local tile. -/
theorem ctor_inside_local_pos (opr : Nat → Nat → Nat → Nat) (rank P M N rs cs : Nat)
    (g : ProcGrid) (hP : 1 ≤ P) (hg : ctor opr rank P M N rs cs = .ok g)
    (hr : rank < g.proc_size_) :
    1 ≤ g.local_rows_ ∧
      (P + N ≤ 2 ^ word_bits →
        1 ≤ g.local_cols_ ∧ (M * N < 2 ^ word_bits → 1 ≤ g.local_size_)) := by
  obtain ⟨-, -, -, -, hpr, hpc, -, hshare⟩ := ctor_grid_facts_w opr rank P M N rs cs g hP hg
  obtain ⟨hprM, hpcN, hsize⟩ := ctor_grid_bounds_w opr rank P M N rs cs g hP hg
  obtain ⟨-, -, -, hlr, hlc⟩ := hshare hr
  have h1 : 1 ≤ M / g.proc_rows_ := (Nat.one_le_div_iff (by omega)).mpr hprM
  have h3 : 1 ≤ g.local_rows_ := by omega
  refine ⟨h3, fun hPN => ?_⟩
  have h2 : 1 ≤ N / g.proc_cols_ := (Nat.one_le_div_iff (by omega)).mpr (hpcN hPN)
  have h4 : 1 ≤ g.local_cols_ := by omega
  refine ⟨h4, fun hfit => ?_⟩
  have h5 : g.local_rows_ ≤ M := by
    rw [hlr]
    exact share_le M g.proc_rows_ _ hpr
  have h6 : g.local_cols_ ≤ N := by
    rw [hlc]
    exact share_le N g.proc_cols_ _ hpc
  have h7 : g.local_rows_ * g.local_cols_ < 2 ^ word_bits :=
    lt_of_le_of_lt (Nat.mul_le_mul h5 h6) hfit
  rw [hsize hr, umul_of_lt _ _ h7]
  exact Nat.mul_pos h3 h4

/-- C24, failing input: 12 processes, an 8x8 tile grid and equal footprints, row estimate 3.
The clamp is `[2, 8]`, the clamped estimate 3 is strictly inside it and leaves no process
unused (12 mod 3 = 0), and yet the search does not return at once: it moves to the
candidate 6, and the constructor returns the 6x2 grid instead of the 3x4 grid. -/
theorem C24_exact_estimate_not_kept :
    max ((12 + 8 - 1) / 8) 1 = 2 ∧ min 12 8 = 8 ∧ max 2 (min 3 8) = 3 ∧ 12 % 3 = 0 ∧
    minimize_unused_procs 3 (12 / 3) 12 2 8 = .ok (6, 2) ∧
    ctor (fun _ _ _ => 3) 0 12 8 8 1 1 = .ok ⟨8, 8, 64, 6, 2, 12, 0, 0, 2, 4, 8⟩ :=
  ⟨by decide, by decide, by decide, by decide, rfl, rfl⟩

/-- C25, counterexample: (a) with one process and 2^32 x 2^32 tiles, rank 0 is inside the
1x1 grid and has 2^32 local rows and columns, but the product that `local_size` stores wraps
to 0; (b) with `2^64 - 4` processes (`nprocs` is a `size_type`), 3689348814741910323 x 5
tiles (a tile count of `2^64 - 1`) and equal footprints, for which the row estimate is `2^32`
(the `double` nearest to `P` is `2^64`, and at its square root the residual of the iteration
of `optimal_proc_row` is exactly 0), the numerator
`nprocs + cols_ - 1` of the lower limit of the clamp wraps to 0, the constructor returns the
grid of `2^32 + 2` rows and `2^32 - 2` columns, more columns than the 5 tile columns, and
rank 5, inside this grid, has `local_cols = 0` and `local_size = 0`. -/
theorem C25_grid_leaves_tiles :
    (ctor (fun _ _ _ => 1) 0 1 4294967296 4294967296 1 1 =
        .ok ⟨4294967296, 4294967296, 0, 1, 1, 1, 0, 0, 4294967296, 4294967296, 0⟩ ∧
      0 < (⟨4294967296, 4294967296, 0, 1, 1, 1, 0, 0, 4294967296, 4294967296, 0⟩ :
        ProcGrid).proc_size_ ∧
      ¬ 1 ≤ (⟨4294967296, 4294967296, 0, 1, 1, 1, 0, 0, 4294967296, 4294967296, 0⟩ :
        ProcGrid).local_size_) ∧
    (3689348814741910323 * 5 < 2 ^ word_bits ∧
      ctor (fun _ _ _ => 4294967296) 5 18446744073709551612 3689348814741910323 5 1 1 =
        .ok ⟨3689348814741910323, 5, 18446744073709551615, 4294967298, 4294967294,
          18446744073709551612, 0, 5, 858993459, 0, 0⟩ ∧
      ¬ (⟨3689348814741910323, 5, 18446744073709551615, 4294967298, 4294967294,
          18446744073709551612, 0, 5, 858993459, 0, 0⟩ : ProcGrid).proc_cols_ ≤ 5 ∧
      5 < (⟨3689348814741910323, 5, 18446744073709551615, 4294967298, 4294967294,
          18446744073709551612, 0, 5, 858993459, 0, 0⟩ : ProcGrid).proc_size_ ∧
      ¬ 1 ≤ (⟨3689348814741910323, 5, 18446744073709551615, 4294967298, 4294967294,
          18446744073709551612, 0, 5, 858993459, 0, 0⟩ : ProcGrid).local_cols_ ∧
      ¬ 1 ≤ (⟨3689348814741910323, 5, 18446744073709551615, 4294967298, 4294967294,
          18446744073709551612, 0, 5, 858993459, 0, 0⟩ : ProcGrid).local_size_) :=
  ⟨⟨rfl, by decide, by decide⟩, by decide, rfl, by decide, by decide, by decide, by decide⟩

/-- C25: for every world size `P ≥ 1`, every rank, every tile grid of `M ≥ 1` rows and
`N ≥ 1` columns, footprints of at least 1 and every value of the row estimate, the
constructor returns a grid (so none of its checked divisions is by zero) with
`1 ≤ proc_rows ≤ M` and `1 ≤ proc_cols`, and a rank inside the grid has `local_rows ≥ 1`;
when `P + N ≤ 2^64`, also `proc_cols ≤ N` and a rank inside the grid has `local_cols ≥ 1`;
and when moreover `M * N < 2^64`, a rank inside the grid has `local_size ≥ 1`. -/
theorem C25_grid_within_tiles (opr : Nat → Nat → Nat → Nat) (rank P M N rs cs : Nat)
    (hP : 1 ≤ P) (hM : 1 ≤ M) (hN : 1 ≤ N) (hrs : 1 ≤ rs) (hcs : 1 ≤ cs) :
    ∃ g, ctor opr rank P M N rs cs = .ok g ∧
      1 ≤ g.proc_rows_ ∧ g.proc_rows_ ≤ M ∧ 1 ≤ g.proc_cols_ ∧
      (P + N ≤ 2 ^ word_bits → g.proc_cols_ ≤ N) ∧
      (rank < g.proc_size_ →
        1 ≤ g.local_rows_ ∧
        (P + N ≤ 2 ^ word_bits →
          1 ≤ g.local_cols_ ∧ (M * N < 2 ^ word_bits → 1 ≤ g.local_size_))) := by
  obtain ⟨g, hg⟩ := ctor_returns opr rank P M N rs cs hP hM hN hrs hcs
  obtain ⟨-, -, -, -, hpr, hpc, -, -⟩ := ctor_grid_facts_w opr rank P M N rs cs g hP hg
  obtain ⟨hprM, hpcN, -⟩ := ctor_grid_bounds_w opr rank P M N rs cs g hP hg
  exact ⟨g, hg, hpr, hprM, hpc, hpcN, ctor_inside_local_pos opr rank P M N rs cs g hP hg⟩

/-- C25, for 11 processes, a 7x5 tile grid and the row estimate 4, at rank 3: the
constructor returns the 5x2 grid, and rank 3, inside it, has 2 local rows, 2 local columns
and 4 local tiles. -/
theorem C25_grid_within_tiles_witness :
    (1 ≤ 11 ∧ 1 ≤ 7 ∧ 1 ≤ 5 ∧ 1 ≤ 100 ∧ 1 ≤ 100) ∧
    (11 + 5 ≤ 2 ^ word_bits ∧ 7 * 5 < 2 ^ word_bits) ∧
    ctor (fun _ _ _ => 4) 3 11 7 5 100 100 = .ok ⟨7, 5, 35, 5, 2, 10, 1, 1, 2, 2, 4⟩ ∧
    ∃ g, ctor (fun _ _ _ => 4) 3 11 7 5 100 100 = .ok g ∧
      1 ≤ g.proc_rows_ ∧ g.proc_rows_ ≤ 7 ∧ 1 ≤ g.proc_cols_ ∧
      (11 + 5 ≤ 2 ^ word_bits → g.proc_cols_ ≤ 5) ∧
      (3 < g.proc_size_ →
        1 ≤ g.local_rows_ ∧
        (11 + 5 ≤ 2 ^ word_bits →
          1 ≤ g.local_cols_ ∧ (7 * 5 < 2 ^ word_bits → 1 ≤ g.local_size_))) :=
  ⟨by decide, by decide, rfl,
    C25_grid_within_tiles (fun _ _ _ => 4) 3 11 7 5 100 100 (by decide) (by decide) (by decide)
      (by decide) (by decide)⟩

/-- C27, counterexample: for 4 processes and equal footprints 1, at `x = 2` (the initial
guess `sqrt(4)`), the `f` of the iteration is 0, while the polynomial
`Nn(2x^4 - x^3) + Mm(P*x - P^2)` has the value 16. -/
theorem C27_class_doc_polynomial_differs :
    optimal_proc_row_f (4 : ℝ) 1 1 2 = 0 ∧
    (1 : ℝ) * (2 * 2 ^ 4 - 2 ^ 3) + 1 * (4 * 2 - 4 ^ 2) = 16 := by
  constructor
  · norm_num [optimal_proc_row_f]
  · norm_num

/-- C27, amended: for every `x`, the `f` evaluated by the iteration of `optimal_proc_row`
equals `Nn(2x^4 - x^3) + Mm(P*x - 2*P^2)` in exact arithmetic (in every commutative ring, in
particular over the reals), with `P` the number of processes and `Mm`, `Nn` the row and
column footprints. -/
theorem C27_residual_polynomial {R : Type} [CommRing R] (P Mm Nn x : R) :
    optimal_proc_row_f P Mm Nn x = Nn * (2 * x ^ 4 - x ^ 3) + Mm * (P * x - 2 * P ^ 2) := by
  simp only [optimal_proc_row_f]
  ring

/-- C28: on a grid returned by the constructor for a world of at least one process (in all
three cases of `init`, the general case among them), a rank inside the grid has as
`local_cols` the number of tile columns `j` in `[0, N)` with `j mod proc_cols = rank_col`,
and as `local_rows` the number of tile rows `q` in `[0, M)` with
`q mod proc_rows = rank_row`. -/
theorem C28_local_counts_cyclic (opr : Nat → Nat → Nat → Nat) (rank P M N rs cs : Nat)
    (g : ProcGrid) (hP : 1 ≤ P) (hg : ctor opr rank P M N rs cs = .ok g)
    (hr : rank < g.proc_size_) :
    g.local_cols_ = Nat.count (fun j => ((j % g.proc_cols_ : Nat) : Int) = g.rank_col_) N ∧
    g.local_rows_ = Nat.count (fun q => ((q % g.proc_rows_ : Nat) : Int) = g.rank_row_) M := by
  obtain ⟨-, -, -, -, hpr, hpc, -, hshare⟩ := ctor_grid_facts_w opr rank P M N rs cs g hP hg
  obtain ⟨hlt, hrr, hrc, hlr, hlc⟩ := hshare hr
  have hmod : (rank / g.proc_cols_) % g.proc_rows_ = rank / g.proc_cols_ :=
    Nat.mod_eq_of_lt hlt
  have hmod2 : (rank % g.proc_cols_) % g.proc_cols_ = rank % g.proc_cols_ :=
    Nat.mod_mod _ _
  have h1 := count_cyclic g.proc_cols_ (rank % g.proc_cols_) N (by omega)
  have h2 := count_cyclic g.proc_rows_ (rank / g.proc_cols_) M (by omega)
  rw [hmod2] at h1
  rw [hmod] at h2
  rw [hrr, hrc, h1, h2]
  exact ⟨hlc, hlr⟩

/-- C28, in the general case: for 11 processes, a 7x5 tile grid and the row estimate 4, at
rank 3 (row 1, column 1 of the 5x2 grid), the 2 local tile columns are the columns 1 and 3
and the 2 local tile rows are the rows 1 and 6. -/
theorem C28_local_counts_cyclic_witness :
    (1 ≤ 11 ∧ 3 < (⟨7, 5, 35, 5, 2, 10, 1, 1, 2, 2, 4⟩ : ProcGrid).proc_size_) ∧
    ctor (fun _ _ _ => 4) 3 11 7 5 100 100 = .ok ⟨7, 5, 35, 5, 2, 10, 1, 1, 2, 2, 4⟩ ∧
    ((⟨7, 5, 35, 5, 2, 10, 1, 1, 2, 2, 4⟩ : ProcGrid).local_cols_ =
      Nat.count (fun j => ((j % (⟨7, 5, 35, 5, 2, 10, 1, 1, 2, 2, 4⟩ : ProcGrid).proc_cols_ :
        Nat) : Int) = (⟨7, 5, 35, 5, 2, 10, 1, 1, 2, 2, 4⟩ : ProcGrid).rank_col_) 5 ∧
     (⟨7, 5, 35, 5, 2, 10, 1, 1, 2, 2, 4⟩ : ProcGrid).local_rows_ =
      Nat.count (fun q => ((q % (⟨7, 5, 35, 5, 2, 10, 1, 1, 2, 2, 4⟩ : ProcGrid).proc_rows_ :
        Nat) : Int) = (⟨7, 5, 35, 5, 2, 10, 1, 1, 2, 2, 4⟩ : ProcGrid).rank_row_) 7) :=
  ⟨by decide, rfl,
    C28_local_counts_cyclic (fun _ _ _ => 4) 3 11 7 5 100 100 _ (by decide) rfl (by decide)⟩

end ProcGrid

end TiledArray

/-! ## `ProcGrid`: dense shapes and the unfiltered groups -/

namespace TiledArray

namespace ProcGrid

/-- The loop of the unfiltered `make_row_group` appends the `k` ranks `p, p + 1, ...`. -/
theorem push_row_spec : ∀ k p l, push_row p k l = l ++ List.range' p k := by
  intro k
  induction k with
  | zero => intro p l; simp [push_row]
  | succ k ih =>
    intro p l
    simp only [push_row]
    rw [ih, List.range'_succ, List.append_assoc, List.singleton_append]

/-- The loop of the unfiltered `make_col_group` on a `pr` by `pc` grid, started at process
row `r` with the rank `rc + r * pc`: it returns and appends the ranks `r1 * pc + rc` of the
process rows `r1` in `[r, pr)`, in increasing order. -/
theorem push_col_spec (pr pc rc : Nat) (hrc : rc < pc) :
    ∀ fuel r l, r ≤ pr → pr ≤ r + fuel →
      push_col (pr * pc) pc fuel (rc + r * pc) l =
        .ok (l ++ (List.range' r (pr - r)).map (fun r1 => r1 * pc + rc)) := by
  intro fuel
  induction fuel with
  | zero =>
    intro r l hr1 hr2
    have hr : r = pr := by omega
    subst hr
    have hlt : ¬ rc + r * pc < r * pc := by omega
    simp only [push_col, hlt, if_false, Nat.sub_self, List.range'_zero, List.map_nil,
      List.append_nil]
  | succ fuel ih =>
    intro r l hr1 hr2
    rcases Nat.eq_or_lt_of_le hr1 with hr | hr
    · subst hr
      have hlt : ¬ rc + r * pc < r * pc := by omega
      simp only [push_col, hlt, if_false, Nat.sub_self, List.range'_zero, List.map_nil,
        List.append_nil]
    · have hlt : rc + r * pc < pr * pc := by
        have h1 : (r + 1) * pc ≤ pr * pc := Nat.mul_le_mul_right pc hr
        rw [Nat.add_mul, Nat.one_mul] at h1
        omega
      have e1 : rc + r * pc + pc = rc + (r + 1) * pc := by
        rw [Nat.add_mul, Nat.one_mul]; omega
      have e3 : pr - r = (pr - (r + 1)) + 1 := by omega
      simp only [push_col, hlt, if_true, e1]
      rw [ih (r + 1) _ (by omega) (by omega), e3, List.range'_succ]
      simp only [List.map_cons, List.append_assoc, List.singleton_append,
        Nat.add_comm rc (r * pc)]

/-- With no more process columns than tile columns and no zero tile in the tile row, the
ranks listed for the shape-filtered row group are all the ranks of the process row. -/
theorem row_group_spec_dense (g : ProcGrid) (shape : Nat → Bool) (row : Nat)
    (hpc : g.proc_cols_ ≤ g.cols_)
    (hdense : ∀ j, j < g.cols_ → shape (row * g.cols_ + j) = false) :
    row_group_spec g shape row =
      (List.range g.proc_cols_).map (fun c => g.rank_row_.toNat * g.proc_cols_ + c) := by
  unfold row_group_spec
  congr 1
  apply List.filter_eq_self.mpr
  intro c hc
  have hc1 : c < g.proc_cols_ := List.mem_range.mp hc
  simp only [List.any_eq_true, List.mem_range, Bool.and_eq_true, decide_eq_true_eq,
    Bool.not_eq_true']
  exact ⟨c, by omega, Nat.mod_eq_of_lt hc1, hdense c (by omega)⟩

/-- With no more process rows than tile rows and no zero tile in the tile column, the ranks
listed for the shape-filtered column group are all the ranks of the process column. -/
theorem col_group_spec_dense (g : ProcGrid) (shape : Nat → Bool) (col size : Nat)
    (hpr : g.proc_rows_ ≤ g.rows_)
    (hdense : ∀ q, q < g.rows_ → shape (q * (size / g.rows_) + col) = false) :
    col_group_spec g shape col size =
      (List.range g.proc_rows_).map (fun r => r * g.proc_cols_ + g.rank_col_.toNat) := by
  unfold col_group_spec
  congr 1
  apply List.filter_eq_self.mpr
  intro r hr
  have hr1 : r < g.proc_rows_ := List.mem_range.mp hr
  simp only [List.any_eq_true, List.mem_range, Bool.and_eq_true, decide_eq_true_eq,
    Bool.not_eq_true']
  exact ⟨r, by omega, Nat.mod_eq_of_lt hr1, hdense r (by omega)⟩

/-- Filtering the positions below `n` by a test that holds exactly below `k ≤ n` leaves the
positions below `k`. -/
theorem filter_range_lt (p : Nat → Bool) (k : Nat) (hp : ∀ c, p c = true ↔ c < k) :
    ∀ n, k ≤ n → (List.range n).filter p = List.range k := by
  intro n
  induction n with
  | zero =>
    intro hk
    have : k = 0 := by omega
    subst this
    rfl
  | succ n ih =>
    intro hk
    rw [List.range_succ, List.filter_append]
    rcases Nat.eq_or_lt_of_le hk with h | h
    · have hall : (List.range n).filter p = List.range n := by
        apply List.filter_eq_self.mpr
        intro c hc
        exact (hp c).mpr (by have := List.mem_range.mp hc; omega)
      have hn : p n = true := (hp n).mpr (by omega)
      rw [hall, h, List.range_succ]
      simp [hn]
    · have hn : p n = false := by
        cases hpn : p n with
        | false => rfl
        | true => have := (hp n).mp hpn; omega
      rw [ih (by omega)]
      simp [hn]

/-- With at least as many process columns as tile columns and no zero tile in the tile row,
the ranks listed for the shape-filtered row group are those of the first `N` process
columns. -/
theorem row_group_spec_wide (g : ProcGrid) (shape : Nat → Bool) (row : Nat)
    (hpc : g.cols_ ≤ g.proc_cols_)
    (hdense : ∀ j, j < g.cols_ → shape (row * g.cols_ + j) = false) :
    row_group_spec g shape row =
      (List.range g.cols_).map (fun c => g.rank_row_.toNat * g.proc_cols_ + c) := by
  unfold row_group_spec
  congr 1
  apply filter_range_lt _ g.cols_ _ g.proc_cols_ hpc
  intro c
  simp only [List.any_eq_true, List.mem_range, Bool.and_eq_true, decide_eq_true_eq,
    Bool.not_eq_true']
  constructor
  · rintro ⟨j, hj, hjc, -⟩
    rw [Nat.mod_eq_of_lt (by omega)] at hjc
    omega
  · intro hc
    exact ⟨c, hc, Nat.mod_eq_of_lt (by omega), hdense c hc⟩

/-- On a rank with local tiles the unfiltered `make_row_group` lists the `proc_cols` ranks
of the process row. -/
theorem make_row_group_unfiltered_spec (g : ProcGrid) (hin : g.local_size_ ≠ 0) :
    make_row_group_unfiltered g =
      .ok ((List.range g.proc_cols_).map (fun c => g.rank_row_.toNat * g.proc_cols_ + c)) := by
  simp only [make_row_group_unfiltered, hin, ne_eq, not_false_eq_true, if_true,
    Nat.add_sub_cancel_left, push_row_spec, List.nil_append, List.range'_eq_map_range]

/-- C29, counterexample: (a) with one process and 2^32 x 2^32 tiles, rank 0 is inside the
1x1 grid but its `local_size` has wrapped to 0, and the unfiltered groups are empty instead
of listing the rank 0; (b) with `2^64 - 4` processes (`nprocs` is a `size_type`),
3689348814741910323 x 5 tiles (a tile count of `2^64 - 1`) and equal footprints, for which
the row estimate is `2^32` (the `double` nearest to `P` is `2^64`, and at its square root
the residual of the iteration of `optimal_proc_row` is exactly 0), the lower
limit of the clamp is computed from a wrapped numerator and the grid has `2^32 - 2` process
columns for 5 tile columns: at rank 0, inside the grid, with the dense shape of `2^64 - 1`
tiles, the shape-filtered row group of tile row 0 lists the ranks 0 to 4, and the unfiltered
one lists `2^32 - 2` ranks, the rank 5 among them. -/
theorem C29_dense_groups_differ :
    (ctor (fun _ _ _ => 1) 0 1 4294967296 4294967296 1 1 =
        .ok ⟨4294967296, 4294967296, 0, 1, 1, 1, 0, 0, 4294967296, 4294967296, 0⟩ ∧
      0 < (⟨4294967296, 4294967296, 0, 1, 1, 1, 0, 0, 4294967296, 4294967296, 0⟩ :
        ProcGrid).proc_size_ ∧
      make_row_group_unfiltered
        ⟨4294967296, 4294967296, 0, 1, 1, 1, 0, 0, 4294967296, 4294967296, 0⟩ = .ok [] ∧
      make_col_group_unfiltered
        ⟨4294967296, 4294967296, 0, 1, 1, 1, 0, 0, 4294967296, 4294967296, 0⟩ = .ok [] ∧
      (List.range (⟨4294967296, 4294967296, 0, 1, 1, 1, 0, 0, 4294967296, 4294967296, 0⟩ :
        ProcGrid).proc_cols_).map (fun c => 0 * 1 + c) = [0]) ∧
    (3689348814741910323 * 5 < 2 ^ word_bits ∧
      ctor (fun _ _ _ => 4294967296) 0 18446744073709551612 3689348814741910323 5 1 1 =
        .ok ⟨3689348814741910323, 5, 18446744073709551615, 4294967298, 4294967294,
          18446744073709551612, 0, 0, 858993459, 1, 858993459⟩ ∧
      0 < (⟨3689348814741910323, 5, 18446744073709551615, 4294967298, 4294967294,
          18446744073709551612, 0, 0, 858993459, 1, 858993459⟩ : ProcGrid).proc_size_ ∧
      18446744073709551615 % 5 = 0 ∧ 0 < 18446744073709551615 / 5 ∧
      make_row_group ⟨3689348814741910323, 5, 18446744073709551615, 4294967298, 4294967294,
          18446744073709551612, 0, 0, 858993459, 1, 858993459⟩
          (fun _ => false) 0 18446744073709551615 = .ok [0, 1, 2, 3, 4] ∧
      ∃ l, make_row_group_unfiltered ⟨3689348814741910323, 5, 18446744073709551615, 4294967298, 4294967294,
          18446744073709551612, 0, 0, 858993459, 1, 858993459⟩ = .ok l ∧ l.length = 4294967294 ∧ 5 ∈ l) := by
  refine ⟨⟨rfl, by decide, rfl, rfl, by decide⟩, by decide, rfl, by decide, by decide,
    by decide, ?_, ?_⟩
  · rw [(make_row_group_eq_spec (fun _ _ _ => 4294967296) 0 18446744073709551612
      3689348814741910323 5 1 1
      ⟨3689348814741910323, 5, 18446744073709551615, 4294967298, 4294967294,
        18446744073709551612, 0, 0, 858993459, 1, 858993459⟩
      (by decide) rfl (fun _ => false) 0 18446744073709551615
      (by decide) (by decide)).1 (by decide),
      row_group_spec_wide _ _ 0 (by decide) (fun _ _ => rfl)]
    rfl
  · refine ⟨_, make_row_group_unfiltered_spec _ (by decide), ?_, ?_⟩
    · simp only [List.length_map, List.length_range]
    · simp only [List.mem_map, List.mem_range]
      exact ⟨5, by decide, by decide⟩

/-- C29: on a grid returned by the constructor for a world of `P ≥ 1` processes and `M x N`
tiles with `M * N < 2^64` and `P + N ≤ 2^64`, at a rank inside the grid, for a shape of
`size` tiles that reports none of them as zero: for every `row < size / N` (with
`size mod N = 0`) the shape-filtered `make_row_group` returns the group of the unfiltered
`make_row_group`, which lists the `proc_cols` ranks `rank_row * proc_cols + c`,
`c = 0, ..., proc_cols - 1`; and for every `col < size / M` (with `size mod M = 0`) the
shape-filtered `make_col_group` returns the group of the unfiltered `make_col_group`, which
lists the `proc_rows` ranks `r * proc_cols + rank_col`, `r = 0, ..., proc_rows - 1`. -/
theorem C29_dense_groups_unfiltered (opr : Nat → Nat → Nat → Nat) (rank P M N rs cs : Nat)
    (g : ProcGrid) (hP : 1 ≤ P) (hg : ctor opr rank P M N rs cs = .ok g)
    (hfit : M * N < 2 ^ word_bits) (hPN : P + N ≤ 2 ^ word_bits)
    (hr : rank < g.proc_size_) (shape : Nat → Bool) (size : Nat)
    (hdense : ∀ i, i < size → shape i = false) :
    (∀ row, size % N = 0 → row < size / N →
      make_row_group g shape row size = make_row_group_unfiltered g) ∧
    make_row_group_unfiltered g =
      .ok ((List.range g.proc_cols_).map (fun c => g.rank_row_.toNat * g.proc_cols_ + c)) ∧
    (∀ col, size % M = 0 → col < size / M →
      make_col_group g shape col size = make_col_group_unfiltered g) ∧
    make_col_group_unfiltered g =
      .ok ((List.range g.proc_rows_).map (fun r => r * g.proc_cols_ + g.rank_col_.toNat)) := by
  obtain ⟨hM, hN, hrows, hcols, hps, hpr, hpc, hinside⟩ :=
    ctor_grid_facts opr rank P M N rs cs g hP hg hfit
  obtain ⟨hprM, hpcN0, -⟩ := ctor_grid_bounds_w opr rank P M N rs cs g hP hg
  have hpcN : g.proc_cols_ ≤ N := hpcN0 hPN
  have hls : 1 ≤ g.local_size_ :=
    ((ctor_inside_local_pos opr rank P M N rs cs g hP hg hr).2 hPN).2 hfit
  have hin : g.local_size_ ≠ 0 := by omega
  obtain ⟨-, -, -, hrc⟩ := hinside hin
  have hrowU : make_row_group_unfiltered g =
      .ok ((List.range g.proc_cols_).map (fun c => g.rank_row_.toNat * g.proc_cols_ + c)) :=
    make_row_group_unfiltered_spec g hin
  have hcolU : make_col_group_unfiltered g =
      .ok ((List.range g.proc_rows_).map (fun r => r * g.proc_cols_ + g.rank_col_.toNat)) := by
    have hfuel : g.proc_rows_ ≤ 0 + g.proc_rows_ * g.proc_cols_ := by
      have := Nat.le_mul_of_pos_right g.proc_rows_ (by omega : 0 < g.proc_cols_)
      omega
    have hloop := push_col_spec g.proc_rows_ g.proc_cols_ g.rank_col_.toNat hrc
      (g.proc_rows_ * g.proc_cols_) 0 [] (Nat.zero_le _) hfuel
    simp only [Nat.zero_mul, Nat.add_zero, Nat.sub_zero, List.nil_append,
      ← List.range_eq_range'] at hloop
    simp only [make_col_group_unfiltered, hin, ne_eq, not_false_eq_true, if_true, hps, hloop,
      bind, Except.bind]
    exact group_of_list _
  refine ⟨?_, hrowU, ?_, hcolU⟩
  · intro row hsize hrow
    rw [hrowU, (make_row_group_eq_spec opr rank P M N rs cs g hP hg shape row size hsize
      hrow).1 hin]
    congr 1
    apply row_group_spec_dense g shape row (by omega)
    intro j hj
    apply hdense
    rw [hcols] at hj ⊢
    have h1 : row + 1 ≤ size / N := hrow
    have h2 := (Nat.le_div_iff_mul_le (by omega : 0 < N)).mp h1
    rw [Nat.add_mul, Nat.one_mul] at h2
    omega
  · intro col hsize hcol
    rw [hcolU, (make_col_group_eq_spec opr rank P M N rs cs g hP hg hfit shape col size hsize
      hcol).1 hin]
    congr 1
    apply col_group_spec_dense g shape col size (by omega)
    intro q hq
    apply hdense
    rw [hrows] at hq ⊢
    have h1 : (q + 1) * (size / M) ≤ M * (size / M) := Nat.mul_le_mul_right _ hq
    have h2 : M * (size / M) = size := by
      have := Nat.div_add_mod size M
      omega
    rw [Nat.add_mul, Nat.one_mul] at h1
    omega

/-- C29, on the 5x2 grid that 11 processes form for a 7x5 tile grid (row estimate 4), at
rank 3 (row 1, column 1), with the dense shape of 35 tiles: the row groups are the ranks
2, 3 and the column groups the ranks 1, 3, 5, 7, 9, filtered or not. -/
theorem C29_dense_groups_unfiltered_witness :
    (1 ≤ 11 ∧ 7 * 5 < 2 ^ word_bits ∧ 11 + 5 ≤ 2 ^ word_bits ∧
      3 < (⟨7, 5, 35, 5, 2, 10, 1, 1, 2, 2, 4⟩ : ProcGrid).proc_size_ ∧
      ∀ i, i < 35 → (fun _ : Nat => false) i = false) ∧
    ctor (fun _ _ _ => 4) 3 11 7 5 100 100 = .ok ⟨7, 5, 35, 5, 2, 10, 1, 1, 2, 2, 4⟩ ∧
    ((∀ row, 35 % 5 = 0 → row < 35 / 5 →
      make_row_group ⟨7, 5, 35, 5, 2, 10, 1, 1, 2, 2, 4⟩ (fun _ => false) row 35 =
        make_row_group_unfiltered ⟨7, 5, 35, 5, 2, 10, 1, 1, 2, 2, 4⟩) ∧
    make_row_group_unfiltered ⟨7, 5, 35, 5, 2, 10, 1, 1, 2, 2, 4⟩ =
      .ok ((List.range (⟨7, 5, 35, 5, 2, 10, 1, 1, 2, 2, 4⟩ : ProcGrid).proc_cols_).map
        (fun c => (⟨7, 5, 35, 5, 2, 10, 1, 1, 2, 2, 4⟩ : ProcGrid).rank_row_.toNat *
          (⟨7, 5, 35, 5, 2, 10, 1, 1, 2, 2, 4⟩ : ProcGrid).proc_cols_ + c)) ∧
    (∀ col, 35 % 7 = 0 → col < 35 / 7 →
      make_col_group ⟨7, 5, 35, 5, 2, 10, 1, 1, 2, 2, 4⟩ (fun _ => false) col 35 =
        make_col_group_unfiltered ⟨7, 5, 35, 5, 2, 10, 1, 1, 2, 2, 4⟩) ∧
    make_col_group_unfiltered ⟨7, 5, 35, 5, 2, 10, 1, 1, 2, 2, 4⟩ =
      .ok ((List.range (⟨7, 5, 35, 5, 2, 10, 1, 1, 2, 2, 4⟩ : ProcGrid).proc_rows_).map
        (fun r => r * (⟨7, 5, 35, 5, 2, 10, 1, 1, 2, 2, 4⟩ : ProcGrid).proc_cols_ +
          (⟨7, 5, 35, 5, 2, 10, 1, 1, 2, 2, 4⟩ : ProcGrid).rank_col_.toNat))) ∧
    make_row_group ⟨7, 5, 35, 5, 2, 10, 1, 1, 2, 2, 4⟩ (fun _ => false) 1 35 = .ok [2, 3] ∧
    make_col_group ⟨7, 5, 35, 5, 2, 10, 1, 1, 2, 2, 4⟩ (fun _ => false) 2 35 =
      .ok [1, 3, 5, 7, 9] :=
  ⟨⟨by decide, by decide, by decide, by decide, fun _ _ => rfl⟩, rfl,
    C29_dense_groups_unfiltered (fun _ _ _ => 4) 3 11 7 5 100 100 _ (by decide) rfl
      (by decide) (by decide) (by decide) (fun _ => false) 35 (fun _ _ => rfl),
    rfl, rfl⟩

end ProcGrid

end TiledArray

/-! ## `TiledRange1`: a failed `resize` -/

namespace TiledArray

namespace TiledRange1

/-- C30: for every `TiledRange1` value `r`, every boundary sequence `b` and every tile
offset `s` for which the constructor throws, `r.resize(b, s)` throws the same exception and
`r` is then exactly the value it was before the call: same `tiles()`, same `elements()`,
same tile intervals and same element-to-tile map. -/
theorem C30_resize_atomic (r : TiledRange1) (b : List Nat) (s : Nat)
    (hrej : ctor b s = .error .runtime_error) :
    resize r b s = .error .runtime_error ∧ resize_this r b s = r ∧
    tiles (resize_this r b s) = tiles r ∧ elements (resize_this r b s) = elements r ∧
    (resize_this r b s).tile_ranges_ = r.tile_ranges_ ∧
    (resize_this r b s).elem2tile_ = r.elem2tile_ := by
  have h : resize_this r b s = r := by
    simp only [resize_this, hrej]
  refine ⟨?_, h, by rw [h], by rw [h], by rw [h], by rw [h]⟩
  simp only [resize, hrej, bind, Except.bind]

/-- C30, for the range with the boundaries 0, 3, 7, 10 and the rejected boundary sequence
3, 1, 2. -/
theorem C30_resize_atomic_witness :
    ctor [3, 1, 2] 0 = .error .runtime_error ∧
    (resize ⟨⟨0, 3⟩, ⟨0, 10⟩, [⟨0, 3⟩, ⟨3, 7⟩, ⟨7, 10⟩], [0, 0, 0, 1, 1, 1, 1, 2, 2, 2]⟩
        [3, 1, 2] 0 = .error .runtime_error ∧
      resize_this ⟨⟨0, 3⟩, ⟨0, 10⟩, [⟨0, 3⟩, ⟨3, 7⟩, ⟨7, 10⟩], [0, 0, 0, 1, 1, 1, 1, 2, 2, 2]⟩
        [3, 1, 2] 0 =
        ⟨⟨0, 3⟩, ⟨0, 10⟩, [⟨0, 3⟩, ⟨3, 7⟩, ⟨7, 10⟩], [0, 0, 0, 1, 1, 1, 1, 2, 2, 2]⟩ ∧
      tiles (resize_this
        ⟨⟨0, 3⟩, ⟨0, 10⟩, [⟨0, 3⟩, ⟨3, 7⟩, ⟨7, 10⟩], [0, 0, 0, 1, 1, 1, 1, 2, 2, 2]⟩
        [3, 1, 2] 0) =
        tiles ⟨⟨0, 3⟩, ⟨0, 10⟩, [⟨0, 3⟩, ⟨3, 7⟩, ⟨7, 10⟩], [0, 0, 0, 1, 1, 1, 1, 2, 2, 2]⟩ ∧
      elements (resize_this
        ⟨⟨0, 3⟩, ⟨0, 10⟩, [⟨0, 3⟩, ⟨3, 7⟩, ⟨7, 10⟩], [0, 0, 0, 1, 1, 1, 1, 2, 2, 2]⟩
        [3, 1, 2] 0) =
        elements ⟨⟨0, 3⟩, ⟨0, 10⟩, [⟨0, 3⟩, ⟨3, 7⟩, ⟨7, 10⟩], [0, 0, 0, 1, 1, 1, 1, 2, 2, 2]⟩ ∧
      (resize_this
        ⟨⟨0, 3⟩, ⟨0, 10⟩, [⟨0, 3⟩, ⟨3, 7⟩, ⟨7, 10⟩], [0, 0, 0, 1, 1, 1, 1, 2, 2, 2]⟩
        [3, 1, 2] 0).tile_ranges_ = [⟨0, 3⟩, ⟨3, 7⟩, ⟨7, 10⟩] ∧
      (resize_this
        ⟨⟨0, 3⟩, ⟨0, 10⟩, [⟨0, 3⟩, ⟨3, 7⟩, ⟨7, 10⟩], [0, 0, 0, 1, 1, 1, 1, 2, 2, 2]⟩
        [3, 1, 2] 0).elem2tile_ = [0, 0, 0, 1, 1, 1, 1, 2, 2, 2]) ∧
    ctor [0, 3, 7, 10] 0 =
      .ok ⟨⟨0, 3⟩, ⟨0, 10⟩, [⟨0, 3⟩, ⟨3, 7⟩, ⟨7, 10⟩], [0, 0, 0, 1, 1, 1, 1, 2, 2, 2]⟩ :=
  ⟨rfl, C30_resize_atomic _ [3, 1, 2] 0 rfl, rfl⟩

end TiledRange1

end TiledArray

/-! ## `Array`: index checks -/

namespace TiledArray

namespace Array

/-- On an array with an implementation object, `check_index` throws the out-of-range error
for an ordinal outside the tile range. -/
theorem check_index_outside {σ τ φ ε ι : Type} (I : TensorImpl σ τ φ ε ι) (s : σ) (i : Nat)
    (hout : I.includes s i = false) : check_index I (some s) i = .error .out_of_range := by
  simp [check_index, check_pimpl, TA_USER_ASSERT, hout, bind, Except.bind]

/-- A method body guarded by `check_index` is not run for an ordinal outside the tile range:
the call fails with the out-of-range error and the implementation object is as it was. -/
theorem checked_outside {σ τ φ ε ι α : Type} (I : TensorImpl σ τ φ ε ι) (s : σ) (i : Nat)
    (hout : I.includes s i = false) (body : σ → Except Error α × σ) :
    checked I (some s) i body = (.error .out_of_range, some s) := by
  simp only [checked, check_index_outside I s i hout]

/-- C23: for every array that has an implementation object, in any state `s`, whatever the
operations of the implementation object do, and for every ordinal `i` that is not inside the
tile range: `find`, the four overloads of `set`, `owner`, `is_local` and `is_zero` fail with
the out-of-range error and leave the implementation object in the state `s`, so that none of
its operations has been called. -/
theorem C23_index_checked {σ τ φ ε ι : Type} (I : TensorImpl σ τ φ ε ι) (s : σ) (i : Nat)
    (hout : I.includes s i = false) :
    find I (some s) i = (.error .out_of_range, some s) ∧
    (∀ first : ι, set_from_iterator I (some s) i first = (.error .out_of_range, some s)) ∧
    (∀ v : ε, set_from_element I (some s) i v = (.error .out_of_range, some s)) ∧
    (∀ f : φ, set_future I (some s) i f = (.error .out_of_range, some s)) ∧
    (∀ v : τ, set_tile I (some s) i v = (.error .out_of_range, some s)) ∧
    owner I (some s) i = (.error .out_of_range, some s) ∧
    is_local I (some s) i = (.error .out_of_range, some s) ∧
    is_zero I (some s) i = (.error .out_of_range, some s) :=
  ⟨checked_outside I s i hout _, fun _ => checked_outside I s i hout _,
    fun _ => checked_outside I s i hout _, fun _ => checked_outside I s i hout _,
    fun _ => checked_outside I s i hout _, checked_outside I s i hout _,
    checked_outside I s i hout _, checked_outside I s i hout _⟩

/-- C23, for an array of 4 tiles that records the calls made on its implementation object:
the ordinal 7 is rejected with nothing recorded, while `find(2)` and `set(2, v)` reach the
implementation object. -/
theorem C23_index_checked_witness :
    (recording_impl 4).includes [] 7 = false ∧
    (find (recording_impl 4) (some []) 7 = (.error .out_of_range, some []) ∧
    (∀ first : Nat,
      set_from_iterator (recording_impl 4) (some []) 7 first =
        (.error .out_of_range, some [])) ∧
    (∀ v : Nat,
      set_from_element (recording_impl 4) (some []) 7 v = (.error .out_of_range, some [])) ∧
    (∀ f : Nat,
      set_future (recording_impl 4) (some []) 7 f = (.error .out_of_range, some [])) ∧
    (∀ v : Nat, set_tile (recording_impl 4) (some []) 7 v = (.error .out_of_range, some [])) ∧
    owner (recording_impl 4) (some []) 7 = (.error .out_of_range, some []) ∧
    is_local (recording_impl 4) (some []) 7 = (.error .out_of_range, some []) ∧
    is_zero (recording_impl 4) (some []) 7 = (.error .out_of_range, some [])) ∧
    find (recording_impl 4) (some []) 2 = (.ok 2, some [2]) ∧
    set_from_iterator (recording_impl 4) (some []) 2 5 = (.ok (), some [2, 2]) ∧
    set_from_element (recording_impl 4) (some []) 2 5 = (.ok (), some [2, 2]) ∧
    is_zero (recording_impl 4) (some []) 2 = (.ok false, some [2]) :=
  ⟨rfl, C23_index_checked (recording_impl 4) [] 7 rfl, rfl, rfl, rfl, rfl⟩

end Array

end TiledArray

/-! ## Tile operations -/

namespace TiledArray

namespace math

/-- The binary kernel applied to all elements of two arrays of equal length. -/
theorem vector_assign_full {α β : Type} (arg : List β) (result : List α) (op : α → β → α)
    (hlen : arg.length = result.length) :
    vector_assign result.length arg result op = .ok (List.zipWith op result arg) := by
  have h1 : result.length ≤ arg.length ∧ result.length ≤ result.length := ⟨by omega, le_refl _⟩
  have h2 : List.take result.length arg = arg := by
    rw [← hlen]; exact List.take_length arg
  simp only [vector_assign, h1, and_self, if_true, List.take_length, h2, List.drop_length,
    List.append_nil]

/-- The unary kernel applied to all elements of an array. -/
theorem vector_assign_unary_full {α : Type} (result : List α) (op : α → α) :
    vector_assign_unary result.length result op = .ok (result.map op) := by
  simp only [vector_assign_unary, le_refl, if_true, List.take_length, List.drop_length,
    List.append_nil]

/-- Without permutation, whatever the consumable flag, `Neg` returns the tile of the range of
`arg` with every element negated. -/
theorem Neg_no_permute_result {ρ α : Type} [Neg α] (C same : Bool) (arg : Tensor ρ α) :
    Except.map Prod.fst (Neg_no_permute C same arg) =
      .ok ⟨arg.range, arg.data.map (fun a => -a)⟩ := by
  cases h : (C && same)
  · simp only [Neg_no_permute, h, Bool.false_eq_true, if_false, Except.map, Tensor.neg]
  · simp only [Neg_no_permute, h, if_true, vector_assign_unary_full, bind, Except.bind,
      Except.map]
    rfl

/-- Without permutation, whatever the consumable flags, `Subt` applied to two tiles of equal
range and equal size returns the tile of that range with the differences `first[i] -
second[i]`. -/
theorem Subt_no_permute_result {ρ α : Type} [Sub α] (LC RC same_left same_right : Bool)
    (first second : Tensor ρ α) (heq : first.range = second.range)
    (hlen : first.data.length = second.data.length) :
    Except.map Prod.fst (Subt_no_permute LC RC same_left same_right first second) =
      .ok ⟨first.range, List.zipWith (fun a b => a - b) first.data second.data⟩ := by
  cases h1 : (LC && same_left)
  swap
  · simp only [Subt_no_permute, h1, if_true, Except.map, Tensor.sub_assign]
  · cases h2 : (RC && same_right)
    swap
    · have hz : List.zipWith minus_assign_right second.data first.data =
          List.zipWith (fun a b => a - b) first.data second.data := by
        rw [List.zipWith_comm]
        rfl
      simp only [Subt_no_permute, h1, h2, if_true, if_false, Bool.false_eq_true,
        vector_assign_full first.data second.data minus_assign_right hlen, bind, Except.bind,
        Except.map, hz, heq]
    · simp only [Subt_no_permute, h1, h2, Bool.false_eq_true, if_false, Except.map, Tensor.sub]

/-- Without permutation, whatever the consumable flags, `ScalMult` applied to two tiles of
equal range, each holding as many elements as the range has, returns the tile of that range
with the products `(first[i] * second[i]) * factor`, for a commutative multiplication. -/
theorem ScalMult_no_permute_result {ρ α : Type} [CommMagma α] (volume : ρ → Nat) (factor_ : α)
    (LC RC same_left same_right : Bool) (first second : Tensor ρ α)
    (heq : first.range = second.range) (hwf1 : first.data.length = volume first.range)
    (hlen : first.data.length = second.data.length) :
    Except.map Prod.fst
        (ScalMult_no_permute volume factor_ LC RC same_left same_right first second) =
      .ok ⟨first.range,
        List.zipWith (fun a b => (a * b) * factor_) first.data second.data⟩ := by
  cases h1 : (LC && same_left)
  swap
  · simp only [ScalMult_no_permute, h1, if_true,
      vector_assign_full second.data first.data (scal_multiplies_assign_op factor_) hlen.symm,
      bind, Except.bind, Except.map]
    rfl
  · cases h2 : (RC && same_right)
    swap
    · have hz : List.zipWith (scal_multiplies_assign_op factor_) second.data first.data =
          List.zipWith (fun a b => (a * b) * factor_) first.data second.data := by
        rw [List.zipWith_comm]
        congr 1
        funext a b
        simp only [scal_multiplies_assign_op, mul_comm b a]
      simp only [ScalMult_no_permute, h1, h2, if_true, if_false, Bool.false_eq_true,
        vector_assign_full first.data second.data (scal_multiplies_assign_op factor_) hlen,
        bind, Except.bind, Except.map, hz, heq]
    · have h3 : volume first.range ≤ first.data.length ∧
          volume first.range ≤ second.data.length := by omega
      have h4 : List.take (volume first.range) first.data = first.data := by
        rw [← hwf1]; exact List.take_length _
      have h5 : List.take (volume first.range) second.data = second.data := by
        rw [← hwf1, hlen]; exact List.take_length _
      simp only [ScalMult_no_permute, h1, h2, Bool.false_eq_true, if_false, Tensor.from_binary,
        h3, and_self,
        if_true, h4, h5, bind, Except.bind, Except.map]
      rfl

/-- The returned tile of a call that returns a given first component. -/
theorem result_of_map_fst {α β : Type} (x : Except Error (α × β)) (t : α)
    (h : Except.map Prod.fst x = .ok t) : ∃ r, x = .ok (t, r) := by
  cases x with
  | error e => simp [Except.map] at h
  | ok v =>
    simp only [Except.map, Except.ok.injEq] at h
    exact ⟨v.2, by rw [← h]⟩

/-- C21: for every pair of tiles `first`, `second` that hold as many elements as their
ranges have, for every setting of the consumable flags and an operation object without
permutation (`perm_.dim() ≤ 1`, as for `Subt()`): when the two ranges are equal,
`Subt(...)(first, second)` returns a tile with that range and as many elements whose
element at every position `i` is `first[i] - second[i]`; when the two ranges differ, the
call fails its assertion and returns nothing. -/
theorem C21_subt_elementwise {ρ α : Type} [DecidableEq ρ] [Sub α] (volume : ρ → Nat)
    (perm_dim : Nat) (LC RC same_left same_right : Bool)
    (permute : Tensor ρ α → Tensor ρ α → Except Error (Tensor ρ α))
    (first second : Tensor ρ α) (hperm : perm_dim ≤ 1)
    (hwf1 : first.data.length = volume first.range)
    (hwf2 : second.data.length = volume second.range) :
    (first.range = second.range →
      ∃ result first1 second1,
        Subt_call perm_dim LC RC same_left same_right permute first second =
          .ok (result, first1, second1) ∧
        result.range = first.range ∧ result.data.length = first.data.length ∧
        ∀ (i : Nat) (a b : α), first.data[i]? = some a → second.data[i]? = some b →
          result.data[i]? = some (a - b)) ∧
    (first.range ≠ second.range →
      Subt_call perm_dim LC RC same_left same_right permute first second =
        .error .assertion) := by
  have hnp : ¬ perm_dim > 1 := by omega
  constructor
  · intro heq
    have hlen : first.data.length = second.data.length := by rw [hwf1, hwf2, heq]
    obtain ⟨r, hr⟩ := result_of_map_fst _ _
      (Subt_no_permute_result LC RC same_left same_right first second heq hlen)
    refine ⟨⟨first.range, List.zipWith (fun a b => a - b) first.data second.data⟩, r.1, r.2,
      ?_, rfl, ?_, ?_⟩
    · simp only [Subt_call, TA_ASSERT, heq, decide_True, if_true, bind, Except.bind, hnp,
        if_false]
      rw [← heq]
      exact hr
    · simp only [List.length_zipWith, hlen, min_self]
    · intro i a b ha hb
      simp only [List.getElem?_zipWith, ha, hb]
  · intro hne
    simp only [Subt_call, TA_ASSERT, hne, decide_False, Bool.false_eq_true, if_false, bind,
      Except.bind]

/-- C21, for the right-consuming instantiation and two tiles of three integers on the same
range: the call returns the differences 5 - 1, 7 - 10, 9 - 4 (and has stored them in
`second`); with a different range for `second` it fails. -/
theorem C21_subt_elementwise_witness :
    ((0 : Nat) ≤ 1 ∧
      (⟨0, [5, 7, 9]⟩ : Tensor Nat Int).data.length =
        (fun _ : Nat => 3) (⟨0, [5, 7, 9]⟩ : Tensor Nat Int).range ∧
      (⟨0, [1, 10, 4]⟩ : Tensor Nat Int).data.length =
        (fun _ : Nat => 3) (⟨0, [1, 10, 4]⟩ : Tensor Nat Int).range) ∧
    (((⟨0, [5, 7, 9]⟩ : Tensor Nat Int).range = (⟨0, [1, 10, 4]⟩ : Tensor Nat Int).range →
      ∃ result first1 second1,
        Subt_call 0 false true false true (fun a _ => .ok a)
            (⟨0, [5, 7, 9]⟩ : Tensor Nat Int) ⟨0, [1, 10, 4]⟩ = .ok (result, first1, second1) ∧
        result.range = (⟨0, [5, 7, 9]⟩ : Tensor Nat Int).range ∧
        result.data.length = (⟨0, [5, 7, 9]⟩ : Tensor Nat Int).data.length ∧
        ∀ (i : Nat) (a b : Int), (⟨0, [5, 7, 9]⟩ : Tensor Nat Int).data[i]? = some a →
          (⟨0, [1, 10, 4]⟩ : Tensor Nat Int).data[i]? = some b →
          result.data[i]? = some (a - b)) ∧
    ((⟨0, [5, 7, 9]⟩ : Tensor Nat Int).range ≠ (⟨0, [1, 10, 4]⟩ : Tensor Nat Int).range →
      Subt_call 0 false true false true (fun a _ => .ok a)
        (⟨0, [5, 7, 9]⟩ : Tensor Nat Int) ⟨0, [1, 10, 4]⟩ = .error .assertion)) ∧
    Subt_call 0 false true false true (fun a _ => .ok a)
      (⟨0, [5, 7, 9]⟩ : Tensor Nat Int) ⟨0, [1, 10, 4]⟩ =
      .ok (⟨0, [4, -3, 5]⟩, ⟨0, [5, 7, 9]⟩, ⟨0, [4, -3, 5]⟩) ∧
    Subt_call 0 false true false true (fun a _ => .ok a)
      (⟨0, [5, 7, 9]⟩ : Tensor Nat Int) ⟨1, [1, 10, 4]⟩ = .error .assertion :=
  ⟨⟨by decide, rfl, rfl⟩,
    C21_subt_elementwise (fun _ : Nat => 3) 0 false true false true (fun a _ => .ok a)
      ⟨0, [5, 7, 9]⟩ ⟨0, [1, 10, 4]⟩ (by decide) rfl rfl,
    rfl, rfl⟩

/-- C22: for tiles that hold as many elements as their ranges have, an element type with a
commutative multiplication, and an operation object with any permutation (in particular
without one): for every setting of the consumable flags, `Neg`, `Subt` and `ScalMult`
return the same tile, or fail in the same way, as their instantiation with all flags
`false` does on the same arguments; and without permutation the right-consuming `Subt`
applied to tiles of equal range returns, and leaves in `second`, the tile of the elements
`first[i] - second[i]`. -/
theorem C22_consumable_same_result {ρ α : Type} [DecidableEq ρ] [Sub α] [Neg α] [CommMagma α]
    (volume : ρ → Nat) (factor_ : α) (perm_dim : Nat)
    (permute1 : Tensor ρ α → Except Error (Tensor ρ α))
    (permute2 : Tensor ρ α → Tensor ρ α → Except Error (Tensor ρ α))
    (arg first second : Tensor ρ α)
    (hwf1 : first.data.length = volume first.range)
    (hwf2 : second.data.length = volume second.range) :
    (∀ C same, Except.map Prod.fst (Neg_call perm_dim C same permute1 arg) =
      Except.map Prod.fst (Neg_call perm_dim false same permute1 arg)) ∧
    (∀ LC RC same_left same_right,
      Except.map Prod.fst
          (Subt_call perm_dim LC RC same_left same_right permute2 first second) =
        Except.map Prod.fst
          (Subt_call perm_dim false false same_left same_right permute2 first second)) ∧
    (∀ LC RC same_left same_right,
      Except.map Prod.fst
          (ScalMult_call volume factor_ perm_dim LC RC same_left same_right permute2 first
            second) =
        Except.map Prod.fst
          (ScalMult_call volume factor_ perm_dim false false same_left same_right permute2
            first second)) ∧
    (first.range = second.range → perm_dim ≤ 1 →
      Subt_call perm_dim false true false true permute2 first second =
        .ok (⟨second.range, List.zipWith (fun a b => a - b) first.data second.data⟩, first,
          ⟨second.range, List.zipWith (fun a b => a - b) first.data second.data⟩)) := by
  refine ⟨?_, ?_, ?_, ?_⟩
  · intro C same
    by_cases hp : perm_dim > 1
    · simp only [Neg_call, hp, if_true]
    · simp only [Neg_call, hp, if_false, Neg_no_permute_result]
  · intro LC RC same_left same_right
    by_cases heq : first.range = second.range
    · have hlen : first.data.length = second.data.length := by rw [hwf1, hwf2, heq]
      by_cases hp : perm_dim > 1
      · simp only [Subt_call, TA_ASSERT, heq, decide_True, if_true, bind, Except.bind, hp]
      · simp only [Subt_call, TA_ASSERT, heq, decide_True, if_true, bind, Except.bind, hp,
          if_false]
        rw [Subt_no_permute_result LC RC same_left same_right first second heq hlen,
          Subt_no_permute_result false false same_left same_right first second heq hlen]
    · simp only [Subt_call, TA_ASSERT, heq, decide_False, Bool.false_eq_true, if_false, bind,
        Except.bind]
  · intro LC RC same_left same_right
    by_cases heq : first.range = second.range
    · have hlen : first.data.length = second.data.length := by rw [hwf1, hwf2, heq]
      by_cases hp : perm_dim > 1
      · simp only [ScalMult_call, TA_ASSERT, heq, decide_True, if_true, bind, Except.bind, hp]
      · simp only [ScalMult_call, TA_ASSERT, heq, decide_True, if_true, bind, Except.bind, hp,
          if_false]
        rw [
          ScalMult_no_permute_result volume factor_ LC RC same_left same_right first second
            heq hwf1 hlen,
          ScalMult_no_permute_result volume factor_ false false same_left same_right first
            second heq hwf1 hlen]
    · simp only [ScalMult_call, TA_ASSERT, heq, decide_False, Bool.false_eq_true, if_false,
        bind, Except.bind]
  · intro heq hperm
    have hlen : first.data.length = second.data.length := by rw [hwf1, hwf2, heq]
    have hnp : ¬ perm_dim > 1 := by omega
    have hz : List.zipWith minus_assign_right second.data first.data =
        List.zipWith (fun a b => a - b) first.data second.data := by
      rw [List.zipWith_comm]
      rfl
    simp only [Subt_call, TA_ASSERT, heq, decide_True, if_true, bind, Except.bind, hnp,
      if_false, Subt_no_permute, Bool.and_self, Bool.false_eq_true]
    rw [← heq]
    simp only [vector_assign_full first.data second.data minus_assign_right hlen, hz, heq]

/-- C22, for tiles of three integers on the same range, the factor 2 and no permutation: the
consuming and the copying instantiations return the negated elements, the differences
5 - 1, 7 - 10, 9 - 4 and the doubled products. -/
theorem C22_consumable_same_result_witness :
    ((⟨0, [5, 7, 9]⟩ : Tensor Nat Int).data.length = (fun _ : Nat => 3) (⟨0, [5, 7, 9]⟩ : Tensor Nat Int).range ∧
      (⟨0, [1, 10, 4]⟩ : Tensor Nat Int).data.length = (fun _ : Nat => 3) (⟨0, [1, 10, 4]⟩ : Tensor Nat Int).range) ∧
    ((∀ C same, Except.map Prod.fst (Neg_call 0 C same (fun a => .ok a) (⟨0, [1, -2, 3]⟩ : Tensor Nat Int)) =
      Except.map Prod.fst (Neg_call 0 false same (fun a => .ok a) (⟨0, [1, -2, 3]⟩ : Tensor Nat Int))) ∧
    (∀ LC RC same_left same_right,
      Except.map Prod.fst
          (Subt_call 0 LC RC same_left same_right (fun a _ => .ok a) (⟨0, [5, 7, 9]⟩ : Tensor Nat Int) (⟨0, [1, 10, 4]⟩ : Tensor Nat Int)) =
        Except.map Prod.fst
          (Subt_call 0 false false same_left same_right (fun a _ => .ok a) (⟨0, [5, 7, 9]⟩ : Tensor Nat Int) (⟨0, [1, 10, 4]⟩ : Tensor Nat Int))) ∧
    (∀ LC RC same_left same_right,
      Except.map Prod.fst
          (ScalMult_call (fun _ : Nat => 3) (2 : Int) 0 LC RC same_left same_right (fun a _ => .ok a) (⟨0, [5, 7, 9]⟩ : Tensor Nat Int) (⟨0, [1, 10, 4]⟩ : Tensor Nat Int)) =
        Except.map Prod.fst
          (ScalMult_call (fun _ : Nat => 3) (2 : Int) 0 false false same_left same_right (fun a _ => .ok a) (⟨0, [5, 7, 9]⟩ : Tensor Nat Int) (⟨0, [1, 10, 4]⟩ : Tensor Nat Int))) ∧
    ((⟨0, [5, 7, 9]⟩ : Tensor Nat Int).range = (⟨0, [1, 10, 4]⟩ : Tensor Nat Int).range → 0 ≤ 1 →
      Subt_call 0 false true false true (fun a _ => .ok a) (⟨0, [5, 7, 9]⟩ : Tensor Nat Int) (⟨0, [1, 10, 4]⟩ : Tensor Nat Int) =
        .ok (⟨(⟨0, [1, 10, 4]⟩ : Tensor Nat Int).range, List.zipWith (fun a b => a - b) (⟨0, [5, 7, 9]⟩ : Tensor Nat Int).data (⟨0, [1, 10, 4]⟩ : Tensor Nat Int).data⟩, (⟨0, [5, 7, 9]⟩ : Tensor Nat Int),
          ⟨(⟨0, [1, 10, 4]⟩ : Tensor Nat Int).range, List.zipWith (fun a b => a - b) (⟨0, [5, 7, 9]⟩ : Tensor Nat Int).data (⟨0, [1, 10, 4]⟩ : Tensor Nat Int).data⟩))) ∧
    Neg_call 0 true true (fun a => .ok a) (⟨0, [1, -2, 3]⟩ : Tensor Nat Int) = .ok (⟨0, [-1, 2, -3]⟩, ⟨0, [-1, 2, -3]⟩) ∧
    Neg_call 0 false true (fun a => .ok a) (⟨0, [1, -2, 3]⟩ : Tensor Nat Int) = .ok (⟨0, [-1, 2, -3]⟩, ⟨0, [1, -2, 3]⟩) ∧
    Subt_call 0 false true false true (fun a _ => .ok a) (⟨0, [5, 7, 9]⟩ : Tensor Nat Int) (⟨0, [1, 10, 4]⟩ : Tensor Nat Int) =
      .ok (⟨0, [4, -3, 5]⟩, ⟨0, [5, 7, 9]⟩, ⟨0, [4, -3, 5]⟩) ∧
    Subt_call 0 false false false true (fun a _ => .ok a) (⟨0, [5, 7, 9]⟩ : Tensor Nat Int) (⟨0, [1, 10, 4]⟩ : Tensor Nat Int) =
      .ok (⟨0, [4, -3, 5]⟩, ⟨0, [5, 7, 9]⟩, ⟨0, [1, 10, 4]⟩) ∧
    ScalMult_call (fun _ : Nat => 3) (2 : Int) 0 false true true true (fun a _ => .ok a) (⟨0, [5, 7, 9]⟩ : Tensor Nat Int) (⟨0, [1, 10, 4]⟩ : Tensor Nat Int) =
      .ok (⟨0, [10, 140, 72]⟩, ⟨0, [5, 7, 9]⟩, ⟨0, [10, 140, 72]⟩) ∧
    ScalMult_call (fun _ : Nat => 3) (2 : Int) 0 false false true true (fun a _ => .ok a) (⟨0, [5, 7, 9]⟩ : Tensor Nat Int) (⟨0, [1, 10, 4]⟩ : Tensor Nat Int) =
      .ok (⟨0, [10, 140, 72]⟩, ⟨0, [5, 7, 9]⟩, ⟨0, [1, 10, 4]⟩) :=
  ⟨⟨rfl, rfl⟩,
    C22_consumable_same_result (fun _ : Nat => 3) (2 : Int) 0 (fun a => .ok a) (fun a _ => .ok a) (⟨0, [1, -2, 3]⟩ : Tensor Nat Int) (⟨0, [5, 7, 9]⟩ : Tensor Nat Int) (⟨0, [1, 10, 4]⟩ : Tensor Nat Int) rfl rfl,
    rfl, rfl, rfl, rfl, rfl, rfl⟩

end math

end TiledArray
